import Mathlib

/-!
Verification of the calculator core: ExpressionParser, CalculatorEngine with
formatNumber, and StateManager (src/src/core, src/src/utils/formatters.js)

A shallow embedding of the calculator's expression parser, engine and state
manager.  A JavaScript string
is modelled as the list of its characters.  Every character the parser accepts
lies in the Basic Multilingual Plane, so a character and a UTF-16 code unit
coincide on every text that survives character validation; any other character
is rejected by that validation in both views.
-/

namespace ExpressionParser

/-- The errors `parse` can throw, one constructor per `throw new Error(...)`. -/
inductive ParseError where
  /-- The message is "Invalid character in expression". -/
  | invalidCharacter
  /-- The message is "Invalid number format: multiple decimal points". -/
  | multipleDecimalPoints
  /-- The message is "Invalid number format: multiple decimal points in number". -/
  | multipleDecimalPointsInNumber
  /-- The message is "Unbalanced parentheses". -/
  | unbalancedParentheses
  deriving DecidableEq, Repr

deriving instance DecidableEq for Except

/-- The regular-expression class `\s` of JavaScript. -/
def isWhitespace (c : Char) : Bool :=
  let n := c.toNat
  n == 0x09 || n == 0x0A || n == 0x0B || n == 0x0C || n == 0x0D || n == 0x20 ||
  n == 0xA0 || n == 0x1680 || (0x2000 ≤ n && n ≤ 0x200A) || n == 0x2028 ||
  n == 0x2029 || n == 0x202F || n == 0x205F || n == 0x3000 || n == 0xFEFF

/-- The regular-expression class `\d` (and `0-9`) of JavaScript. -/
def isDigit (c : Char) : Bool :=
  48 ≤ c.toNat && c.toNat ≤ 57

/-- The character class of `this.validChars`, `[0-9+\-*/().πe\s×÷sincotanlgqr]`. -/
def isValidChar (c : Char) : Bool :=
  isDigit c || c == '+' || c == '-' || c == '*' || c == '/' || c == '(' ||
  c == ')' || c == '.' || c == 'π' || c == 'e' || isWhitespace c || c == '×' ||
  c == '÷' || c == 's' || c == 'i' || c == 'n' || c == 'c' || c == 'o' ||
  c == 't' || c == 'a' || c == 'l' || c == 'g' || c == 'q' || c == 'r'

/-- The step `expression.replace(/\s+/g, '')`. -/
def removeWhitespace (expression : List Char) : List Char :=
  expression.filter (fun c => !isWhitespace c)

/-- The method `_validateCharacters`: the text matches `^[...]+$`. -/
def validateCharacters (expression : List Char) : Except ParseError Unit :=
  if expression ≠ [] ∧ expression.all isValidChar then .ok ()
  else .error .invalidCharacter

/-- One character of `_convertOperators`. -/
def convertOperator (c : Char) : Char :=
  if c == '×' then '*' else if c == '÷' then '/' else c

/-- The method `_convertOperators`: `.replace(/×/g, '*').replace(/÷/g, '/')`. -/
def convertOperators (expression : List Char) : List Char :=
  (expression.map (fun c => if c == '×' then '*' else c)).map
    (fun c => if c == '÷' then '/' else c)

/-- The class `[^0-9.]`. -/
def isNotDigitOrDot (c : Char) : Bool :=
  !(isDigit c || c == '.')

/-- The global replace of `/(^|[^0-9.])\.(\d)/g` by `'$10.$2'`, scanning from the
left; the flag tells whether the scan position is the start of the text. -/
def normalizeDecimalsGo : Bool → List Char → List Char
  | _, [] => []
  | _, [c] => [c]
  | atStart, [c, d] =>
    if atStart && c == '.' && isDigit d then ['0', '.', d]
    else c :: normalizeDecimalsGo false [d]
  | atStart, c :: d :: d2 :: rest =>
    if atStart && c == '.' && isDigit d then
      '0' :: '.' :: d :: normalizeDecimalsGo false (d2 :: rest)
    else if isNotDigitOrDot c && d == '.' && isDigit d2 then
      c :: '0' :: '.' :: d2 :: normalizeDecimalsGo false rest
    else
      c :: normalizeDecimalsGo false (d :: d2 :: rest)

/-- The method `_normalizeDecimals`. -/
def normalizeDecimals (expression : List Char) : List Char :=
  normalizeDecimalsGo true expression

/-- The test `/\.\.+/.test(expression)`: two adjacent decimal points somewhere. -/
def hasConsecutiveDots : List Char → Bool
  | [] => false
  | [_] => false
  | c :: d :: rest => (c == '.' && d == '.') || hasConsecutiveDots (d :: rest)

/-- Where the matcher of `/\d+\.?\d*\.?\d*/` stands inside the pattern. -/
inductive NumberStage where
  /-- No match is open. -/
  | outside
  /-- Inside the leading `\d+`. -/
  | intPart
  /-- The first `\.?` took a point; inside the first `\d*`. -/
  | afterFirstDot
  /-- The second `\.?` took a point; inside the last `\d*`. -/
  | afterSecondDot
  deriving DecidableEq, Repr

/-- The call `expression.match(/\d+\.?\d*\.?\d*/g)`: the greedy matches from left to
right.  Every part after `\d+` is optional, so the matcher never backtracks; `cur`
is the text of the match that is open. -/
def numbersGo : NumberStage → List Char → List Char → List (List Char)
  | .outside, _, [] => []
  | _, cur, [] => [cur]
  | .outside, _, c :: rest =>
    if isDigit c then numbersGo .intPart [c] rest else numbersGo .outside [] rest
  | .intPart, cur, c :: rest =>
    if isDigit c then numbersGo .intPart (cur ++ [c]) rest
    else if c == '.' then numbersGo .afterFirstDot (cur ++ [c]) rest
    else cur :: numbersGo .outside [] rest
  | .afterFirstDot, cur, c :: rest =>
    if isDigit c then numbersGo .afterFirstDot (cur ++ [c]) rest
    else if c == '.' then numbersGo .afterSecondDot (cur ++ [c]) rest
    else cur :: numbersGo .outside [] rest
  | .afterSecondDot, cur, c :: rest =>
    if isDigit c then numbersGo .afterSecondDot (cur ++ [c]) rest
    else cur :: numbersGo .outside [] rest

/-- The matches `numbers` of `_validateNumberFormat` (empty list for `null`). -/
def numbers (expression : List Char) : List (List Char) :=
  numbersGo .outside [] expression

/-- The value `dotCount` of `_validateNumberFormat`. -/
def dotCount (num : List Char) : Nat :=
  num.count '.'

/-- The method `_validateNumberFormat`. -/
def validateNumberFormat (expression : List Char) : Except ParseError Unit :=
  if hasConsecutiveDots expression then .error .multipleDecimalPoints
  else if (numbers expression).any (fun num => decide (dotCount num > 1)) then
    .error .multipleDecimalPointsInNumber
  else .ok ()

/-- The loop of `_validateParentheses`, from a given `balance`. -/
def validateParenthesesGo : Int → List Char → Except ParseError Int
  | balance, [] => .ok balance
  | balance, c :: rest =>
    if c == '(' then validateParenthesesGo (balance + 1) rest
    else if c == ')' then
      if balance - 1 < 0 then .error .unbalancedParentheses
      else validateParenthesesGo (balance - 1) rest
    else validateParenthesesGo balance rest

/-- The method `_validateParentheses`. -/
def validateParentheses (expression : List Char) : Except ParseError Unit :=
  match validateParenthesesGo 0 expression with
  | .error err => .error err
  | .ok balance => if balance ≠ 0 then .error .unbalancedParentheses else .ok ()

/-- The field `this.constants`. -/
def constants : List Char := ['π', 'e']

/-- The field `this.functions`. -/
def functions : List (List Char) :=
  [['s', 'i', 'n'], ['c', 'o', 's'], ['t', 'a', 'n'], ['l', 'o', 'g'], ['l', 'n'],
   ['s', 'q', 'r', 't']]

/-- The first group `(\d|\.|\))` of the implicit-multiplication patterns. -/
def isOperandEnd (c : Char) : Bool :=
  isDigit c || c == '.' || c == ')'

/-- The group `([πe])`. -/
def isConstant (c : Char) : Bool :=
  c == 'π' || c == 'e'

/-- The first of the alternatives `alts` that the text starts with. -/
def matchAlt (alts : List (List Char)) (s : List Char) : Option (List Char) :=
  alts.find? (fun alt => alt.isPrefixOf s)

/-- The global replace of `/(first)(alts)/g` by `'$1*$2'`, where `first` is a
one-character class and `alts` the literal alternatives of the second group.
The scan runs from the left; after a match it resumes behind the matched text,
so `skip` characters are copied without being examined. -/
def insertStarGo (first : Char → Bool) (alts : List (List Char)) :
    Nat → List Char → List Char
  | _, [] => []
  | skip + 1, c :: rest => c :: insertStarGo first alts skip rest
  | 0, c :: rest =>
    if first c then
      match matchAlt alts rest with
      | some alt => c :: '*' :: insertStarGo first alts alt.length rest
      | none => c :: insertStarGo first alts 0 rest
    else c :: insertStarGo first alts 0 rest

/-- One `result.replace(/(first)(alts)/g, '$1*$2')`. -/
def insertStar (first : Char → Bool) (alts : List (List Char)) (s : List Char) :
    List Char :=
  insertStarGo first alts 0 s

/-- The method `_handleImplicitMultiplication`. -/
def handleImplicitMultiplication (expression : List Char) : List Char :=
  let result := insertStar isOperandEnd [['π'], ['e']] expression
  let result := insertStar isOperandEnd [['(']] result
  let result := functions.foldl (fun r func => insertStar isOperandEnd [func] r) result
  insertStar isConstant [['(']] result

/-- The method `parse`, on a string argument. -/
def parse (expression : List Char) : Except ParseError (List Char) :=
  if expression = [] then .ok []
  else
    let parsed := removeWhitespace expression
    if parsed = [] then .ok []
    else
      match validateCharacters parsed with
      | .error err => .error err
      | .ok _ =>
        let parsed := normalizeDecimals (convertOperators parsed)
        match validateNumberFormat parsed with
        | .error err => .error err
        | .ok _ =>
          match validateParentheses parsed with
          | .error err => .error err
          | .ok _ => .ok (handleImplicitMultiplication parsed)

/-- The set of characters listed for character validation: digits, the point,
the operators, the parentheses, the constants, the display glyphs and the
letters of the function names.  It is `isValidChar` without the class `\s`. -/
def isListedChar (c : Char) : Bool :=
  isDigit c || c == '.' || c == '+' || c == '-' || c == '*' || c == '/' ||
  c == '(' || c == ')' || c == 'π' || c == 'e' || c == '×' || c == '÷' ||
  c == 's' || c == 'i' || c == 'n' || c == 'c' || c == 'o' || c == 't' ||
  c == 'a' || c == 'l' || c == 'g' || c == 'q' || c == 'r'

/-- The body of `parse` after the two early returns. -/
def parseCore (parsed : List Char) : Except ParseError (List Char) :=
  match validateCharacters parsed with
  | .error err => .error err
  | .ok _ =>
    match validateNumberFormat (normalizeDecimals (convertOperators parsed)) with
    | .error err => .error err
    | .ok _ =>
      match validateParentheses (normalizeDecimals (convertOperators parsed)) with
      | .error err => .error err
      | .ok _ =>
        .ok (handleImplicitMultiplication (normalizeDecimals (convertOperators parsed)))

/-- Whether the text starts with a digit. -/
def startsWithDigit : List Char → Bool
  | [] => false
  | d :: _ => isDigit d

/-- Decimal normalization as the specification words it: a `0` is put before
every `.` that is followed by a digit and is free, that is, at the start of the
text or preceded by a character that is neither a digit nor `.`; the flag tells
whether the head of the text is free. -/
def prefixZeros : Bool → List Char → List Char
  | _, [] => []
  | free, c :: rest =>
    if free && c == '.' && startsWithDigit rest then
      '0' :: c :: prefixZeros false rest
    else c :: prefixZeros (isNotDigitOrDot c) rest

/-- The text contains a `.` that is followed by a digit and is at the start of
the text or preceded by a character that is neither a digit nor `.`. -/
def HasFreeDot (s : List Char) : Prop :=
  (∃ d rest, isDigit d = true ∧ s = '.' :: d :: rest) ∨
  (∃ a d, isNotDigitOrDot a = true ∧ isDigit d = true ∧ [a, '.', d] <:+: s)

/-- Executable form of `HasFreeDot`; the flag tells whether the head is free. -/
def freeDotGo : Bool → List Char → Bool
  | _, [] => false
  | free, c :: rest =>
    (free && c == '.' && startsWithDigit rest) || freeDotGo (isNotDigitOrDot c) rest

/-- The number of points the open match holds at a stage of the matcher. -/
def NumberStage.dots : NumberStage → Nat
  | .outside => 0
  | .intPart => 0
  | .afterFirstDot => 1
  | .afterSecondDot => 2

/-- Whether the matcher of `numbers`, started at a stage, takes a second point
into one match somewhere in the text. -/
def takesSecondDot : NumberStage → List Char → Bool
  | .afterSecondDot, _ => true
  | _, [] => false
  | .outside, c :: rest =>
    if isDigit c then takesSecondDot .intPart rest else takesSecondDot .outside rest
  | .intPart, c :: rest =>
    if isDigit c then takesSecondDot .intPart rest
    else if c == '.' then takesSecondDot .afterFirstDot rest
    else takesSecondDot .outside rest
  | .afterFirstDot, c :: rest =>
    if isDigit c then takesSecondDot .afterFirstDot rest
    else if c == '.' then true
    else takesSecondDot .outside rest

/-- Every `.` of the text is bare: none is preceded by a digit or another `.`, and
none is followed by a digit. -/
def AllDotsBare (s : List Char) : Prop :=
  (∀ a, (isDigit a = true ∨ a = '.') → ¬ [a, '.'] <:+: s) ∧
  (∀ d, isDigit d = true → ¬ ['.', d] <:+: s)

/-- Whether two adjacent characters of the text satisfy `P`. -/
def hasPair (P : Char → Char → Bool) : List Char → Bool
  | [] => false
  | [_] => false
  | c :: d :: rest => P c d || hasPair P (d :: rest)

/-- The characters `(` and `)`. -/
def isParen (c : Char) : Bool :=
  c == '(' || c == ')'

/-- The number of `(` minus the number of `)` of a text. -/
def parenBalance (s : List Char) : Int :=
  (s.count '(' : Int) - (s.count ')' : Int)

/-- The text `t` is the text `s` with `*` characters put in, each directly before
a character of `s` that is neither a digit nor `.`. -/
inductive StarInserted : List Char → List Char → Prop where
  /-- Nothing is put into the empty text. -/
  | nil : StarInserted [] []
  /-- A character of `s` is kept. -/
  | cons (c : Char) {s t : List Char} : StarInserted s t → StarInserted (c :: s) (c :: t)
  /-- A `*` is put before the head `y` of `s`. -/
  | star {y : Char} {s t : List Char} : isDigit y = false → (y == '.') = false →
      StarInserted (y :: s) t → StarInserted (y :: s) ('*' :: t)

/-- Every alternative of a second group is non-empty and starts with a character
that is neither a digit nor `.`. -/
def AltsStartPlain (alts : List (List Char)) : Prop :=
  ∀ alt ∈ alts, ∃ y r, alt = y :: r ∧ isDigit y = false ∧ (y == '.') = false

/-- The replace passes of `_handleImplicitMultiplication` in their order, each
given by its first group and the alternatives of its second group. -/
def passes : List ((Char → Bool) × List (List Char)) :=
  [(isOperandEnd, [['π'], ['e']]), (isOperandEnd, [['(']])] ++
  functions.map (fun func => (isOperandEnd, [func])) ++
  [(isConstant, [['(']])]

/-- Running replace passes one after the other. -/
def runPasses (ps : List ((Char → Bool) × List (List Char))) (s : List Char) : List Char :=
  ps.foldl (fun r p => insertStar p.1 p.2 r) s

/-- The text holds no match of the pattern of a pass. -/
def NoMatch (p : (Char → Bool) × List (List Char)) (t : List Char) : Prop :=
  ∀ a alt, p.1 a = true → alt ∈ p.2 → ¬ (a :: alt) <:+: t

/-- Side conditions on a pass: `*` is outside its first group, its alternatives
start with a character that is neither a digit nor `.`, hold no `*` and hold no
character of the first group. -/
def GoodPass (p : (Char → Bool) × List (List Char)) : Prop :=
  p.1 '*' = false ∧ AltsStartPlain p.2 ∧ (∀ alt ∈ p.2, '*' ∉ alt) ∧
  (∀ alt ∈ p.2, ∀ c ∈ alt, p.1 c = false)

/-- The texts that may follow an operand end without an operator: a constant,
an opening parenthesis or a function name. -/
def operandFollowers : List (List Char) :=
  [['π'], ['e'], ['(']] ++ functions

/-- A place where a `*` is implied: a digit, `.` or `)` immediately followed by
`π`, `e`, `(` or a function name, or `π` or `e` immediately followed by `(`. -/
def ImplicitWord (w : List Char) : Prop :=
  (∃ a y, isOperandEnd a = true ∧ y ∈ operandFollowers ∧ w = a :: y) ∨
  (∃ c, isConstant c = true ∧ w = [c, '('])

/-- The text contains no place where a `*` is implied. -/
def NoImplicit (t : List Char) : Prop :=
  ∀ w, ImplicitWord w → ¬ w <:+: t

/-- The characters of a plain expression as typed on the keypad: digits, `+`, `-`,
the display glyphs `×` and `÷`, and the space. -/
def isSimpleChar (c : Char) : Bool :=
  isDigit c || c == '+' || c == '-' || c == '×' || c == '÷' || c == ' '

/-- Digits and the four operators `+ - * /`. -/
def isPlainArith (c : Char) : Bool :=
  isDigit c || c == '+' || c == '-' || c == '*' || c == '/'

end ExpressionParser

namespace CalculatorEngine

open ExpressionParser

/-! ## CalculatorEngine (src/src/core/CalculatorEngine.js) and formatNumber
(src/src/utils/formatters.js) -/

/-- The replace `processed.replace(/π/g, 'pi')`. -/
def replacePi (expression : List Char) : List Char :=
  expression.flatMap (fun c => if c == 'π' then ['p', 'i'] else [c])

/-- One match of `/name\(([^)]+)\)/` anchored at the head of the text: the name
and `(`, then the longest non-empty run of characters other than `)`, then `)`.
The run is greedy and a shorter run is never followed by `)`, so the match is
decided by the longest run.  Returns the captured argument and the text behind
the match. -/
def matchTrig (name : List Char) (s : List Char) : Option (List Char × List Char) :=
  if (name ++ ['(']).isPrefixOf s then
    let after := s.drop (name.length + 1)
    let arg := after.takeWhile (fun c => c != ')')
    match arg, after.dropWhile (fun c => c != ')') with
    | _ :: _, ')' :: rest => some (arg, rest)
    | _, _ => none
  else none

/-- The replacement text `'name(($1) * pi / 180)'`. -/
def degCall (name arg : List Char) : List Char :=
  name ++ ['(', '('] ++ arg ++ [')', ' ', '*', ' ', 'p', 'i', ' ', '/', ' ', '1', '8', '0', ')']

/-- The global replace of `/name\(([^)]+)\)/g` by `'name(($1) * pi / 180)'`,
scanning from the left; after a match the scan resumes behind the matched text,
so `skip` characters are dropped without being examined. -/
def replaceTrigGo (name : List Char) : Nat → List Char → List Char
  | _, [] => []
  | skip + 1, _ :: rest => replaceTrigGo name skip rest
  | 0, c :: rest =>
    match matchTrig name (c :: rest) with
    | some (arg, _) =>
      degCall name arg ++ replaceTrigGo name (name.length + 1 + arg.length) rest
    | none => c :: replaceTrigGo name 0 rest

/-- One `result.replace(/name\(([^)]+)\)/g, 'name(($1) * pi / 180)')`. -/
def replaceTrig (name : List Char) (s : List Char) : List Char :=
  replaceTrigGo name 0 s

/-- The method `_convertTrigFunctionsToDeg`. -/
def convertTrigFunctionsToDeg (expression : List Char) : List Char :=
  replaceTrig ['t', 'a', 'n'] (replaceTrig ['c', 'o', 's'] (replaceTrig ['s', 'i', 'n'] expression))

/-- The method `_preprocessExpression` for a given value of `this.angleMode`; the
replace of `/\be\b/g` by `'e'` puts every match back as it was and is left out. -/
def preprocessExpression (angleMode : List Char) (expression : List Char) : List Char :=
  let processed := replacePi expression
  if angleMode = "DEG".toList then convertTrigFunctionsToDeg processed else processed

/-- A JavaScript number: `NaN`, the two infinities, or a finite value given by
its exact mathematical value (the sign of zero is not recorded). -/
inductive JsNumber where
  /-- The value `NaN`. -/
  | nan
  /-- The value `Infinity`. -/
  | posInf
  /-- The value `-Infinity`. -/
  | negInf
  /-- A finite number. -/
  | finite (value : ℚ)
  deriving DecidableEq

/-- The global function `isFinite` on a number. -/
def JsNumber.isFinite : JsNumber → Bool
  | .finite _ => true
  | _ => false

/-- The global function `isNaN` on a number. -/
def JsNumber.isNaN : JsNumber → Bool
  | .nan => true
  | _ => false

/-- A value `math.evaluate` can return, as far as the engine tells values
apart. -/
inductive EvalResult where
  /-- A value whose `typeof` is `'number'`. -/
  | number (n : JsNumber)
  /-- An object whose `constructor.name` is `'BigNumber'`, with its `toString()`. -/
  | bigNumber (text : List Char)
  /-- An object whose `im` is defined: a complex value. -/
  | complex (re im : JsNumber)
  /-- Any other value (no `im`, not a number, not a BigNumber); `tag` tells
  such values apart. -/
  | other (tag : Nat)
  deriving DecidableEq

/-- What the engine takes from outside the repository: the evaluator
`math.evaluate`, which returns a value or throws an error with a message; the
conversion `Number(text)`; and the number a non-number value is coerced to by
`isFinite` and `isNaN`. -/
structure Library where
  /-- The function `math.evaluate`. -/
  mathEvaluate : List Char → Except (List Char) EvalResult
  /-- The conversion `Number(text)` of a string. -/
  numberOfString : List Char → JsNumber
  /-- The coercion of an object to a number. -/
  objectToNumber : EvalResult → JsNumber

/-- The number `isFinite(result)` and `isNaN(result)` look at. -/
def Library.toNumber (lib : Library) : EvalResult → JsNumber
  | .number n => n
  | r => lib.objectToNumber r

/-- The method `String.prototype.trim`: whitespace is dropped at both ends. -/
def trim (s : List Char) : List Char :=
  ((s.dropWhile isWhitespace).reverse.dropWhile isWhitespace).reverse

/-- The method `toLowerCase`, on the ASCII letters; the messages of this
development are ASCII texts. -/
def toLowerCase (s : List Char) : List Char :=
  s.map Char.toLower

/-- The method `String.prototype.includes`. -/
def includes : List Char → List Char → Bool
  | [], sub => sub.isEmpty
  | c :: rest, sub => sub.isPrefixOf (c :: rest) || includes rest sub

/-- The message thrown by `_handleEvaluationError` for an error with the given
message; the method always throws. -/
def handleEvaluationError (errorMessage : List Char) : List Char :=
  let message := toLowerCase errorMessage
  if includes message "divide".toList && includes message "zero".toList then
    "Division by zero".toList
  else if includes message "undefined symbol".toList ||
      includes message "undefined function".toList then
    "Invalid function or symbol".toList
  else if includes message "syntax".toList || includes message "unexpected".toList then
    "Invalid expression syntax".toList
  else if includes message "parenthes".toList then
    "Unbalanced parentheses".toList
  else if includes message "log".toList || includes message "ln".toList then
    "Logarithm of non-positive number".toList
  else if includes message "sqrt".toList then
    "Square root of negative number".toList
  else if includes message "tan".toList then
    "Tangent undefined for this angle".toList
  else
    "Calculation error: ".toList ++ errorMessage

/-- The method `_validateResult`; an error carries its message. -/
def validateResult (lib : Library) (result : EvalResult) : Except (List Char) Unit :=
  if !(lib.toNumber result).isFinite then
    if (lib.toNumber result).isNaN then .error "Invalid mathematical operation".toList
    else .error "Division by zero or result too large".toList
  else
    match result with
    | .complex _ _ => .error "Complex numbers are not supported".toList
    | _ => .ok ()

/-- The step of `evaluate` that turns a BigNumber into a number by
`Number(result.toString())`. -/
def convertBigNumber (lib : Library) : EvalResult → EvalResult
  | .bigNumber text => .number (lib.numberOfString text)
  | r => r

/-- The `try` block of `evaluate`. -/
def evaluateBody (lib : Library) (angleMode : List Char) (expression : List Char) :
    Except (List Char) EvalResult :=
  match lib.mathEvaluate (preprocessExpression angleMode expression) with
  | .error message => .error message
  | .ok result =>
    match validateResult lib (convertBigNumber lib result) with
    | .error message => .error message
    | .ok _ => .ok (convertBigNumber lib result)

/-- The method `evaluate` on a string: the returned value, or the message of the
error it throws.  Whatever the `try` block throws goes through
`_handleEvaluationError`. -/
def evaluate (lib : Library) (angleMode : List Char) (expression : List Char) :
    Except (List Char) EvalResult :=
  if expression = [] ∨ trim expression = [] then .error "Empty expression".toList
  else
    match evaluateBody lib angleMode expression with
    | .error message => .error (handleEvaluationError message)
    | .ok result => .ok result

/-- An argument passed to a method: a string or a value that is not a string;
`tag` tells such values apart. -/
inductive JsArg where
  /-- A string. -/
  | string (text : List Char)
  /-- A value that is not a string. -/
  | other (tag : Nat)
  deriving DecidableEq

/-- The engine object, as far as its methods read or write it: the field
`angleMode`. -/
structure Engine where
  /-- The field `this.angleMode`. -/
  angleMode : List Char
  deriving DecidableEq

/-- The constructor of `CalculatorEngine`. -/
def Engine.create : Engine :=
  { angleMode := "DEG".toList }

/-- The message of the error of `setAngleMode`. -/
def invalidAngleModeMessage : List Char :=
  "Invalid angle mode. Must be \"DEG\" or \"RAD\"".toList

/-- The method `setAngleMode`: the engine after the call, or the message of the
error thrown.  A value that is not a string differs from both `'DEG'` and
`'RAD'`. -/
def Engine.setAngleMode (engine : Engine) (mode : JsArg) : Except (List Char) Engine :=
  match mode with
  | .string text =>
    if text ≠ "DEG".toList ∧ text ≠ "RAD".toList then .error invalidAngleModeMessage
    else .ok { engine with angleMode := text }
  | .other _ => .error invalidAngleModeMessage

/-- The method `getAngleMode`. -/
def Engine.getAngleMode (engine : Engine) : List Char :=
  engine.angleMode

/-- The engine after a call of `setAngleMode`, whether it returned or threw: a
call that throws leaves the object as it was. -/
def Engine.afterSetAngleMode (engine : Engine) (mode : JsArg) : Engine :=
  match engine.setAngleMode mode with
  | .ok next => next
  | .error _ => engine

/-- The engine after a sequence of `setAngleMode` calls. -/
def Engine.afterCalls (engine : Engine) (modes : List JsArg) : Engine :=
  modes.foldl Engine.afterSetAngleMode engine

/-- The method `evaluate` of an engine. -/
def Engine.evaluate (engine : Engine) (lib : Library) (expression : List Char) :
    Except (List Char) EvalResult :=
  CalculatorEngine.evaluate lib engine.angleMode expression

/-- The expression is empty or consists only of whitespace. -/
def IsBlank (expression : List Char) : Prop :=
  ∀ c ∈ expression, isWhitespace c = true

/-- A library for examples whose evaluator returns the same value for every
expression, whose `Number(text)` is `NaN` and which coerces every object to
`NaN`. -/
def constLibrary (result : EvalResult) : Library :=
  { mathEvaluate := fun _ => .ok result
    numberOfString := fun _ => .nan
    objectToNumber := fun _ => .nan }

/-- A library for examples whose evaluator returns the same value for every
expression, whose `Number(text)` is `NaN` and which coerces every object to the
number `coerced`. -/
def coercingLibrary (result : EvalResult) (coerced : JsNumber) : Library :=
  { mathEvaluate := fun _ => .ok result
    numberOfString := fun _ => .nan
    objectToNumber := fun _ => coerced }

/-- Whether no match of `/g\(…/` can start at any place of the word `w`, whatever
follows it: every non-empty end of `w` differs from `g(` at some place both
have. -/
def clashes (g : List Char) : List Char → Bool
  | [] => true
  | c :: rest =>
    !((g ++ ['(']).isPrefixOf (c :: rest) || (c :: rest).isPrefixOf (g ++ ['('])) &&
      clashes g rest

/-- The built-in methods of JavaScript numbers that the formatting code calls,
taken as parameters of the development. -/
structure NumberMethods where
  /-- The method `Number.prototype.toString` on a value that is not an integer
  below `2 ^ 53` in magnitude. -/
  toStringOther : JsNumber → List Char
  /-- The method `Number.prototype.toExponential` for a number of digits. -/
  toExponential : Nat → JsNumber → List Char
  /-- The method `Number.prototype.toFixed` for a number of digits. -/
  toFixed : Nat → JsNumber → List Char
  /-- The global function `parseFloat`. -/
  parseFloat : List Char → JsNumber
  /-- The method `toString` of a value that is not a number. -/
  objectToString : EvalResult → List Char

/-- The method `Number.isInteger`. -/
def JsNumber.isInteger : JsNumber → Bool
  | .finite q => decide (q.den = 1)
  | _ => false

/-- The exact value of the number `0.000001`, the double nearest to `10⁻⁶`. -/
def smallThreshold : ℚ := 4722366482869645 / 2 ^ 72

/-- The test `Math.abs(num) < 0.000001`; a comparison with `NaN` is false. -/
def JsNumber.absBelowSmall : JsNumber → Bool
  | .finite q => decide (|q| < smallThreshold)
  | _ => false

/-- The test `Math.abs(num) > 1e10`; a comparison with `NaN` is false. -/
def JsNumber.absAboveLarge : JsNumber → Bool
  | .finite q => decide (|q| > 10 ^ 10)
  | .posInf => true
  | .negInf => true
  | .nan => false

/-- The decimal digits of an integer, with `-` in front of a negative one. -/
def integerDigits (z : Int) : List Char :=
  if z < 0 then '-' :: Nat.toDigits 10 z.natAbs else Nat.toDigits 10 z.natAbs

/-- The method `Number.prototype.toString`: an integer below `2 ^ 53` in
magnitude is written with its decimal digits; any other value is left to the
parameter. -/
def numberToString (m : NumberMethods) : JsNumber → List Char
  | .finite q =>
    if q.den = 1 ∧ q.num.natAbs < 2 ^ 53 then integerDigits q.num
    else m.toStringOther (.finite q)
  | x => m.toStringOther x

/-- One match of `/0+e/` anchored at the head: the longest run of `0`, not empty,
then `e`.  Returns the text behind the match. -/
def matchZerosE (s : List Char) : Option (List Char) :=
  match s.takeWhile (fun c => c == '0'), s.dropWhile (fun c => c == '0') with
  | _ :: _, 'e' :: rest => some rest
  | _, _ => none

/-- One match of `/\.?0+e/` anchored at the head. -/
def matchDotZerosE : List Char → Option (List Char)
  | '.' :: rest =>
    match matchZerosE rest with
    | some r => some r
    | none => matchZerosE ('.' :: rest)
  | s => matchZerosE s

/-- The replace `formatted.replace(/\.?0+e/, 'e')`: the leftmost match only. -/
def stripZeros : List Char → List Char
  | [] => []
  | c :: rest =>
    match matchDotZerosE (c :: rest) with
    | some r => 'e' :: r
    | none => c :: stripZeros rest

/-- The part of `_formatResult` and `formatNumber` behind the `isFinite` test. -/
def formatFinite (m : NumberMethods) (maxDecimals : Nat) (num : JsNumber) : List Char :=
  if num.isInteger then numberToString m num
  else if num.absBelowSmall || num.absAboveLarge then stripZeros (m.toExponential 6 num)
  else numberToString m (m.parseFloat (m.toFixed maxDecimals num))

/-- The function `formatNumber(num, maxDecimals)` on a number. -/
def formatNumber (m : NumberMethods) (num : JsNumber) (maxDecimals : Nat) : List Char :=
  if !num.isFinite then "Error".toList else formatFinite m maxDecimals num

/-- The field `this.maxDecimalPlaces`. -/
def maxDecimalPlaces : Nat := 10

/-- The method `_formatResult`. -/
def formatResult (lib : Library) (m : NumberMethods) (result : EvalResult) : List Char :=
  if !(lib.toNumber result).isFinite then "Error".toList
  else
    let num :=
      match result with
      | .number n => n
      | r => lib.numberOfString (m.objectToString r)
    formatFinite m maxDecimalPlaces num

/-- The method `evaluateAndFormat`. -/
def evaluateAndFormat (lib : Library) (m : NumberMethods) (angleMode : List Char)
    (expression : List Char) : Except (List Char) (List Char) :=
  match evaluate lib angleMode expression with
  | .error message => .error message
  | .ok result => .ok (formatResult lib m result)
/-- Whether the text consists of `0` characters only. -/
def allZeros (s : List Char) : Bool :=
  s.all (fun c => c == '0')

/-- The text of a fraction with its trailing zeros removed. -/
def trimZeros : List Char → List Char
  | [] => []
  | c :: rest => if allZeros (c :: rest) then [] else c :: trimZeros rest

/-- The fraction part of a mantissa: nothing when no digit is left, else `.` and
the digits. -/
def fractionPart (digits : List Char) : List Char :=
  if digits = [] then [] else '.' :: digits

/-- Values of the built-in methods at the numbers used in the examples of this
development, as every JavaScript engine gives them: `(1e21).toString()` is
`'1e+21'`, `(12345678901.5).toExponential(6)` is `'1.234568e+10'`,
`(1.5e-7).toExponential(6)` is `'1.500000e-7'`, `parseFloat('1.234568e+10')` is
`12345680000` and `parseFloat('42')` is `42`.  On other arguments the fields
hold a placeholder. -/
def sampleMethods : NumberMethods :=
  { toStringOther := fun x => if x = .finite (10 ^ 21) then "1e+21".toList else []
    toExponential := fun _ x =>
      if x = .finite (24691357803 / 2) then "1.234568e+10".toList
      else if x = .finite (3 / 20000000) then "1.500000e-7".toList else []
    toFixed := fun _ _ => []
    parseFloat := fun text =>
      if text = "1.234568e+10".toList then .finite 12345680000
      else if text = "42".toList then .finite 42 else .nan
    objectToString := fun _ => [] }

/-- A global replace of one character by a text. -/
def replaceChar (target : Char) (replacement : List Char) (s : List Char) : List Char :=
  s.flatMap (fun c => if c == target then replacement else [c])

/-- The replace of `/(?<!\()\-(?!\))/g` by `' - '`, scanning from the left: a `-`
is replaced unless the character before it is `(` or the character behind it
is `)`.  `previous` is the character before the head of the text. -/
def replaceMinusGo : Option Char → List Char → List Char
  | _, [] => []
  | previous, c :: rest =>
    (if c == '-' && previous != some '(' && rest.head? != some ')' then [' ', '-', ' ']
     else [c]) ++ replaceMinusGo (some c) rest

/-- The replace of `/\s+/g` by `' '`, scanning from the left: the first character
of a run of whitespace gives one space and the others give nothing.  `inRun`
tells whether the character before the head of the text is whitespace. -/
def collapseWhitespaceGo : Bool → List Char → List Char
  | _, [] => []
  | inRun, c :: rest =>
    if isWhitespace c then
      if inRun then collapseWhitespaceGo true rest else ' ' :: collapseWhitespaceGo true rest
    else c :: collapseWhitespaceGo false rest

/-- The function `formatExpression` of `src/src/utils/formatters.js`. -/
def formatExpression (expression : List Char) : List Char :=
  let formatted := replaceChar '*' [' ', '×', ' '] expression
  let formatted := replaceChar '/' [' ', '÷', ' '] formatted
  let formatted := replaceChar '+' [' ', '+', ' '] formatted
  let formatted := replaceMinusGo none formatted
  trim (collapseWhitespaceGo false formatted)

/-- The display glyph of an operator: `×` for `*` and `÷` for `/`. -/
def displayOperator (c : Char) : Char :=
  if c == '*' then '×' else if c == '/' then '÷' else c

/-- Number methods for examples that behave as the built-in ones on `0.5`:
`(0.5).toFixed(10)` is `'0.5000000000'`, `parseFloat` reads that text and `'0.5'`
as `0.5`, and `(0.5).toString()` is `'0.5'`.  On other arguments the fields hold
a placeholder. -/
def halfMethods : NumberMethods :=
  { toStringOther := fun x => if x = .finite (1 / 2) then "0.5".toList else []
    toExponential := fun _ _ => []
    toFixed := fun _ x => if x = .finite (1 / 2) then "0.5000000000".toList else []
    parseFloat := fun text =>
      if text = "0.5000000000".toList then .finite (1 / 2)
      else if text = "0.5".toList then .finite (1 / 2) else .nan
    objectToString := fun _ => [] }

end CalculatorEngine

namespace StateManager

/-! ## StateManager (src/src/core/StateManager.js) -/

/-- An entry of the history array. -/
structure HistoryItem where
  /-- The property `equation`. -/
  equation : List Char
  /-- The property `result`. -/
  result : List Char
  /-- The property `timestamp`, when present. -/
  timestamp : Option (List Char)
  deriving DecidableEq

/-- An entry of an array: a history entry, a string, or any other value; `tag`
tells such values apart. -/
inductive Element where
  /-- A history entry. -/
  | item (entry : HistoryItem)
  /-- A string. -/
  | text (value : List Char)
  /-- Any other value. -/
  | other (tag : Nat)
  deriving DecidableEq

/-- A value held by a property of the state, as far as the state manager tells
values apart. -/
inductive Value where
  /-- The value `undefined`. -/
  | undefined
  /-- A string. -/
  | string (text : List Char)
  /-- An array of history entries. -/
  | items (entries : List HistoryItem)
  /-- An array with an entry that is not a history entry. -/
  | array (entries : List Element)
  /-- Any other value, one that is not iterable (a number, `null`, a boolean, a
  plain object); `tag` tells such values apart.  Iterable values other than
  strings and arrays are not modelled. -/
  | other (tag : Nat)
  deriving DecidableEq

/-- Whether an entry of an array is a history entry. -/
def Element.isItem : Element → Bool
  | .item _ => true
  | _ => false

/-- The history entry an entry of an array is, if it is one. -/
def Element.asItem : Element → Option HistoryItem
  | .item entry => some entry
  | _ => none

/-- The array with the given entries. -/
def Value.ofEntries (entries : List Element) : Value :=
  if entries.all Element.isItem then .items (entries.filterMap Element.asItem)
  else .array entries

/-- The entries the spread `[...value]` goes through: those of an array, the
characters of a string; `none` for a value that is not iterable, where the
spread throws a `TypeError`. -/
def Value.iterate : Value → Option (List Element)
  | .items entries => some (entries.map Element.item)
  | .array entries => some entries
  | .string text => some (text.map (fun c => Element.text [c]))
  | _ => none

/-- The state object, with the six properties of the default state; properties
of other names are not modelled. -/
structure State where
  /-- The property `currentValue`. -/
  currentValue : Value
  /-- The property `previousEquation`. -/
  previousEquation : Value
  /-- The property `angleMode`. -/
  angleMode : Value
  /-- The property `theme`. -/
  theme : Value
  /-- The property `mode`. -/
  mode : Value
  /-- The property `history`. -/
  history : Value
  deriving DecidableEq

/-- An object that carries some of the six properties: `none` for a property the
object does not have. -/
structure Partial where
  /-- The property `currentValue`, when present. -/
  currentValue : Option Value
  /-- The property `previousEquation`, when present. -/
  previousEquation : Option Value
  /-- The property `angleMode`, when present. -/
  angleMode : Option Value
  /-- The property `theme`, when present. -/
  theme : Option Value
  /-- The property `mode`, when present. -/
  mode : Option Value
  /-- The property `history`, when present. -/
  history : Option Value
  deriving DecidableEq

/-- The object spread `{ ...state, ...updates }`. -/
def State.spread (state : State) (updates : Partial) : State :=
  { currentValue := updates.currentValue.getD state.currentValue
    previousEquation := updates.previousEquation.getD state.previousEquation
    angleMode := updates.angleMode.getD state.angleMode
    theme := updates.theme.getD state.theme
    mode := updates.mode.getD state.mode
    history := updates.history.getD state.history }

/-- The field `this.defaultState`. -/
def defaultState : State :=
  { currentValue := .string []
    previousEquation := .string []
    angleMode := .string "DEG".toList
    theme := .string "dark".toList
    mode := .string "calculator".toList
    history := .items [] }

/-- The contents of `localStorage`: keys with their values. -/
abbrev Storage := List (List Char × List Char)

/-- The method `localStorage.getItem`. -/
def Storage.getItem (storage : Storage) (key : List Char) : Option (List Char) :=
  (storage.find? (fun entry => entry.1 == key)).map (fun entry => entry.2)

/-- The key `getItem` looks up for the value of `this.storageKey`: a field that
is not yet assigned is `undefined`, which `getItem` turns into the string
`'undefined'`. -/
def storageKeyText (storageKey : Option (List Char)) : List Char :=
  storageKey.getD "undefined".toList

/-- The method `_loadState`, for a given value of `this.storageKey`; `jsonParse`
is `JSON.parse`, with `none` when it throws. -/
def loadState (jsonParse : List Char → Option Partial) (storageKey : Option (List Char))
    (storage : Storage) : State :=
  match storage.getItem (storageKeyText storageKey) with
  | some saved =>
    if saved ≠ [] then
      match jsonParse saved with
      | some parsed =>
        { defaultState.spread parsed with
          currentValue := .string []
          previousEquation := .string [] }
      | none => defaultState
    else defaultState
  | none => defaultState

/-- The state manager object: the fields `state`, `storageKey` and
`subscribers`.  A callback is known by a number, and two callbacks are the same
function when their numbers agree.  The fields `defaultState` and
`maxHistorySize` never change and are definitions of their own. -/
structure Manager where
  /-- The field `this.state`. -/
  state : State
  /-- The field `this.storageKey`. -/
  storageKey : Option (List Char)
  /-- The field `this.subscribers`. -/
  subscribers : List Nat
  deriving DecidableEq

/-- The constructor: `this.state = this._loadState()` runs before
`this.storageKey = 'calculator-state'`, so `_loadState` reads the field while
it is still `undefined`. -/
def Manager.create (jsonParse : List Char → Option Partial) (storage : Storage) : Manager :=
  let state := loadState jsonParse none storage
  { state := state, storageKey := some "calculator-state".toList, subscribers := [] }

/-- The message of the `TypeError` thrown by the spread of a `history` that is
not iterable; its wording is that of the engine. -/
def notIterableMessage : List Char :=
  "this.state.history is not iterable".toList

/-- The method `getState`: a copy of the state whose `history` is the array
`[...this.state.history]`; the spread throws when `history` is not iterable. -/
def Manager.getState (manager : Manager) : Except (List Char) State :=
  match manager.state.history.iterate with
  | some entries => .ok { manager.state with history := Value.ofEntries entries }
  | none => .error notIterableMessage

/-- The object saved by the unit test: `angleMode` `'RAD'`, `theme` `'light'` and
one history entry. -/
def savedSample : Partial :=
  { currentValue := none
    previousEquation := none
    angleMode := some (.string "RAD".toList)
    theme := some (.string "light".toList)
    mode := none
    history := some (.items [{ equation := "2+2".toList, result := "4".toList,
                               timestamp := none }]) }

/-- The text `JSON.stringify` gives for `savedSample`. -/
def savedSampleText : List Char :=
  "\x7b\"angleMode\":\"RAD\",\"theme\":\"light\",\"history\":[\x7b\"equation\":\"2+2\",\"result\":\"4\"\x7d]\x7d".toList

/-- A `JSON.parse` that reads `savedSampleText` as `savedSample` and throws on
any other text. -/
def sampleParse (text : List Char) : Option Partial :=
  if text = savedSampleText then some savedSample else none

/-- The field `this.maxHistorySize`, set by the constructor and never changed. -/
def maxHistorySize : Nat := 100

/-- The object `localStorage`: the stored entries, and whether `setItem` throws
(as it does when the quota is exceeded). -/
structure LocalStorage where
  /-- The stored keys with their values. -/
  items : Storage
  /-- Whether `setItem` throws. -/
  rejectsWrites : Bool
  deriving DecidableEq

/-- A successful `localStorage.setItem`: the key holds the new value. -/
def Storage.setItem (storage : Storage) (key value : List Char) : Storage :=
  (key, value) :: storage.filter (fun entry => !(entry.1 == key))

/-- The method `localStorage.removeItem`. -/
def Storage.removeItem (storage : Storage) (key : List Char) : Storage :=
  storage.filter (fun entry => !(entry.1 == key))

/-- The manager together with what its methods act on: `localStorage`, and the
record of the calls made to subscribed callbacks, each with the state it was
given, the latest call last.  A callback only observes: it does not call the
manager. -/
structure World where
  /-- The state manager. -/
  manager : Manager
  /-- The object `localStorage`. -/
  localStorage : LocalStorage
  /-- The calls made to callbacks so far. -/
  calls : List (Nat × State)
  deriving DecidableEq

/-- The outcome of a method call: the message of the error it throws, if any, and
the world it leaves. -/
structure Outcome where
  /-- The message of the thrown error; `none` when the method returns. -/
  thrown : Option (List Char)
  /-- The world after the call. -/
  world : World
  deriving DecidableEq

/-- The test `value !== undefined` on a property of `updates`; a property the
object does not have reads as `undefined`. -/
def isDefined (value : Option Value) : Bool :=
  match value with
  | none => false
  | some .undefined => false
  | some _ => true

/-- The test of one property in `_validateUpdates`: the property is not
`undefined` and differs from both allowed strings. -/
def isInvalid (value : Option Value) (first second : List Char) : Bool :=
  isDefined value && value != some (.string first) && value != some (.string second)

/-- The method `_validateUpdates`: the message of the error it throws, if any. -/
def validateUpdates (updates : Partial) : Option (List Char) :=
  if isInvalid updates.angleMode "DEG".toList "RAD".toList then
    some "Invalid angle mode. Must be \"DEG\" or \"RAD\"".toList
  else if isInvalid updates.theme "light".toList "dark".toList then
    some "Invalid theme. Must be \"light\" or \"dark\"".toList
  else if isInvalid updates.mode "calculator".toList "converter".toList then
    some "Invalid mode. Must be \"calculator\" or \"converter\"".toList
  else none

/-- The object `toSave` of `_saveState`: the four persistent properties. -/
def toSave (state : State) : Partial :=
  { currentValue := none
    previousEquation := none
    angleMode := some state.angleMode
    theme := some state.theme
    mode := some state.mode
    history := some state.history }

/-- The method `_saveState`; `jsonStringify` is `JSON.stringify`.  An error of
`setItem` is caught and storage stays as it was. -/
def saveState (jsonStringify : Partial → List Char) (world : World) : World :=
  if world.localStorage.rejectsWrites then world
  else
    { world with
      localStorage :=
        { world.localStorage with
          items := world.localStorage.items.setItem
            (storageKeyText world.manager.storageKey)
            (jsonStringify (toSave world.manager.state)) } }

/-- The method `_clearStorage`. -/
def clearStorage (world : World) : World :=
  { world with
    localStorage :=
      { world.localStorage with
        items := world.localStorage.items.removeItem
          (storageKeyText world.manager.storageKey) } }

/-- The method `_notifySubscribers`: `getState()` is called first, outside the
`try` of the callbacks, so its error leaves the method before any callback is
called; then every subscribed callback is called once, in the order of the
array, with the copy of the state. -/
def notifySubscribers (world : World) : Outcome :=
  match world.manager.getState with
  | .error message => { thrown := some message, world := world }
  | .ok currentState =>
    { thrown := none
      world := { world with
        calls := world.calls ++
          world.manager.subscribers.map (fun callback => (callback, currentState)) } }

/-- The method `updateState`: an error of `_validateUpdates` leaves the method
before anything is changed; an error of `_notifySubscribers` leaves it after
the state was assigned and saved. -/
def updateState (jsonStringify : Partial → List Char) (updates : Partial) (world : World) :
    Outcome :=
  match validateUpdates updates with
  | some message => { thrown := some message, world := world }
  | none =>
    let world := { world with
      manager := { world.manager with state := world.manager.state.spread updates } }
    notifySubscribers (saveState jsonStringify world)
/-- The call `newHistory.slice(-count)` for a positive `count`: the last `count`
entries. -/
def sliceLast {α : Type} (count : Nat) (entries : List α) : List α :=
  entries.drop (entries.length - count)

/-- The method `addToHistory`; `now` is `new Date().toISOString()`.  The spread
`[...this.state.history, historyItem]` goes through any iterable `history` and
throws a `TypeError` when `history` is not iterable. -/
def addToHistory (jsonStringify : Partial → List Char) (equation result now : List Char)
    (world : World) : Outcome :=
  match world.manager.state.history.iterate with
  | some history =>
    let historyItem : HistoryItem :=
      { equation := equation, result := result, timestamp := some now }
    let newHistory := history ++ [Element.item historyItem]
    let newHistory :=
      if newHistory.length > maxHistorySize then sliceLast maxHistorySize newHistory
      else newHistory
    updateState jsonStringify
      { currentValue := none, previousEquation := none, angleMode := none, theme := none,
        mode := none, history := some (Value.ofEntries newHistory) } world
  | none => { thrown := some notIterableMessage, world := world }

/-- The method `clearHistory`. -/
def clearHistory (jsonStringify : Partial → List Char) (world : World) : Outcome :=
  updateState jsonStringify
    { currentValue := none, previousEquation := none, angleMode := none, theme := none,
      mode := none, history := some (.items []) } world

/-- The method `subscribe`: the callback is pushed onto the array.  The function
it returns is `unsubscribe` for the same callback. -/
def subscribe (callback : Nat) (world : World) : World :=
  { world with
    manager := { world.manager with subscribers := world.manager.subscribers ++ [callback] } }

/-- The function returned by `subscribe(callback)`: the array is filtered by
`sub !== callback`. -/
def unsubscribe (callback : Nat) (world : World) : World :=
  { world with
    manager := { world.manager with
      subscribers := world.manager.subscribers.filter (fun sub => sub != callback) } }

/-- The method `reset`. -/
def reset (world : World) : Outcome :=
  let world := { world with
    manager := { world.manager with state := { defaultState with history := .items [] } } }
  notifySubscribers (clearStorage world)

/-- The method `resetCalculation`. -/
def resetCalculation (jsonStringify : Partial → List Char) (world : World) : Outcome :=
  updateState jsonStringify
    { currentValue := some (.string []), previousEquation := some (.string []),
      angleMode := none, theme := none, mode := none, history := none } world

/-- The world right behind the constructor. -/
def World.create (jsonParse : List Char → Option Partial) (localStorage : LocalStorage) :
    World :=
  { manager := Manager.create jsonParse localStorage.items
    localStorage := localStorage
    calls := [] }

/-- A call of a method of the manager, or of a function returned by
`subscribe`. -/
inductive Call where
  /-- The call `updateState(updates)`. -/
  | updateState (updates : Partial)
  /-- The call `addToHistory(equation, result)` at the time `now`. -/
  | addToHistory (equation result now : List Char)
  /-- The call `clearHistory()`. -/
  | clearHistory
  /-- The call `reset()`. -/
  | reset
  /-- The call `resetCalculation()`. -/
  | resetCalculation
  /-- The call `subscribe(callback)`. -/
  | subscribe (callback : Nat)
  /-- A call of the function returned by `subscribe(callback)`. -/
  | unsubscribe (callback : Nat)
  deriving DecidableEq

/-- The world after one call; an error thrown by the call is caught by the
caller. -/
def Call.run (jsonStringify : Partial → List Char) (world : World) : Call → World
  | .updateState updates => (StateManager.updateState jsonStringify updates world).world
  | .addToHistory equation result now =>
    (StateManager.addToHistory jsonStringify equation result now world).world
  | .clearHistory => (StateManager.clearHistory jsonStringify world).world
  | .reset => (StateManager.reset world).world
  | .resetCalculation => (StateManager.resetCalculation jsonStringify world).world
  | .subscribe callback => StateManager.subscribe callback world
  | .unsubscribe callback => StateManager.unsubscribe callback world

/-- The world after a series of calls. -/
def runCalls (jsonStringify : Partial → List Char) (world : World) (calls : List Call) :
    World :=
  calls.foldl (Call.run jsonStringify) world

/-- The calls made to one callback, in order. -/
def callsTo (callback : Nat) (world : World) : List (Nat × State) :=
  world.calls.filter (fun call => call.1 == callback)

/-- A `JSON.stringify` for examples: it writes the `angleMode` of the object
only. -/
def sampleStringify (object : Partial) : List Char :=
  match object.angleMode with
  | some (.string text) => text
  | _ => []

/-- The world behind the constructor with an empty `localStorage`. -/
def freshWorld (rejectsWrites : Bool) : World :=
  World.create (fun _ => none) { items := [], rejectsWrites := rejectsWrites }
/-- A property of `updates` is present with a value that is not `undefined` and
is neither of the two allowed strings. -/
def CarriesOther (value : Option Value) (first second : List Char) : Prop :=
  ∃ v, value = some v ∧ v ≠ .undefined ∧ v ≠ .string first ∧ v ≠ .string second

/-- An object with the property `angleMode` only. -/
def angleModeOnly (value : Value) : Partial :=
  { currentValue := none, previousEquation := none, angleMode := some value, theme := none,
    mode := none, history := none }

/-- An object with the property `theme` only. -/
def themeOnly (value : Value) : Partial :=
  { currentValue := none, previousEquation := none, angleMode := none, theme := some value,
    mode := none, history := none }

/-- An object with the property `history` only. -/
def historyOnly (value : Value) : Partial :=
  { currentValue := none, previousEquation := none, angleMode := none, theme := none,
    mode := none, history := some value }

end StateManager

namespace Keypad

/-! ## Keypad (src/src/components/Keypad.js) -/

/-- An entry of the button layout. -/
structure Button where
  /-- The property `label`. -/
  label : List Char
  /-- The property `value`. -/
  value : List Char
  /-- The property `type`. -/
  type : List Char
  deriving DecidableEq

/-- The method `getButtonLayout`. -/
def getButtonLayout : List Button :=
  [ { label := "AC".toList, value := "clear".toList, type := "control".toList },
    { label := "⌫".toList, value := "backspace".toList, type := "control".toList },
    { label := "%".toList, value := "%".toList, type := "operator".toList },
    { label := "÷".toList, value := "÷".toList, type := "operator".toList },
    { label := "7".toList, value := "7".toList, type := "number".toList },
    { label := "8".toList, value := "8".toList, type := "number".toList },
    { label := "9".toList, value := "9".toList, type := "number".toList },
    { label := "×".toList, value := "×".toList, type := "operator".toList },
    { label := "4".toList, value := "4".toList, type := "number".toList },
    { label := "5".toList, value := "5".toList, type := "number".toList },
    { label := "6".toList, value := "6".toList, type := "number".toList },
    { label := "-".toList, value := "-".toList, type := "operator".toList },
    { label := "1".toList, value := "1".toList, type := "number".toList },
    { label := "2".toList, value := "2".toList, type := "number".toList },
    { label := "3".toList, value := "3".toList, type := "number".toList },
    { label := "+".toList, value := "+".toList, type := "operator".toList },
    { label := "0".toList, value := "0".toList, type := "number".toList },
    { label := ".".toList, value := ".".toList, type := "number".toList },
    { label := "=".toList, value := "equals".toList, type := "equals".toList } ]

end Keypad

namespace FunctionChips

/-! ## FunctionChips (src/src/components/FunctionChips.js) -/

/-- An entry of the field `this.functions`. -/
structure Chip where
  /-- The property `label`. -/
  label : List Char
  /-- The property `value`. -/
  value : List Char
  deriving DecidableEq

/-- The field `this.functions`. -/
def functions : List Chip :=
  [ { label := "sin".toList, value := "sin(".toList },
    { label := "cos".toList, value := "cos(".toList },
    { label := "tan".toList, value := "tan(".toList },
    { label := "log".toList, value := "log(".toList },
    { label := "ln".toList, value := "ln(".toList },
    { label := "(".toList, value := "(".toList },
    { label := ")".toList, value := ")".toList },
    { label := "^".toList, value := "^".toList },
    { label := "√".toList, value := "sqrt(".toList },
    { label := "π".toList, value := "π".toList },
    { label := "e".toList, value := "e".toList } ]

end FunctionChips

namespace CalculatorApp

/-! ## CalculatorApp (src/src/main.js) -/

/-- The values `handleButtonClick` passes on to `handleInput`: every value other
than `clear`, `backspace` and `equals`. -/
def keypadInputs : List (List Char) :=
  (Keypad.getButtonLayout.map (fun b => b.value)).filter
    (fun v => v ≠ "clear".toList ∧ v ≠ "backspace".toList ∧ v ≠ "equals".toList)

/-- The values of the keypad buttons of type `number` or `operator`. -/
def keypadNumberOrOperator : List (List Char) :=
  (Keypad.getButtonLayout.filter
    (fun b => b.type = "number".toList ∨ b.type = "operator".toList)).map (fun b => b.value)

/-- The values the two components hand to `handleInput`, which appends them to
the expression. -/
def inputValues : List (List Char) :=
  keypadInputs ++ FunctionChips.functions.map (fun c => c.value)

/-- The method `handleInput` on the text of the expression: the value is
appended. -/
def handleInput (currentValue value : List Char) : List Char :=
  currentValue ++ value

end CalculatorApp

namespace ExpressionParser

/-! ## Elementary facts -/

theorem isValidChar_eq (c : Char) : isValidChar c = (isListedChar c || isWhitespace c) := by
  unfold isValidChar isListedChar
  cases isDigit c <;> cases isWhitespace c <;> simp [Bool.or_comm, Bool.or_assoc, Bool.or_left_comm]

theorem validateNumberFormat_error {s : List Char} {err : ParseError}
    (h : validateNumberFormat s = .error err) :
    err = .multipleDecimalPoints ∨ err = .multipleDecimalPointsInNumber := by
  unfold validateNumberFormat at h
  split at h
  · injection h with h; exact Or.inl h.symm
  · split at h
    · injection h with h; exact Or.inr h.symm
    · cases h

theorem validateParenthesesGo_error {s : List Char} {b : Int} {err : ParseError}
    (h : validateParenthesesGo b s = .error err) : err = .unbalancedParentheses := by
  induction s generalizing b with
  | nil => cases h
  | cons c rest ih =>
    unfold validateParenthesesGo at h
    split at h
    · exact ih h
    · split at h
      · split at h
        · injection h with h; exact h.symm
        · exact ih h
      · exact ih h

theorem validateParentheses_error {s : List Char} {err : ParseError}
    (h : validateParentheses s = .error err) : err = .unbalancedParentheses := by
  unfold validateParentheses at h
  split at h
  · next e he => injection h with h; subst h; exact validateParenthesesGo_error he
  · split at h
    · injection h with h; exact h.symm
    · cases h

theorem removeWhitespace_eq_nil {x : List Char} :
    removeWhitespace x = [] ↔ ∀ c ∈ x, isWhitespace c = true := by
  unfold removeWhitespace
  simp [List.filter_eq_nil_iff]

theorem validateCharacters_ok_iff {s : List Char} :
    validateCharacters s = .ok () ↔ s ≠ [] ∧ ∀ c ∈ s, isValidChar c = true := by
  unfold validateCharacters
  split
  · next h => simpa [List.all_eq_true] using h
  · next h => simpa [List.all_eq_true] using h

theorem validateCharacters_error {s : List Char} {err : ParseError}
    (h : validateCharacters s = .error err) : err = .invalidCharacter := by
  unfold validateCharacters at h
  split at h
  · cases h
  · injection h with h; exact h.symm

theorem parse_of_removeWhitespace_nil {x : List Char} (h : removeWhitespace x = []) :
    parse x = .ok [] := by
  unfold parse
  split
  · rfl
  · simp [h]

theorem parse_of_removeWhitespace_ne_nil {x : List Char} (h : removeWhitespace x ≠ []) :
    parse x = parseCore (removeWhitespace x) := by
  have hx : x ≠ [] := by
    rintro rfl
    exact h rfl
  unfold parse parseCore
  simp [hx, h]

theorem parseCore_invalid_iff {s : List Char} :
    parseCore s = .error .invalidCharacter ↔ validateCharacters s ≠ .ok () := by
  unfold parseCore
  cases hv : validateCharacters s with
  | error err =>
    have := validateCharacters_error hv
    subst this
    simp
  | ok u =>
    cases hn : validateNumberFormat (normalizeDecimals (convertOperators s)) with
    | error err =>
      rcases validateNumberFormat_error hn with rfl | rfl <;> simp
    | ok u2 =>
      cases hp : validateParentheses (normalizeDecimals (convertOperators s)) with
      | error err =>
        have := validateParentheses_error hp
        subst this
        simp
      | ok u3 => simp

/-! ## Empty input and character validation -/

/-- C9: for every input that is the empty string or consists only of whitespace
(characters of the class `\s`), `parse` returns the empty string and raises no
error. -/
theorem parse_whitespace_only (x : List Char) (h : ∀ c ∈ x, isWhitespace c = true) :
    parse x = .ok [] :=
  parse_of_removeWhitespace_nil (removeWhitespace_eq_nil.mpr h)

/-- Witness of C9 at the text of three spaces, the input of the unit test. -/
theorem parse_whitespace_only_witness :
    (∀ c ∈ "   ".toList, isWhitespace c = true) ∧ parse "   ".toList = .ok [] :=
  ⟨by decide, parse_whitespace_only "   ".toList (by decide)⟩

/-- C8 as stated fails: the input `5 + 3` is non-empty after whitespace removal
and contains a space, which is outside the listed set, yet `parse` does not
raise the invalid-character error (it returns `5+3`). -/
theorem parse_spaced_input_refutes_listed_set :
    removeWhitespace "5 + 3".toList ≠ [] ∧
    parse "5 + 3".toList = .ok "5+3".toList ∧
    ¬ (parse "5 + 3".toList = .error .invalidCharacter ↔
        ∃ c ∈ "5 + 3".toList, isListedChar c = false) := by
  decide

/-- C8 (amended): for every input that is non-empty after whitespace removal,
`parse` raises the invalid-character error if and only if the input contains a
non-whitespace character outside the listed set; since the equivalence fixes the
error raised, the check takes precedence over every other parse error. -/
theorem parse_invalidCharacter_iff (x : List Char) (h : removeWhitespace x ≠ []) :
    parse x = .error .invalidCharacter ↔
      ∃ c ∈ x, isWhitespace c = false ∧ isListedChar c = false := by
  rw [parse_of_removeWhitespace_ne_nil h, parseCore_invalid_iff, Ne,
    validateCharacters_ok_iff]
  constructor
  · intro hv
    by_contra hno
    apply hv
    refine ⟨h, fun c hc => ?_⟩
    have hc2 := List.mem_filter.mp hc
    rw [isValidChar_eq]
    cases hl : isListedChar c
    · exact absurd ⟨c, hc2.1, by simpa using hc2.2, hl⟩ hno
    · rfl
  · rintro ⟨c, hc, hw, hl⟩ ⟨_, hall⟩
    have hv := hall c (List.mem_filter.mpr ⟨hc, by simp [hw]⟩)
    rw [isValidChar_eq, hw, hl] at hv
    cases hv

/-- Witness of the amended C8 at `5@3`, the input of the unit test. -/
theorem parse_invalidCharacter_iff_witness :
    removeWhitespace "5@3".toList ≠ [] ∧
    (parse "5@3".toList = .error .invalidCharacter ↔
      ∃ c ∈ "5@3".toList, isWhitespace c = false ∧ isListedChar c = false) :=
  ⟨by decide, parse_invalidCharacter_iff "5@3".toList (by decide)⟩

/-- C3: the code leaves a `)` that is immediately followed by a digit as it is:
`parse('(2)3')` returns `(2)3`, with no `*` inserted. -/
theorem parse_closing_paren_before_digit :
    parse "(2)3".toList = .ok "(2)3".toList := by
  decide

/-- C6 as stated fails: the inputs `.` and `5+.` contain a bare point, and `parse`
returns them unchanged instead of failing. -/
theorem parse_bare_dot_accepted :
    parse ".".toList = .ok ".".toList ∧ parse "5+.".toList = .ok "5+.".toList := by
  decide

/-! ## Decimal normalization -/

theorem isDigit_ne_dot {d : Char} (h : isDigit d = true) : (d == '.') = false := by
  cases hd : (d == '.')
  · rfl
  · have := eq_of_beq hd
    subst this
    exact absurd h (by decide)

theorem isNotDigitOrDot_of_isDigit {d : Char} (h : isDigit d = true) :
    isNotDigitOrDot d = false := by
  simp [isNotDigitOrDot, h]

theorem isNotDigitOrDot_dot : isNotDigitOrDot '.' = false := by decide

theorem isNotDigitOrDot_ne_dot {c : Char} (h : isNotDigitOrDot c = true) :
    (c == '.') = false := by
  cases hd : (c == '.')
  · rfl
  · simp [isNotDigitOrDot, hd] at h

theorem normalizeDecimalsGo_eq_prefixZeros (atStart : Bool) (s : List Char) :
    normalizeDecimalsGo atStart s = prefixZeros atStart s := by
  induction atStart, s using normalizeDecimalsGo.induct with
  | case1 => simp [normalizeDecimalsGo, prefixZeros]
  | case2 b c => simp [normalizeDecimalsGo, prefixZeros, startsWithDigit]
  | case3 b c d h =>
    simp only [Bool.and_eq_true, beq_iff_eq] at h
    obtain ⟨⟨rfl, rfl⟩, hd⟩ := h
    simp [normalizeDecimalsGo, prefixZeros, startsWithDigit, hd]
  | case4 b c d h ih =>
    rw [normalizeDecimalsGo, if_neg h, ih]
    simp only [prefixZeros, startsWithDigit]
    rw [if_neg h]
    simp
  | case5 b c d d2 rest h ih =>
    rw [normalizeDecimalsGo, if_pos h, ih]
    simp only [Bool.and_eq_true, beq_iff_eq] at h
    obtain ⟨⟨rfl, rfl⟩, hd⟩ := h
    simp [prefixZeros, startsWithDigit, hd, isNotDigitOrDot_of_isDigit hd]
  | case6 b c d d2 rest h1 h2 ih =>
    rw [normalizeDecimalsGo, if_neg h1, if_pos h2, ih]
    simp only [Bool.and_eq_true, beq_iff_eq] at h2
    obtain ⟨⟨hc, rfl⟩, hd⟩ := h2
    have hcd := isNotDigitOrDot_ne_dot hc
    simp [prefixZeros, startsWithDigit, hd, hc, hcd, isNotDigitOrDot_of_isDigit hd]
  | case7 b c d d2 rest h1 h2 ih =>
    rw [normalizeDecimalsGo, if_neg h1, if_neg h2, ih]
    have e1 : prefixZeros b (c :: d :: d2 :: rest) =
        c :: prefixZeros (isNotDigitOrDot c) (d :: d2 :: rest) := by
      rw [prefixZeros]
      simp only [startsWithDigit]
      rw [if_neg h1]
    have e2 : prefixZeros (isNotDigitOrDot c) (d :: d2 :: rest) =
        prefixZeros false (d :: d2 :: rest) := by
      rw [prefixZeros]
      simp only [startsWithDigit]
      rw [if_neg h2]
      simp [prefixZeros]
    rw [e1, e2]

theorem startsWithDigit_iff {s : List Char} :
    startsWithDigit s = true ↔ ∃ d rest, isDigit d = true ∧ s = d :: rest := by
  cases s with
  | nil => simp [startsWithDigit]
  | cons c rest => simp [startsWithDigit]

theorem freeDotGo_true (s : List Char) :
    freeDotGo true s =
      ((match s with
        | c :: rest => c == '.' && startsWithDigit rest
        | [] => false) || freeDotGo false s) := by
  cases s with
  | nil => rfl
  | cons c rest => simp [freeDotGo]

theorem freeDotGo_false_iff (s : List Char) :
    freeDotGo false s = true ↔
      ∃ a d, isNotDigitOrDot a = true ∧ isDigit d = true ∧ [a, '.', d] <:+: s := by
  induction s with
  | nil => simp [freeDotGo]
  | cons c rest ih =>
    have hstep : freeDotGo false (c :: rest) = freeDotGo (isNotDigitOrDot c) rest := by
      simp [freeDotGo]
    rw [hstep]
    constructor
    · intro h
      cases hc : isNotDigitOrDot c
      · rw [hc] at h
        obtain ⟨a, d, ha, hd, hin⟩ := ih.mp h
        exact ⟨a, d, ha, hd, List.infix_cons hin⟩
      · rw [hc, freeDotGo_true] at h
        rcases Bool.or_eq_true _ _ |>.mp h with h1 | h2
        · cases rest with
          | nil => simp at h1
          | cons c2 rest2 =>
            simp only [Bool.and_eq_true, beq_iff_eq] at h1
            obtain ⟨rfl, hsd⟩ := h1
            obtain ⟨d, r, hd, rfl⟩ := startsWithDigit_iff.mp hsd
            exact ⟨c, d, hc, hd, ⟨[], r, by simp⟩⟩
        · obtain ⟨a, d, ha, hd, hin⟩ := ih.mp h2
          exact ⟨a, d, ha, hd, List.infix_cons hin⟩
    · rintro ⟨a, d, ha, hd, hin⟩
      rcases List.infix_cons_iff.mp hin with hp | hi
      · obtain ⟨t, ht⟩ := hp
        simp only [List.cons_append, List.nil_append, List.cons.injEq] at ht
        obtain ⟨rfl, rfl⟩ := ht
        rw [ha, freeDotGo_true]
        simp [startsWithDigit, hd]
      · have := ih.mpr ⟨a, d, ha, hd, hi⟩
        cases hc : isNotDigitOrDot c
        · exact this
        · rw [freeDotGo_true, this]
          simp

theorem hasFreeDot_iff (s : List Char) : HasFreeDot s ↔ freeDotGo true s = true := by
  unfold HasFreeDot
  rw [freeDotGo_true, Bool.or_eq_true, freeDotGo_false_iff]
  apply or_congr _ Iff.rfl
  cases s with
  | nil => simp
  | cons c rest =>
    simp only [Bool.and_eq_true, beq_iff_eq, startsWithDigit_iff]
    constructor
    · rintro ⟨d, r, hd, h⟩
      simp only [List.cons.injEq] at h
      exact ⟨h.1, d, r, hd, h.2⟩
    · rintro ⟨rfl, d, r, hd, rfl⟩
      exact ⟨d, r, hd, rfl⟩

theorem startsWithDigit_prefixZeros_false (s : List Char) :
    startsWithDigit (prefixZeros false s) = startsWithDigit s := by
  cases s with
  | nil => rfl
  | cons c rest => simp [prefixZeros, startsWithDigit]

theorem freeDotGo_prefixZeros (free : Bool) (s : List Char) :
    freeDotGo free (prefixZeros free s) = false := by
  induction s generalizing free with
  | nil => rfl
  | cons c rest ih =>
    rw [prefixZeros]
    split
    · next h =>
      simp only [Bool.and_eq_true, beq_iff_eq] at h
      obtain ⟨⟨_, rfl⟩, _⟩ := h
      have h0 : isNotDigitOrDot '0' = false := by decide
      have h1 : ('0' == '.') = false := by decide
      simp only [freeDotGo, h0, h1, isNotDigitOrDot_dot, ih false]
      simp
    · next h =>
      simp only [freeDotGo, ih, Bool.or_false]
      cases hc : (c == '.')
      · simp
      · have hcd : isNotDigitOrDot c = false := by
          rw [eq_of_beq hc]
          exact isNotDigitOrDot_dot
        rw [hcd, startsWithDigit_prefixZeros_false]
        simpa [hc] using h

theorem prefixZeros_eq_self {free : Bool} {s : List Char}
    (h : freeDotGo free s = false) : prefixZeros free s = s := by
  induction s generalizing free with
  | nil => rfl
  | cons c rest ih =>
    simp only [freeDotGo, Bool.or_eq_false_iff] at h
    rw [prefixZeros, if_neg (by simp [h.1]), ih h.2]

theorem sublist_prefixZeros (free : Bool) (s : List Char) :
    s.Sublist (prefixZeros free s) := by
  induction s generalizing free with
  | nil => exact List.Sublist.slnil
  | cons d rest ih =>
    rw [prefixZeros]
    split
    · exact ((ih _).cons₂ d).cons _
    · exact (ih _).cons₂ d

theorem filter_prefixZeros (free : Bool) (s : List Char) :
    (prefixZeros free s).filter (fun c => c != '0') = s.filter (fun c => c != '0') := by
  induction s generalizing free with
  | nil => rfl
  | cons d rest ih =>
    rw [prefixZeros]
    split
    · have e : (('0' : Char) != '0') = false := by decide
      rw [List.filter_cons, e]
      simp only [Bool.false_eq_true, if_false, List.filter_cons, ih]
    · simp only [List.filter_cons, ih]

theorem normalizeDecimals_eq_prefixZeros (s : List Char) :
    normalizeDecimals s = prefixZeros true s :=
  normalizeDecimalsGo_eq_prefixZeros true s

theorem not_hasFreeDot_normalizeDecimals (s : List Char) :
    ¬ HasFreeDot (normalizeDecimals s) := by
  rw [hasFreeDot_iff, normalizeDecimals_eq_prefixZeros, freeDotGo_prefixZeros]
  simp

theorem normalizeDecimals_of_not_hasFreeDot {s : List Char} (h : ¬ HasFreeDot s) :
    normalizeDecimals s = s := by
  rw [hasFreeDot_iff, Bool.not_eq_true] at h
  rw [normalizeDecimals_eq_prefixZeros, prefixZeros_eq_self h]

/-- C7: decimal normalization puts a `0` before every `.` that is followed by a
digit and is at the start of the text or preceded by a character that is neither
a digit nor `.` (it computes `prefixZeros`, which inserts exactly those `0`
characters); its result contains no such `.`; the result differs from the input
only by inserted `0` characters (the input is a subsequence of it and every
other character is a `0`); it leaves the text unchanged when no such `.`
exists; and `parse('.5')` is `0.5`, `parse('0.5')` is `0.5`. -/
theorem normalizeDecimals_spec (s : List Char) :
    normalizeDecimals s = prefixZeros true s ∧
    ¬ HasFreeDot (normalizeDecimals s) ∧
    s.Sublist (normalizeDecimals s) ∧
    (normalizeDecimals s).filter (fun c => c != '0') = s.filter (fun c => c != '0') ∧
    (¬ HasFreeDot s → normalizeDecimals s = s) ∧
    parse ".5".toList = .ok "0.5".toList ∧
    parse "0.5".toList = .ok "0.5".toList :=
  ⟨normalizeDecimals_eq_prefixZeros s, not_hasFreeDot_normalizeDecimals s,
   (normalizeDecimals_eq_prefixZeros s) ▸ sublist_prefixZeros true s,
   (normalizeDecimals_eq_prefixZeros s) ▸ filter_prefixZeros true s,
   normalizeDecimals_of_not_hasFreeDot, by decide, by decide⟩

/-- Witness of C7 at the text `0.5`, which has no free `.` and is left unchanged. -/
theorem normalizeDecimals_spec_witness :
    ¬ HasFreeDot "0.5".toList ∧ normalizeDecimals "0.5".toList = "0.5".toList :=
  ⟨(hasFreeDot_iff _).not.mpr (by decide),
   (normalizeDecimals_spec "0.5".toList).2.2.2.2.1
     ((hasFreeDot_iff _).not.mpr (by decide))⟩

/-! ## Number-format validation -/

theorem dotCount_append_digit {cur : List Char} {c : Char} (h : isDigit c = true) :
    dotCount (cur ++ [c]) = dotCount cur := by
  have := isDigit_ne_dot h
  simp [dotCount, List.count_append, List.count_cons, this]

theorem dotCount_append_dot (cur : List Char) :
    dotCount (cur ++ ['.']) = dotCount cur + 1 := by
  simp [dotCount, List.count_append]

theorem numbersGo_any (st : NumberStage) (cur s : List Char)
    (h : dotCount cur = st.dots) :
    (numbersGo st cur s).any (fun num => decide (dotCount num > 1)) =
      takesSecondDot st s := by
  induction s generalizing st cur with
  | nil =>
    cases st <;> simp [numbersGo, takesSecondDot, NumberStage.dots] at h ⊢ <;> omega
  | cons c rest ih =>
    cases st with
    | outside =>
      simp only [numbersGo, takesSecondDot]
      split
      · next hd =>
        exact ih .intPart [c] (@dotCount_append_digit [] c hd)
      · exact ih .outside [] rfl
    | intPart =>
      simp only [numbersGo, takesSecondDot]
      simp only [NumberStage.dots] at h
      split
      · next hd => exact ih .intPart _ (by rw [dotCount_append_digit hd, h]; rfl)
      · split
        · next hc =>
          rw [eq_of_beq hc]
          exact ih .afterFirstDot _ (by rw [dotCount_append_dot, h]; rfl)
        · rw [List.any_cons, ih .outside [] rfl]
          simp [h]
    | afterFirstDot =>
      simp only [numbersGo, takesSecondDot]
      simp only [NumberStage.dots] at h
      split
      · next hd => exact ih .afterFirstDot _ (by rw [dotCount_append_digit hd, h]; rfl)
      · split
        · next hc =>
          rw [eq_of_beq hc, ih .afterSecondDot _ (by rw [dotCount_append_dot, h]; rfl)]
          simp [takesSecondDot]
        · rw [List.any_cons, ih .outside [] rfl]
          simp [h]
    | afterSecondDot =>
      simp only [numbersGo, takesSecondDot]
      simp only [NumberStage.dots] at h
      split
      · next hd =>
        rw [ih .afterSecondDot _ (by rw [dotCount_append_digit hd, h]; rfl)]
        simp [takesSecondDot]
      · rw [List.any_cons]
        simp [h]

theorem validateNumberFormat_ok_iff (s : List Char) :
    validateNumberFormat s = .ok () ↔
      hasConsecutiveDots s = false ∧ takesSecondDot .outside s = false := by
  unfold validateNumberFormat numbers
  rw [numbersGo_any .outside [] s rfl]
  cases hasConsecutiveDots s <;> cases takesSecondDot .outside s <;> simp

theorem pair_infix_cons {a b c : Char} {rest : List Char} :
    [a, b] <:+: c :: rest ↔ (a = c ∧ ∃ r, rest = b :: r) ∨ [a, b] <:+: rest := by
  rw [List.infix_cons_iff, List.cons_prefix_cons]
  apply or_congr _ Iff.rfl
  apply and_congr Iff.rfl
  cases rest with
  | nil => simp
  | cons d r =>
    rw [List.cons_prefix_cons]
    constructor
    · rintro ⟨rfl, _⟩
      exact ⟨r, rfl⟩
    · rintro ⟨r2, h2⟩
      injection h2 with h2 _
      exact ⟨h2.symm, List.nil_prefix⟩

theorem hasConsecutiveDots_iff (s : List Char) :
    hasConsecutiveDots s = true ↔ ['.', '.'] <:+: s := by
  induction s with
  | nil => simp [hasConsecutiveDots]
  | cons c rest ih =>
    rw [pair_infix_cons, ← ih]
    cases rest with
    | nil => simp [hasConsecutiveDots]
    | cons d r =>
      simp only [hasConsecutiveDots, Bool.or_eq_true, Bool.and_eq_true, beq_iff_eq]
      apply or_congr _ Iff.rfl
      constructor
      · rintro ⟨rfl, rfl⟩
        exact ⟨rfl, r, rfl⟩
      · rintro ⟨rfl, r2, h2⟩
        injection h2 with h2 _
        exact ⟨rfl, h2⟩

theorem takesSecondDot_of_no_digit_dot (s : List Char)
    (h : ∀ d, isDigit d = true → ¬ [d, '.'] <:+: s) :
    takesSecondDot .outside s = false ∧
    ((∀ r, s ≠ '.' :: r) → takesSecondDot .intPart s = false) := by
  induction s with
  | nil => simp [takesSecondDot]
  | cons c rest ih =>
    have hrest : ∀ d, isDigit d = true → ¬ [d, '.'] <:+: rest :=
      fun d hd hin => h d hd (List.infix_cons hin)
    obtain ⟨ih1, ih2⟩ := ih hrest
    have hdig : isDigit c = true → takesSecondDot .intPart rest = false := by
      intro hc
      apply ih2
      rintro r rfl
      exact h c hc (pair_infix_cons.mpr (Or.inl ⟨rfl, r, rfl⟩))
    constructor
    · simp only [takesSecondDot]
      split
      · next hc => exact hdig hc
      · exact ih1
    · intro hne
      simp only [takesSecondDot]
      split
      · next hc => exact hdig hc
      · split
        · next hc => exact absurd (by rw [eq_of_beq hc]) (hne rest)
        · exact ih1

theorem normalize_validate_of_allDotsBare (s : List Char) (h : AllDotsBare s) :
    normalizeDecimals s = s ∧ validateNumberFormat (normalizeDecimals s) = .ok () := by
  have hnorm : normalizeDecimals s = s := by
    apply normalizeDecimals_of_not_hasFreeDot
    rintro (⟨d, rest, hd, rfl⟩ | ⟨a, d, _, hd, hin⟩)
    · exact h.2 d hd ⟨[], rest, rfl⟩
    · exact h.2 d hd (List.IsInfix.trans ⟨[a], [], rfl⟩ hin)
  refine ⟨hnorm, ?_⟩
  rw [hnorm, validateNumberFormat_ok_iff]
  constructor
  · rw [← Bool.not_eq_true, hasConsecutiveDots_iff]
    exact h.1 '.' (Or.inr rfl)
  · exact (takesSecondDot_of_no_digit_dot s (fun d hd => h.1 d (Or.inl hd))).1

/-- C6 (amended): a bare `.` is not rejected.  For every text all of whose `.` are
bare (not preceded by a digit or another `.`, not followed by a digit), decimal
normalization leaves the text unchanged and the number-format validation step
accepts it. -/
theorem validateNumberFormat_of_allDotsBare (s : List Char) (h : AllDotsBare s) :
    normalizeDecimals s = s ∧ validateNumberFormat (normalizeDecimals s) = .ok () :=
  normalize_validate_of_allDotsBare s h

theorem hasPair_iff (P : Char → Char → Bool) (s : List Char) :
    hasPair P s = true ↔ ∃ a b, P a b = true ∧ [a, b] <:+: s := by
  induction s with
  | nil => simp [hasPair]
  | cons c rest ih =>
    cases rest with
    | nil =>
      simp only [hasPair, Bool.false_eq_true, false_iff, not_exists, not_and]
      intro a b _ hin
      have := hin.length_le
      simp at this
    | cons d r =>
      simp only [hasPair, Bool.or_eq_true, ih]
      constructor
      · rintro (h | ⟨a, b, hab, hin⟩)
        · exact ⟨c, d, h, ⟨[], r, rfl⟩⟩
        · exact ⟨a, b, hab, List.infix_cons hin⟩
      · rintro ⟨a, b, hab, hin⟩
        rcases pair_infix_cons.mp hin with ⟨rfl, r2, h2⟩ | h
        · injection h2 with h2 _
          subst h2
          exact Or.inl hab
        · exact Or.inr ⟨a, b, hab, h⟩

theorem allDotsBare_iff (s : List Char) :
    AllDotsBare s ↔
      hasPair (fun a b => (isDigit a || a == '.') && b == '.') s = false ∧
      hasPair (fun a b => a == '.' && isDigit b) s = false := by
  unfold AllDotsBare
  rw [← Bool.not_eq_true, ← Bool.not_eq_true, hasPair_iff, hasPair_iff]
  apply and_congr
  · constructor
    · rintro h ⟨a, b, hab, hin⟩
      simp only [Bool.and_eq_true, Bool.or_eq_true, beq_iff_eq] at hab
      obtain ⟨ha, rfl⟩ := hab
      exact h a ha hin
    · intro h a ha hin
      exact h ⟨a, '.', by simpa using ha, hin⟩
  · constructor
    · rintro h ⟨a, b, hab, hin⟩
      simp only [Bool.and_eq_true, beq_iff_eq] at hab
      obtain ⟨rfl, hb⟩ := hab
      exact h b hb hin
    · intro h d hd hin
      exact h ⟨'.', d, by simpa using hd, hin⟩

/-- Witness of the amended C6 at `5+.`, whose only `.` is bare. -/
theorem validateNumberFormat_of_allDotsBare_witness :
    AllDotsBare "5+.".toList ∧ normalizeDecimals "5+.".toList = "5+.".toList ∧
    validateNumberFormat (normalizeDecimals "5+.".toList) = .ok () :=
  ⟨(allDotsBare_iff _).mpr (by decide),
   validateNumberFormat_of_allDotsBare "5+.".toList ((allDotsBare_iff _).mpr (by decide))⟩

/-! ## Parenthesis validation -/

theorem parenBalance_nil : parenBalance [] = 0 := rfl

theorem parenBalance_cons (c : Char) (s : List Char) :
    parenBalance (c :: s) =
      (if c == '(' then 1 else if c == ')' then -1 else 0) + parenBalance s := by
  unfold parenBalance
  rw [List.count_cons, List.count_cons]
  by_cases h1 : c = '('
  · subst h1
    have : (('(' : Char) == ')') = false := by decide
    simp [this]
    omega
  · by_cases h2 : c = ')'
    · subst h2
      have : ((')' : Char) == '(') = false := by decide
      simp [this]
      omega
    · simp [h1, h2]

theorem exists_prefix_cons {c : Char} {rest : List Char} {b : Int} (hb : 0 ≤ b) :
    (∃ p, p <+: c :: rest ∧ b + parenBalance p < 0) ↔
      ∃ p, p <+: rest ∧
        (b + (if c == '(' then 1 else if c == ')' then -1 else 0)) + parenBalance p < 0 := by
  constructor
  · rintro ⟨p, hp, hlt⟩
    rcases List.prefix_cons_iff.mp hp with rfl | ⟨t, rfl, ht⟩
    · rw [parenBalance_nil] at hlt
      omega
    · refine ⟨t, ht, ?_⟩
      rw [parenBalance_cons] at hlt
      omega
  · rintro ⟨p, hp, hlt⟩
    refine ⟨c :: p, List.cons_prefix_cons.mpr ⟨rfl, hp⟩, ?_⟩
    rw [parenBalance_cons]
    omega

theorem validateParenthesesGo_spec (s : List Char) (b : Int) (hb : 0 ≤ b) :
    ((∃ p, p <+: s ∧ b + parenBalance p < 0) →
      validateParenthesesGo b s = .error .unbalancedParentheses) ∧
    ((¬ ∃ p, p <+: s ∧ b + parenBalance p < 0) →
      validateParenthesesGo b s = .ok (b + parenBalance s)) := by
  induction s generalizing b with
  | nil =>
    constructor
    · rintro ⟨p, hp, hlt⟩
      rw [List.prefix_nil.mp hp, parenBalance_nil] at hlt
      omega
    · intro _
      simp [validateParenthesesGo, parenBalance_nil]
  | cons c rest ih =>
    rw [exists_prefix_cons hb, parenBalance_cons, validateParenthesesGo]
    by_cases h1 : (c == '(') = true
    · simp only [h1, if_true]
      have := ih (b + 1) (by omega)
      rw [← Int.add_assoc]
      exact this
    · simp only [h1, if_false, Bool.false_eq_true]
      by_cases h2 : (c == ')') = true
      · simp only [h2, if_true]
        by_cases h3 : b - 1 < 0
        · rw [if_pos h3]
          constructor
          · intro _; rfl
          · intro hno
            exact absurd ⟨[], List.nil_prefix, by rw [parenBalance_nil]; omega⟩ hno
        · rw [if_neg h3]
          have := ih (b - 1) (by omega)
          rw [← Int.add_assoc]
          exact this
      · simp only [h2, if_false, Bool.false_eq_true]
        have := ih b hb
        simpa using this

theorem validateParentheses_error_iff (s : List Char) :
    validateParentheses s = .error .unbalancedParentheses ↔
      (∃ p, p <+: s ∧ p.count '(' < p.count ')') ∨ s.count '(' ≠ s.count ')' := by
  obtain ⟨h1, h2⟩ := validateParenthesesGo_spec s 0 (le_refl 0)
  have hconv : (∃ p, p <+: s ∧ (0 : Int) + parenBalance p < 0) ↔
      ∃ p, p <+: s ∧ p.count '(' < p.count ')' := by
    constructor
    · rintro ⟨p, hp, hlt⟩
      refine ⟨p, hp, ?_⟩
      unfold parenBalance at hlt
      omega
    · rintro ⟨p, hp, hlt⟩
      refine ⟨p, hp, ?_⟩
      unfold parenBalance
      omega
  unfold validateParentheses
  by_cases hex : ∃ p, p <+: s ∧ (0 : Int) + parenBalance p < 0
  · rw [h1 hex]
    simp only [true_iff]
    exact Or.inl (hconv.mp hex)
  · rw [h2 hex]
    have hno : ¬ ∃ p, p <+: s ∧ p.count '(' < p.count ')' := fun h => hex (hconv.mpr h)
    simp only [hno, false_or]
    unfold parenBalance
    by_cases hb : (0 : Int) + ((s.count '(' : Int) - (s.count ')' : Int)) ≠ 0
    · rw [if_pos hb]
      simp only [true_iff]
      omega
    · rw [if_neg hb]
      simp only [reduceCtorEq, false_iff, ne_eq, not_not]
      omega

theorem validateParenthesesGo_filter (s : List Char) (b : Int) :
    validateParenthesesGo b (s.filter isParen) = validateParenthesesGo b s := by
  induction s generalizing b with
  | nil => rfl
  | cons c rest ih =>
    by_cases h1 : (c == '(') = true
    · have hp : isParen c = true := by simp [isParen, h1]
      rw [List.filter_cons_of_pos hp, validateParenthesesGo, validateParenthesesGo]
      simp only [h1, if_true]
      exact ih _
    · by_cases h2 : (c == ')') = true
      · have hp : isParen c = true := by simp [isParen, h2]
        rw [List.filter_cons_of_pos hp, validateParenthesesGo, validateParenthesesGo]
        simp only [h1, h2, if_true, if_false, Bool.false_eq_true]
        split
        · rfl
        · exact ih _
      · have hp : ¬ isParen c = true := by simp [isParen, h1, h2]
        rw [List.filter_cons_of_neg hp, validateParenthesesGo]
        simp only [h1, h2, if_false, Bool.false_eq_true]
        exact ih _

theorem validateParentheses_filter (s : List Char) :
    validateParentheses (s.filter isParen) = validateParentheses s := by
  unfold validateParentheses
  rw [validateParenthesesGo_filter]

theorem validateParentheses_congr {s t : List Char}
    (h : s.filter isParen = t.filter isParen) :
    validateParentheses s = validateParentheses t := by
  rw [← validateParentheses_filter s, h, validateParentheses_filter]

theorem filter_isParen_removeWhitespace (s : List Char) :
    (removeWhitespace s).filter isParen = s.filter isParen := by
  unfold removeWhitespace
  rw [List.filter_filter]
  apply List.filter_congr
  intro c _
  cases hp : isParen c
  · simp
  · have : isWhitespace c = false := by
      simp only [isParen, Bool.or_eq_true, beq_iff_eq] at hp
      rcases hp with rfl | rfl <;> decide
    simp [this]

theorem filter_isParen_convertOperators (s : List Char) :
    (convertOperators s).filter isParen = s.filter isParen := by
  induction s with
  | nil => rfl
  | cons c rest ih =>
    unfold convertOperators at ih ⊢
    simp only [List.map_cons]
    by_cases h1 : c = '×'
    · subst h1
      have e1 : isParen '×' = false := by decide
      have e2 : isParen (if ('*' == '÷') = true then '/' else '*') = false := by decide
      simp only [beq_self_eq_true, if_true, List.filter_cons, e1, e2, Bool.false_eq_true,
        if_false]
      exact ih
    · by_cases h2 : c = '÷'
      · subst h2
        have e1 : isParen '÷' = false := by decide
        have e0 : (('÷' : Char) == '×') = false := by decide
        have e2 : isParen '/' = false := by decide
        simp only [e0, Bool.false_eq_true, if_false, beq_self_eq_true, if_true,
          List.filter_cons, e1, e2]
        exact ih
      · have e1 : (c == '×') = false := by simpa using h1
        have e2 : (c == '÷') = false := by simpa using h2
        simp only [e1, e2, Bool.false_eq_true, if_false, List.filter_cons]
        rw [ih]

theorem filter_isParen_prefixZeros (free : Bool) (s : List Char) :
    (prefixZeros free s).filter isParen = s.filter isParen := by
  induction s generalizing free with
  | nil => rfl
  | cons c rest ih =>
    rw [prefixZeros]
    split
    · have e0 : isParen '0' = false := by decide
      rw [List.filter_cons, e0]
      simp only [Bool.false_eq_true, if_false, List.filter_cons, ih]
    · simp only [List.filter_cons, ih]

theorem filter_isParen_pipeline (x : List Char) :
    (normalizeDecimals (convertOperators (removeWhitespace x))).filter isParen =
      x.filter isParen := by
  rw [normalizeDecimals_eq_prefixZeros, filter_isParen_prefixZeros,
    filter_isParen_convertOperators, filter_isParen_removeWhitespace]

theorem validateParentheses_pipeline (x : List Char) :
    validateParentheses (normalizeDecimals (convertOperators (removeWhitespace x))) =
      validateParentheses x :=
  validateParentheses_congr (filter_isParen_pipeline x)

/-- C4: for every input that passes character and number-format validation (on
which `parse` raises neither the invalid-character error nor a number-format
error), `parse` raises the unbalanced-parentheses error if and only if some
prefix of the input contains more `)` than `(` or the total numbers of `(` and
`)` differ. -/
theorem parse_unbalanced_iff (x : List Char)
    (hc : parse x ≠ .error .invalidCharacter)
    (hn : parse x ≠ .error .multipleDecimalPoints)
    (hm : parse x ≠ .error .multipleDecimalPointsInNumber) :
    parse x = .error .unbalancedParentheses ↔
      (∃ p, p <+: x ∧ p.count '(' < p.count ')') ∨ x.count '(' ≠ x.count ')' := by
  rw [← validateParentheses_error_iff]
  by_cases hr : removeWhitespace x = []
  · rw [parse_of_removeWhitespace_nil hr]
    have hf : x.filter isParen = ([] : List Char).filter isParen := by
      rw [← filter_isParen_removeWhitespace, hr]
    have hx : validateParentheses x = .ok () := by
      rw [validateParentheses_congr hf]
      rfl
    rw [hx]
    simp
  · rw [parse_of_removeWhitespace_ne_nil hr] at hc hn hm ⊢
    rw [← validateParentheses_pipeline x]
    unfold parseCore at hc hn hm ⊢
    cases hv : validateCharacters (removeWhitespace x) with
    | error err =>
      rw [hv] at hc
      exact absurd (by rw [validateCharacters_error hv]) hc
    | ok u =>
      cases hf : validateNumberFormat
          (normalizeDecimals (convertOperators (removeWhitespace x))) with
      | error err =>
        rw [hv, hf] at hn hm
        rcases validateNumberFormat_error hf with rfl | rfl
        · exact absurd rfl hn
        · exact absurd rfl hm
      | ok u2 =>
        cases hp : validateParentheses
            (normalizeDecimals (convertOperators (removeWhitespace x))) with
        | error err => simp
        | ok u3 => simp

/-- Witness of C4 at `(5+3`, the input of the unit test for an unmatched `(`. -/
theorem parse_unbalanced_iff_witness :
    parse "(5+3".toList ≠ .error .invalidCharacter ∧
    parse "(5+3".toList ≠ .error .multipleDecimalPoints ∧
    parse "(5+3".toList ≠ .error .multipleDecimalPointsInNumber ∧
    (parse "(5+3".toList = .error .unbalancedParentheses ↔
      (∃ p, p <+: "(5+3".toList ∧ p.count '(' < p.count ')') ∨
        "(5+3".toList.count '(' ≠ "(5+3".toList.count ')') :=
  ⟨by decide, by decide, by decide,
   parse_unbalanced_iff "(5+3".toList (by decide) (by decide) (by decide)⟩

/-! ## Insertion of `*` characters -/

theorem StarInserted.refl (s : List Char) : StarInserted s s := by
  induction s with
  | nil => exact .nil
  | cons c rest ih => exact .cons c ih

theorem StarInserted.sublist {s t : List Char} (h : StarInserted s t) : s.Sublist t := by
  induction h with
  | nil => exact List.Sublist.slnil
  | cons c _ ih => exact ih.cons₂ c
  | star _ _ _ ih => exact ih.cons _

theorem StarInserted.mem {s t : List Char} (h : StarInserted s t) {c : Char}
    (hc : c ∈ t) : c = '*' ∨ c ∈ s := by
  induction h with
  | nil => cases hc
  | cons d _ ih =>
    rcases List.mem_cons.mp hc with rfl | hc
    · exact Or.inr (List.mem_cons_self _ _)
    · exact (ih hc).imp id (List.mem_cons_of_mem _)
  | star _ _ _ ih =>
    rcases List.mem_cons.mp hc with rfl | hc
    · exact Or.inl rfl
    · exact ih hc

theorem StarInserted.head_of_cons {y : Char} {s t : List Char}
    (h : StarInserted (y :: s) t) : ∃ t1, t = y :: t1 ∨ t = '*' :: t1 := by
  cases h with
  | cons _ h1 => exact ⟨_, Or.inl rfl⟩
  | star _ _ h3 => exact ⟨_, Or.inr rfl⟩

theorem StarInserted.source_head {y : Char} {s t : List Char}
    (h : StarInserted s (y :: t)) (hd : isDigit y = false) (hp : (y == '.') = false) :
    ∃ z s1, s = z :: s1 ∧ isDigit z = false ∧ (z == '.') = false := by
  cases h with
  | cons _ h1 => exact ⟨_, _, rfl, hd, hp⟩
  | star h1 h2 h3 => exact ⟨_, _, rfl, h1, h2⟩

theorem StarInserted.trans {s t u : List Char} (hst : StarInserted s t)
    (htu : StarInserted t u) : StarInserted s u := by
  induction htu generalizing s with
  | nil => exact hst
  | cons c _ ih =>
    cases hst with
    | cons _ h1 => exact .cons c (ih h1)
    | star h1 h2 h3 => exact .star h1 h2 (ih h3)
  | star h1 h2 _ ih =>
    obtain ⟨z, s1, rfl, hz1, hz2⟩ := hst.source_head h1 h2
    exact .star hz1 hz2 (ih hst)

theorem matchAlt_some {alts : List (List Char)} {s alt : List Char}
    (h : matchAlt alts s = some alt) : alt ∈ alts ∧ alt <+: s := by
  unfold matchAlt at h
  refine ⟨List.mem_of_find?_eq_some h, ?_⟩
  have := List.find?_some h
  simpa using this

theorem matchAlt_none {alts : List (List Char)} {s : List Char}
    (h : matchAlt alts s = none) : ∀ alt ∈ alts, ¬ alt <+: s := by
  unfold matchAlt at h
  intro alt hmem hpre
  have := List.find?_eq_none.mp h alt hmem
  simp [hpre] at this

theorem insertStarGo_nil (first : Char → Bool) (alts : List (List Char)) (k : Nat) :
    insertStarGo first alts k [] = [] := by
  cases k <;> rfl

theorem insertStarGo_skip (first : Char → Bool) (alts : List (List Char)) (k : Nat)
    (c : Char) (rest : List Char) :
    insertStarGo first alts (k + 1) (c :: rest) = c :: insertStarGo first alts k rest := by
  rw [insertStarGo]

theorem insertStarGo_zero (first : Char → Bool) (alts : List (List Char))
    (c : Char) (rest : List Char) :
    insertStarGo first alts 0 (c :: rest) =
      if first c = true then
        match matchAlt alts rest with
        | some alt => c :: '*' :: insertStarGo first alts alt.length rest
        | none => c :: insertStarGo first alts 0 rest
      else c :: insertStarGo first alts 0 rest := by
  rw [insertStarGo]

theorem starInserted_insertStarGo (first : Char → Bool) {alts : List (List Char)}
    (halts : AltsStartPlain alts) (k : Nat) (s : List Char) :
    StarInserted s (insertStarGo first alts k s) := by
  induction s generalizing k with
  | nil => rw [insertStarGo_nil]; exact .nil
  | cons c rest ih =>
    cases k with
    | succ k => rw [insertStarGo_skip]; exact .cons c (ih k)
    | zero =>
      rw [insertStarGo_zero]
      split
      · cases hm : matchAlt alts rest with
        | none => exact .cons c (ih 0)
        | some alt =>
          obtain ⟨hmem, hpre⟩ := matchAlt_some hm
          obtain ⟨y, r, rfl, hy1, hy2⟩ := halts alt hmem
          obtain ⟨r2, rfl⟩ := hpre
          exact .cons c (.star hy1 hy2 (ih _))
      · exact .cons c (ih 0)

theorem starInserted_insertStar (first : Char → Bool) {alts : List (List Char)}
    (halts : AltsStartPlain alts) (s : List Char) :
    StarInserted s (insertStar first alts s) :=
  starInserted_insertStarGo first halts 0 s

theorem altsStartPlain_nil : AltsStartPlain [] := by
  intro alt h
  cases h

theorem altsStartPlain_cons {y : Char} {r : List Char} {alts : List (List Char)}
    (h1 : isDigit y = false) (h2 : (y == '.') = false) (h : AltsStartPlain alts) :
    AltsStartPlain ((y :: r) :: alts) := by
  intro alt hmem
  rcases List.mem_cons.mp hmem with rfl | hmem
  · exact ⟨y, r, rfl, h1, h2⟩
  · exact h alt hmem

theorem handleImplicitMultiplication_eq (s : List Char) :
    handleImplicitMultiplication s =
      insertStar isConstant [['(']]
        (insertStar isOperandEnd [['s', 'q', 'r', 't']]
          (insertStar isOperandEnd [['l', 'n']]
            (insertStar isOperandEnd [['l', 'o', 'g']]
              (insertStar isOperandEnd [['t', 'a', 'n']]
                (insertStar isOperandEnd [['c', 'o', 's']]
                  (insertStar isOperandEnd [['s', 'i', 'n']]
                    (insertStar isOperandEnd [['(']]
                      (insertStar isOperandEnd [['π'], ['e']] s)))))))) := rfl

theorem starInserted_handleImplicitMultiplication (s : List Char) :
    StarInserted s (handleImplicitMultiplication s) := by
  rw [handleImplicitMultiplication_eq]
  have single : ∀ (first : Char → Bool) (y : Char) (r t : List Char),
      isDigit y = false → (y == '.') = false →
      StarInserted t (insertStar first [y :: r] t) := fun first y r t h1 h2 =>
    starInserted_insertStar first (altsStartPlain_cons h1 h2 altsStartPlain_nil) t
  have first2 : StarInserted s (insertStar isOperandEnd [['π'], ['e']] s) :=
    starInserted_insertStar _
      (altsStartPlain_cons (by decide) (by decide)
        (altsStartPlain_cons (by decide) (by decide) altsStartPlain_nil)) s
  have h2 := first2.trans (single isOperandEnd '(' [] _ (by decide) (by decide))
  have h3 := h2.trans (single isOperandEnd 's' ['i', 'n'] _ (by decide) (by decide))
  have h4 := h3.trans (single isOperandEnd 'c' ['o', 's'] _ (by decide) (by decide))
  have h5 := h4.trans (single isOperandEnd 't' ['a', 'n'] _ (by decide) (by decide))
  have h6 := h5.trans (single isOperandEnd 'l' ['o', 'g'] _ (by decide) (by decide))
  have h7 := h6.trans (single isOperandEnd 'l' ['n'] _ (by decide) (by decide))
  have h8 := h7.trans (single isOperandEnd 's' ['q', 'r', 't'] _ (by decide) (by decide))
  exact h8.trans (single isConstant '(' [] _ (by decide) (by decide))

theorem StarInserted.prefix_transfer {s t : List Char} (h : StarInserted s t)
    {w : List Char} (hw : '*' ∉ w) (hp : w <+: t) : w <+: s := by
  induction h generalizing w with
  | nil => exact hp
  | cons c _ ih =>
    rcases List.prefix_cons_iff.mp hp with rfl | ⟨w1, rfl, hp1⟩
    · exact List.nil_prefix
    · exact List.cons_prefix_cons.mpr
        ⟨rfl, ih (fun hmem => hw (List.mem_cons_of_mem _ hmem)) hp1⟩
  | star _ _ _ _ =>
    rcases List.prefix_cons_iff.mp hp with rfl | ⟨w1, rfl, _⟩
    · exact List.nil_prefix
    · exact absurd (List.mem_cons_self _ _) hw

theorem StarInserted.infix_transfer {s t : List Char} (h : StarInserted s t)
    {w : List Char} (hw : '*' ∉ w) (hi : w <:+: t) : w <:+: s := by
  induction h with
  | nil => exact hi
  | cons c h1 ih =>
    rcases List.infix_cons_iff.mp hi with hp | hi1
    · exact ((StarInserted.cons c h1).prefix_transfer hw hp).isInfix
    · exact List.infix_cons (ih hi1)
  | star h1 h2 h3 ih =>
    rcases List.infix_cons_iff.mp hi with hp | hi1
    · rcases List.prefix_cons_iff.mp hp with rfl | ⟨w1, rfl, _⟩
      · exact ⟨[], _, rfl⟩
      · exact absurd (List.mem_cons_self _ _) hw
    · exact ih hi1

theorem insertStarGo_eq_self (first : Char → Bool) (alts : List (List Char)) (k : Nat)
    (s : List Char)
    (h : ∀ a alt, first a = true → alt ∈ alts → ¬ (a :: alt) <:+: s) :
    insertStarGo first alts k s = s := by
  induction s generalizing k with
  | nil => exact insertStarGo_nil first alts k
  | cons c rest ih =>
    have hrest : ∀ a alt, first a = true → alt ∈ alts → ¬ (a :: alt) <:+: rest :=
      fun a alt ha hmem hin => h a alt ha hmem (List.infix_cons hin)
    cases k with
    | succ k => rw [insertStarGo_skip, ih k hrest]
    | zero =>
      rw [insertStarGo_zero]
      split
      · next hc =>
        cases hm : matchAlt alts rest with
        | none => simp only [ih 0 hrest]
        | some alt =>
          obtain ⟨hmem, hpre⟩ := matchAlt_some hm
          exact absurd (List.cons_prefix_cons.mpr ⟨rfl, hpre⟩).isInfix (h c alt hc hmem)
      · rw [ih 0 hrest]

theorem no_match_insertStarGo (first : Char → Bool) {alts : List (List Char)}
    (hstar : first '*' = false) (halts : AltsStartPlain alts)
    (hfree : ∀ alt ∈ alts, '*' ∉ alt)
    (hnf : ∀ alt ∈ alts, ∀ c ∈ alt, first c = false)
    (k : Nat) (s : List Char) (hk : ∀ c ∈ s.take k, first c = false) :
    ∀ a alt, first a = true → alt ∈ alts →
      ¬ (a :: alt) <:+: insertStarGo first alts k s := by
  induction s generalizing k with
  | nil =>
    intro a alt _ _ hin
    rw [insertStarGo_nil] at hin
    simp at hin
  | cons c rest ih =>
    intro a alt ha hmem hin
    cases k with
    | succ k =>
      rw [insertStarGo_skip] at hin
      rcases List.infix_cons_iff.mp hin with hp | hi
      · have hac := (List.cons_prefix_cons.mp hp).1
        subst hac
        have := hk a (by simp)
        rw [ha] at this
        cases this
      · refine ih k (fun d hd => hk d ?_) a alt ha hmem hi
        rw [List.take_succ_cons]
        exact List.mem_cons_of_mem _ hd
    | zero =>
      have hplain : ∀ t, StarInserted rest t → alt <+: t → alt <+: rest :=
        fun t ht hp => ht.prefix_transfer (hfree alt hmem) hp
      have hnone : insertStarGo first alts 0 (c :: rest) =
          c :: insertStarGo first alts 0 rest →
          (first c = true → matchAlt alts rest = none) → False := by
        intro heq hmn
        rw [heq] at hin
        rcases List.infix_cons_iff.mp hin with hp | hi
        · obtain ⟨hac, hp1⟩ := List.cons_prefix_cons.mp hp
          subst hac
          exact matchAlt_none (hmn ha) alt hmem
            (hplain _ (starInserted_insertStarGo first halts 0 rest) hp1)
        · exact ih 0 (by simp) a alt ha hmem hi
      by_cases hc : first c = true
      · cases hm : matchAlt alts rest with
        | none =>
          exact hnone (by rw [insertStarGo_zero, if_pos hc, hm]) (fun _ => hm)
        | some alt0 =>
          rw [insertStarGo_zero, if_pos hc, hm] at hin
          obtain ⟨hmem0, hpre0⟩ := matchAlt_some hm
          rcases List.infix_cons_iff.mp hin with hp | hi
          · obtain ⟨_, hp1⟩ := List.cons_prefix_cons.mp hp
            obtain ⟨y, r, rfl, _, _⟩ := halts alt hmem
            have := (List.cons_prefix_cons.mp hp1).1
            subst this
            exact hfree _ hmem (List.mem_cons_self _ _)
          · rcases List.infix_cons_iff.mp hi with hp | hi2
            · have := (List.cons_prefix_cons.mp hp).1
              subst this
              rw [ha] at hstar
              cases hstar
            · refine ih alt0.length (fun d hd => ?_) a alt ha hmem hi2
              rw [← List.prefix_iff_eq_take.mp hpre0] at hd
              exact hnf alt0 hmem0 d hd
      · exact hnone (by rw [insertStarGo_zero, if_neg hc])
          (fun h => absurd h hc)

theorem handleImplicitMultiplication_eq_runPasses (s : List Char) :
    handleImplicitMultiplication s = runPasses passes s := rfl

theorem runPasses_cons (p : (Char → Bool) × List (List Char))
    (ps : List ((Char → Bool) × List (List Char))) (s : List Char) :
    runPasses (p :: ps) s = runPasses ps (insertStar p.1 p.2 s) := rfl

theorem noMatch_insertStar {p : (Char → Bool) × List (List Char)} (hp : GoodPass p)
    (s : List Char) : NoMatch p (insertStar p.1 p.2 s) :=
  no_match_insertStarGo p.1 hp.1 hp.2.1 hp.2.2.1 hp.2.2.2 0 s (by simp)

theorem noMatch_preserved {p q : (Char → Bool) × List (List Char)} (hp : GoodPass p)
    (hq : GoodPass q) {t : List Char} (h : NoMatch q t) :
    NoMatch q (insertStar p.1 p.2 t) := by
  intro a alt ha hmem hin
  refine h a alt ha hmem ((starInserted_insertStar p.1 hp.2.1 t).infix_transfer ?_ hin)
  intro hstar
  rcases List.mem_cons.mp hstar with h1 | h1
  · rw [← h1, hq.1] at ha
    cases ha
  · exact hq.2.2.1 alt hmem h1

theorem noMatch_runPasses_of_noMatch {ps : List ((Char → Bool) × List (List Char))}
    (hps : ∀ p ∈ ps, GoodPass p) {q : (Char → Bool) × List (List Char)}
    (hq : GoodPass q) {t : List Char} (h : NoMatch q t) : NoMatch q (runPasses ps t) := by
  induction ps generalizing t with
  | nil => exact h
  | cons p ps ih =>
    rw [runPasses_cons]
    exact ih (fun r hr => hps r (List.mem_cons_of_mem _ hr))
      (noMatch_preserved (hps p (List.mem_cons_self _ _)) hq h)

theorem noMatch_runPasses {ps : List ((Char → Bool) × List (List Char))}
    (hps : ∀ p ∈ ps, GoodPass p) (s : List Char) :
    ∀ q ∈ ps, NoMatch q (runPasses ps s) := by
  induction ps generalizing s with
  | nil => intro q hq; cases hq
  | cons p ps ih =>
    intro q hq
    have hps1 : ∀ r ∈ ps, GoodPass r := fun r hr => hps r (List.mem_cons_of_mem _ hr)
    rw [runPasses_cons]
    rcases List.mem_cons.mp hq with rfl | hq
    · exact noMatch_runPasses_of_noMatch hps1 (hps q (List.mem_cons_self _ _))
        (noMatch_insertStar (hps q (List.mem_cons_self _ _)) s)
    · exact ih hps1 _ q hq

theorem runPasses_eq_self {ps : List ((Char → Bool) × List (List Char))} {t : List Char}
    (h : ∀ p ∈ ps, NoMatch p t) : runPasses ps t = t := by
  induction ps with
  | nil => rfl
  | cons p ps ih =>
    rw [runPasses_cons]
    have : insertStar p.1 p.2 t = t :=
      insertStarGo_eq_self p.1 p.2 0 t (h p (List.mem_cons_self _ _))
    rw [this]
    exact ih (fun r hr => h r (List.mem_cons_of_mem _ hr))

theorem passes_eq :
    passes =
      [(isOperandEnd, [['π'], ['e']]), (isOperandEnd, [['(']]),
       (isOperandEnd, [['s', 'i', 'n']]), (isOperandEnd, [['c', 'o', 's']]),
       (isOperandEnd, [['t', 'a', 'n']]), (isOperandEnd, [['l', 'o', 'g']]),
       (isOperandEnd, [['l', 'n']]), (isOperandEnd, [['s', 'q', 'r', 't']]),
       (isConstant, [['(']])] := rfl

theorem altsStartPlain_of_all {alts : List (List Char)}
    (h : alts.all (fun alt =>
      match alt with
      | [] => false
      | y :: _ => !isDigit y && !(y == '.')) = true) : AltsStartPlain alts := by
  intro alt hmem
  have := List.all_eq_true.mp h alt hmem
  cases alt with
  | nil => simp at this
  | cons y r =>
    simp only [Bool.and_eq_true, Bool.not_eq_true'] at this
    exact ⟨y, r, rfl, this.1, this.2⟩

theorem goodPass_passes : ∀ p ∈ passes, GoodPass p := by
  intro p hp
  rw [passes_eq] at hp
  simp only [List.mem_cons, List.mem_singleton, List.not_mem_nil, or_false] at hp
  rcases hp with rfl | rfl | rfl | rfl | rfl | rfl | rfl | rfl | rfl <;>
    exact ⟨by decide, altsStartPlain_of_all (by decide), by decide, by decide⟩

theorem noImplicit_iff (t : List Char) : NoImplicit t ↔ ∀ p ∈ passes, NoMatch p t := by
  constructor
  · intro h p hp a alt ha hmem
    apply h
    rw [passes_eq] at hp
    simp only [List.mem_cons, List.mem_singleton, List.not_mem_nil, or_false] at hp
    rcases hp with rfl | rfl | rfl | rfl | rfl | rfl | rfl | rfl | rfl
    case inr.inr.inr.inr.inr.inr.inr.inr =>
      simp only [List.mem_singleton] at hmem
      subst hmem
      exact Or.inr ⟨a, ha, rfl⟩
    all_goals
      refine Or.inl ⟨a, alt, ha, ?_, rfl⟩
      simp only [List.mem_cons, List.mem_singleton, List.not_mem_nil, or_false] at hmem
      rcases hmem with rfl | rfl <;> decide
  · intro h w hw
    rcases hw with ⟨a, y, ha, hy, rfl⟩ | ⟨c, hc, rfl⟩
    · have hy2 : y = ['π'] ∨ y = ['e'] ∨ y = ['('] ∨ y = ['s', 'i', 'n'] ∨
          y = ['c', 'o', 's'] ∨ y = ['t', 'a', 'n'] ∨ y = ['l', 'o', 'g'] ∨
          y = ['l', 'n'] ∨ y = ['s', 'q', 'r', 't'] := by
        simpa [operandFollowers, functions] using hy
      rcases hy2 with rfl | rfl | rfl | rfl | rfl | rfl | rfl | rfl | rfl
      · exact h (isOperandEnd, [['π'], ['e']]) (by rw [passes_eq]; simp) a _ ha (by simp)
      · exact h (isOperandEnd, [['π'], ['e']]) (by rw [passes_eq]; simp) a _ ha (by simp)
      · exact h (isOperandEnd, [['(']]) (by rw [passes_eq]; simp) a _ ha (by simp)
      · exact h (isOperandEnd, [['s', 'i', 'n']]) (by rw [passes_eq]; simp) a _ ha (by simp)
      · exact h (isOperandEnd, [['c', 'o', 's']]) (by rw [passes_eq]; simp) a _ ha (by simp)
      · exact h (isOperandEnd, [['t', 'a', 'n']]) (by rw [passes_eq]; simp) a _ ha (by simp)
      · exact h (isOperandEnd, [['l', 'o', 'g']]) (by rw [passes_eq]; simp) a _ ha (by simp)
      · exact h (isOperandEnd, [['l', 'n']]) (by rw [passes_eq]; simp) a _ ha (by simp)
      · exact h (isOperandEnd, [['s', 'q', 'r', 't']]) (by rw [passes_eq]; simp) a _ ha
          (by simp)
    · exact h (isConstant, [['(']]) (by rw [passes_eq]; simp) c _ hc (by simp)

theorem noImplicit_handleImplicitMultiplication (s : List Char) :
    NoImplicit (handleImplicitMultiplication s) := by
  rw [noImplicit_iff, handleImplicitMultiplication_eq_runPasses]
  exact noMatch_runPasses goodPass_passes s

theorem handleImplicitMultiplication_eq_self {t : List Char} (h : NoImplicit t) :
    handleImplicitMultiplication t = t := by
  rw [handleImplicitMultiplication_eq_runPasses]
  exact runPasses_eq_self ((noImplicit_iff t).mp h)

/-! ## The result of a successful parse -/

theorem parse_ok_cases {x y : List Char} (h : parse x = .ok y) :
    (removeWhitespace x = [] ∧ y = []) ∨
    (removeWhitespace x ≠ [] ∧
      validateCharacters (removeWhitespace x) = .ok () ∧
      validateNumberFormat (normalizeDecimals (convertOperators (removeWhitespace x))) =
        .ok () ∧
      validateParentheses (normalizeDecimals (convertOperators (removeWhitespace x))) =
        .ok () ∧
      y = handleImplicitMultiplication
        (normalizeDecimals (convertOperators (removeWhitespace x)))) := by
  by_cases hr : removeWhitespace x = []
  · rw [parse_of_removeWhitespace_nil hr] at h
    injection h with h
    exact Or.inl ⟨hr, h.symm⟩
  · rw [parse_of_removeWhitespace_ne_nil hr] at h
    unfold parseCore at h
    cases hv : validateCharacters (removeWhitespace x) with
    | error err => rw [hv] at h; cases h
    | ok u =>
      cases hf : validateNumberFormat
          (normalizeDecimals (convertOperators (removeWhitespace x))) with
      | error err => rw [hv, hf] at h; cases h
      | ok u2 =>
        cases hp : validateParentheses
            (normalizeDecimals (convertOperators (removeWhitespace x))) with
        | error err => rw [hv, hf, hp] at h; cases h
        | ok u3 =>
          rw [hv, hf, hp] at h
          injection h with h
          exact Or.inr ⟨hr, rfl, rfl, rfl, h.symm⟩

theorem parseCore_of_ok {s : List Char} (hv : validateCharacters s = .ok ())
    (hf : validateNumberFormat (normalizeDecimals (convertOperators s)) = .ok ())
    (hp : validateParentheses (normalizeDecimals (convertOperators s)) = .ok ()) :
    parseCore s =
      .ok (handleImplicitMultiplication (normalizeDecimals (convertOperators s))) := by
  unfold parseCore
  rw [hv, hf, hp]

theorem noImplicit_nil : NoImplicit [] := by
  intro w hw hin
  have hnil := List.infix_nil.mp hin
  rcases hw with ⟨a, y, _, _, rfl⟩ | ⟨c, _, rfl⟩ <;> cases hnil

/-- C2: for every input on which `parse` succeeds, the output contains no digit,
`.` or `)` immediately followed by `π`, `e`, `(` or a function name, and no `π`
or `e` immediately followed by `(`; the output is the normalized text with `*`
characters put in and nothing else changed; `2π(3+4)` becomes `2*π*(3+4)` and
`2sin(3cos(45))` becomes `2*sin(3*cos(45))`. -/
theorem parse_noImplicit (x y : List Char) (h : parse x = .ok y) :
    NoImplicit y ∧
    StarInserted (normalizeDecimals (convertOperators (removeWhitespace x))) y ∧
    parse "2π(3+4)".toList = .ok "2*π*(3+4)".toList ∧
    parse "2sin(3cos(45))".toList = .ok "2*sin(3*cos(45))".toList := by
  refine ⟨?_, ?_, by decide, by decide⟩
  · rcases parse_ok_cases h with ⟨_, rfl⟩ | ⟨_, _, _, _, rfl⟩
    · exact noImplicit_nil
    · exact noImplicit_handleImplicitMultiplication _
  · rcases parse_ok_cases h with ⟨hr, rfl⟩ | ⟨_, _, _, _, rfl⟩
    · rw [hr]
      exact .nil
    · exact starInserted_handleImplicitMultiplication _

/-- Witness of C2 at `2π(3+4)`, an input of the unit tests. -/
theorem parse_noImplicit_witness :
    parse "2π(3+4)".toList = .ok "2*π*(3+4)".toList ∧ NoImplicit "2*π*(3+4)".toList :=
  ⟨by decide, (parse_noImplicit "2π(3+4)".toList "2*π*(3+4)".toList (by decide)).1⟩

/-! ## Operator conversion and whitespace -/

theorem convertOperators_eq_map (s : List Char) :
    convertOperators s = s.map convertOperator := by
  unfold convertOperators
  rw [List.map_map]
  apply List.map_congr_left
  intro c _
  simp only [Function.comp, convertOperator]
  by_cases h1 : (c == '×') = true
  · simp only [h1, if_true]
    decide
  · simp only [h1, if_false, Bool.false_eq_true]

theorem convertOperator_clean {c : Char} (hw : isWhitespace c = false) :
    isWhitespace (convertOperator c) = false ∧ convertOperator c ≠ '×' ∧
      convertOperator c ≠ '÷' := by
  unfold convertOperator
  by_cases h1 : (c == '×') = true
  · simp only [h1, if_true]
    decide
  · by_cases h2 : (c == '÷') = true
    · simp only [h1, h2, if_true, if_false, Bool.false_eq_true]
      decide
    · simp only [h1, h2, if_false, Bool.false_eq_true]
      refine ⟨hw, ?_, ?_⟩
      · intro h; exact h1 (by simp [h])
      · intro h; exact h2 (by simp [h])

theorem mem_prefixZeros {free : Bool} {s : List Char} {c : Char}
    (h : c ∈ prefixZeros free s) : c = '0' ∨ c ∈ s := by
  induction s generalizing free with
  | nil => simp [prefixZeros] at h
  | cons d rest ih =>
    rw [prefixZeros] at h
    split at h
    · rcases List.mem_cons.mp h with rfl | h
      · exact Or.inl rfl
      · rcases List.mem_cons.mp h with rfl | h
        · exact Or.inr (List.mem_cons_self _ _)
        · exact (ih h).imp id (List.mem_cons_of_mem _)
    · rcases List.mem_cons.mp h with rfl | h
      · exact Or.inr (List.mem_cons_self _ _)
      · exact (ih h).imp id (List.mem_cons_of_mem _)

theorem output_clean {x y : List Char} (h : parse x = .ok y) :
    ∀ c ∈ y, isWhitespace c = false ∧ c ≠ '×' ∧ c ≠ '÷' := by
  intro c hc
  rcases parse_ok_cases h with ⟨_, rfl⟩ | ⟨_, _, _, _, rfl⟩
  · cases hc
  · rcases (starInserted_handleImplicitMultiplication _).mem hc with rfl | hc
    · decide
    · rw [normalizeDecimals_eq_prefixZeros] at hc
      rcases mem_prefixZeros hc with rfl | hc
      · decide
      · rw [convertOperators_eq_map] at hc
        obtain ⟨c0, hc0, rfl⟩ := List.mem_map.mp hc
        have := (List.mem_filter.mp hc0).2
        exact convertOperator_clean (by simpa using this)

theorem output_sublist {x y : List Char} (h : parse x = .ok y) :
    ((removeWhitespace x).map convertOperator).Sublist y := by
  rcases parse_ok_cases h with ⟨hr, rfl⟩ | ⟨_, _, _, _, rfl⟩
  · rw [hr]
    exact List.Sublist.slnil
  · rw [← convertOperators_eq_map]
    refine List.Sublist.trans ?_ (starInserted_handleImplicitMultiplication _).sublist
    rw [normalizeDecimals_eq_prefixZeros]
    exact sublist_prefixZeros _ _

theorem isSimpleChar_cases {c : Char} (h : isSimpleChar c = true) :
    (c = ' ' ∧ isWhitespace c = true) ∨
    (c ≠ ' ' ∧ isWhitespace c = false ∧ isValidChar c = true ∧
      isPlainArith (convertOperator c) = true) := by
  have hdig : isDigit c = true → isWhitespace c = false := by
    intro hd
    simp only [isDigit, Bool.and_eq_true, decide_eq_true_eq] at hd
    simp only [isWhitespace, Bool.or_eq_false_iff, beq_eq_false_iff_ne, ne_eq,
      Bool.and_eq_false_iff, decide_eq_false_iff_not]
    omega
  simp only [isSimpleChar, Bool.or_eq_true, beq_iff_eq] at h
  rcases h with ((((hd | rfl) | rfl) | rfl) | rfl) | rfl
  · right
    have hne : c ≠ ' ' := by
      rintro rfl
      exact absurd hd (by decide)
    have h1 : (c == '×') = false := by
      rw [beq_eq_false_iff_ne]; rintro rfl; exact absurd hd (by decide)
    have h2 : (c == '÷') = false := by
      rw [beq_eq_false_iff_ne]; rintro rfl; exact absurd hd (by decide)
    refine ⟨hne, hdig hd, by simp [isValidChar, hd], ?_⟩
    simp [convertOperator, h1, h2, isPlainArith, hd]
  · exact Or.inr (by decide)
  · exact Or.inr (by decide)
  · exact Or.inr (by decide)
  · exact Or.inr (by decide)
  · exact Or.inl (by decide)

theorem removeWhitespace_simple {x : List Char} (h : ∀ c ∈ x, isSimpleChar c = true) :
    removeWhitespace x = x.filter (fun c => c != ' ') := by
  unfold removeWhitespace
  apply List.filter_congr
  intro c hc
  rcases isSimpleChar_cases (h c hc) with ⟨rfl, _⟩ | ⟨hne, hw, _, _⟩
  · decide
  · simp [hw, hne]

theorem noImplicit_of_plainArith {t : List Char} (h : ∀ c ∈ t, isPlainArith c = true) :
    NoImplicit t := by
  intro w hw hin
  have key : ∀ c, c ∈ w → isPlainArith c = false → False := fun c hc hf => by
    have := h c (hin.subset hc)
    rw [hf] at this
    cases this
  rcases hw with ⟨a, y, _, hy, rfl⟩ | ⟨c, _, rfl⟩
  · have hy2 : y = ['π'] ∨ y = ['e'] ∨ y = ['('] ∨ y = ['s', 'i', 'n'] ∨
        y = ['c', 'o', 's'] ∨ y = ['t', 'a', 'n'] ∨ y = ['l', 'o', 'g'] ∨
        y = ['l', 'n'] ∨ y = ['s', 'q', 'r', 't'] := by
      simpa [operandFollowers, functions] using hy
    rcases hy2 with rfl | rfl | rfl | rfl | rfl | rfl | rfl | rfl | rfl
    · exact key 'π' (by simp) (by decide)
    · exact key 'e' (by simp) (by decide)
    · exact key '(' (by simp) (by decide)
    · exact key 's' (by simp) (by decide)
    · exact key 'c' (by simp) (by decide)
    · exact key 't' (by simp) (by decide)
    · exact key 'l' (by simp) (by decide)
    · exact key 'l' (by simp) (by decide)
    · exact key 's' (by simp) (by decide)
  · exact key '(' (by simp) (by decide)

theorem allDotsBare_of_plainArith {t : List Char} (h : ∀ c ∈ t, isPlainArith c = true) :
    AllDotsBare t := by
  have key : '.' ∉ t := fun hmem => absurd (h '.' hmem) (by decide)
  constructor
  · intro a _ hin
    exact key (hin.subset (by simp))
  · intro d _ hin
    exact key (hin.subset (by simp))

theorem validateParentheses_of_plainArith {t : List Char}
    (h : ∀ c ∈ t, isPlainArith c = true) : validateParentheses t = .ok () := by
  have hf : t.filter isParen = ([] : List Char).filter isParen := by
    rw [List.filter_nil, List.filter_eq_nil_iff]
    intro c hc hp
    simp only [isParen, Bool.or_eq_true, beq_iff_eq] at hp
    rcases hp with rfl | rfl
    · exact absurd (h _ hc) (by decide)
    · exact absurd (h _ hc) (by decide)
  rw [validateParentheses_congr hf]
  rfl

theorem parse_simple (x : List Char) (h : ∀ c ∈ x, isSimpleChar c = true) :
    parse x = .ok ((x.filter (fun c => c != ' ')).map convertOperator) := by
  rw [← removeWhitespace_simple h]
  by_cases hr : removeWhitespace x = []
  · rw [parse_of_removeWhitespace_nil hr, hr]
    rfl
  · have hmem : ∀ c ∈ removeWhitespace x,
        isValidChar c = true ∧ isPlainArith (convertOperator c) = true := by
      intro c hc
      obtain ⟨hcx, hcw⟩ := List.mem_filter.mp hc
      rcases isSimpleChar_cases (h c hcx) with ⟨_, hw⟩ | ⟨_, _, hv, hp⟩
      · rw [hw] at hcw
        cases hcw
      · exact ⟨hv, hp⟩
    have hplain : ∀ c ∈ convertOperators (removeWhitespace x), isPlainArith c = true := by
      rw [convertOperators_eq_map]
      intro c hc
      obtain ⟨c0, hc0, rfl⟩ := List.mem_map.mp hc
      exact (hmem c0 hc0).2
    obtain ⟨hn, hf⟩ := normalize_validate_of_allDotsBare _ (allDotsBare_of_plainArith hplain)
    have hv : validateCharacters (removeWhitespace x) = .ok () :=
      validateCharacters_ok_iff.mpr ⟨hr, fun c hc => (hmem c hc).1⟩
    have hp : validateParentheses
        (normalizeDecimals (convertOperators (removeWhitespace x))) = .ok () := by
      rw [hn]
      exact validateParentheses_of_plainArith hplain
    rw [parse_of_removeWhitespace_ne_nil hr, parseCore_of_ok hv hf hp, hn,
      handleImplicitMultiplication_eq_self (noImplicit_of_plainArith hplain),
      convertOperators_eq_map]

/-- C10: for every input on which `parse` succeeds, the output contains no
whitespace and no `×` or `÷`; the input with whitespace removed, every `×`
replaced by `*` and every `÷` by `/`, is a subsequence of the output; for every
input made only of digits, `+`, `-`, `×`, `÷` and spaces the output is exactly
the input with spaces removed and those two glyphs replaced; and
`parse('5 + 3 × 2')` is `5+3*2`. -/
theorem parse_converts_operators (x y : List Char) (h : parse x = .ok y) :
    (∀ c ∈ y, isWhitespace c = false ∧ c ≠ '×' ∧ c ≠ '÷') ∧
    ((removeWhitespace x).map convertOperator).Sublist y ∧
    (∀ z : List Char, (∀ c ∈ z, isSimpleChar c = true) →
      parse z = .ok ((z.filter (fun c => c != ' ')).map convertOperator)) ∧
    parse "5 + 3 × 2".toList = .ok "5+3*2".toList :=
  ⟨output_clean h, output_sublist h, parse_simple, by decide⟩

/-- Witness of C10 at `10×5÷2`, an input of the unit tests. -/
theorem parse_converts_operators_witness :
    parse "10×5÷2".toList = .ok "10*5/2".toList ∧
    (∀ c ∈ "10*5/2".toList, isWhitespace c = false ∧ c ≠ '×' ∧ c ≠ '÷') :=
  ⟨by decide,
   (parse_converts_operators "10×5÷2".toList "10*5/2".toList (by decide)).1⟩

/-! ## Rejection of numbers with several points -/

theorem takesSecondDot_digits (mid post : List Char) (hmid : ∀ c ∈ mid, isDigit c = true) :
    takesSecondDot .afterFirstDot (mid ++ '.' :: post) = true := by
  induction mid with
  | nil =>
    have h0 : isDigit '.' = false := by decide
    simp [takesSecondDot, h0]
  | cons d rest ih =>
    have hd := hmid d (List.mem_cons_self _ _)
    simp only [List.cons_append, takesSecondDot, hd, if_true]
    exact ih (fun c hc => hmid c (List.mem_cons_of_mem _ hc))

theorem takesSecondDot_after_digit (st : NumberStage) (a : Char) (mid post : List Char)
    (ha : isDigit a = true) (hmid : ∀ c ∈ mid, isDigit c = true) :
    takesSecondDot st (a :: '.' :: (mid ++ '.' :: post)) = true := by
  have h0 : isDigit '.' = false := by decide
  have key := takesSecondDot_digits mid post hmid
  cases st <;> simp [takesSecondDot, ha, h0, key]

theorem takesSecondDot_append (pre rest : List Char)
    (h : ∀ st, takesSecondDot st rest = true) (st : NumberStage) :
    takesSecondDot st (pre ++ rest) = true := by
  induction pre generalizing st with
  | nil => exact h st
  | cons c pre ih =>
    cases st <;> simp only [List.cons_append, takesSecondDot] <;>
      repeat (first | rfl | exact ih _ | split)

theorem prefixZeros_false_digits_dot (mid post : List Char)
    (hmid : ∀ c ∈ mid, isDigit c = true) :
    prefixZeros false (mid ++ '.' :: post) = mid ++ '.' :: prefixZeros false post := by
  induction mid with
  | nil => simp [prefixZeros, isNotDigitOrDot_dot]
  | cons d rest ih =>
    have hd := hmid d (List.mem_cons_self _ _)
    rw [List.cons_append, prefixZeros]
    simp only [Bool.false_and, Bool.false_eq_true, if_false, isNotDigitOrDot_of_isDigit hd]
    rw [ih (fun c hc => hmid c (List.mem_cons_of_mem _ hc))]
    rfl

theorem prefixZeros_append (free : Bool) (pre rest : List Char) :
    ∃ out free1, prefixZeros free (pre ++ rest) = out ++ prefixZeros free1 rest := by
  induction pre generalizing free with
  | nil => exact ⟨[], free, rfl⟩
  | cons c pre ih =>
    rw [List.cons_append, prefixZeros]
    split
    · obtain ⟨out, free1, h⟩ := ih false
      exact ⟨'0' :: c :: out, free1, by rw [h]; rfl⟩
    · obtain ⟨out, free1, h⟩ := ih (isNotDigitOrDot c)
      exact ⟨c :: out, free1, by rw [h]; rfl⟩

theorem dots_infix_prefixZeros {mid s : List Char} (hmid : ∀ c ∈ mid, isDigit c = true)
    (h : ('.' :: (mid ++ ['.'])) <:+: s) (free : Bool) :
    ('.' :: (mid ++ ['.'])) <:+: prefixZeros free s := by
  obtain ⟨pre, post, rfl⟩ := h
  have e : pre ++ '.' :: (mid ++ ['.']) ++ post = pre ++ ('.' :: (mid ++ '.' :: post)) := by
    simp
  rw [e]
  obtain ⟨out, free1, hout⟩ := prefixZeros_append free pre ('.' :: (mid ++ '.' :: post))
  rw [hout, prefixZeros]
  split
  · rw [prefixZeros_false_digits_dot mid post hmid]
    exact ⟨out ++ ['0'], prefixZeros false post, by simp⟩
  · rw [isNotDigitOrDot_dot, prefixZeros_false_digits_dot mid post hmid]
    exact ⟨out, prefixZeros false post, by simp⟩

theorem reject_of_dots_word {mid t : List Char} (hmid : ∀ c ∈ mid, isDigit c = true)
    (h : ('.' :: (mid ++ ['.'])) <:+: t) (hfree : ¬ HasFreeDot t) :
    hasConsecutiveDots t = true ∨ takesSecondDot .outside t = true := by
  cases mid with
  | nil => exact Or.inl ((hasConsecutiveDots_iff t).mpr h)
  | cons d mid1 =>
    have hd := hmid d (List.mem_cons_self _ _)
    obtain ⟨pre, post, rfl⟩ := h
    rcases List.eq_nil_or_concat pre with rfl | ⟨pre1, a, rfl⟩
    · exact absurd (Or.inl ⟨d, mid1 ++ ['.'] ++ post, hd, by simp⟩) hfree
    · cases hnd : isNotDigitOrDot a
      · simp only [isNotDigitOrDot, Bool.not_eq_false', Bool.or_eq_true, beq_iff_eq] at hnd
        rcases hnd with ha | rfl
        · right
          have e : pre1.concat a ++ '.' :: (d :: mid1 ++ ['.']) ++ post =
              pre1 ++ (a :: '.' :: ((d :: mid1) ++ '.' :: post)) := by simp
          rw [e]
          exact takesSecondDot_append _ _
            (fun st => takesSecondDot_after_digit st a (d :: mid1) post ha hmid) _
        · left
          rw [hasConsecutiveDots_iff]
          exact ⟨pre1, d :: mid1 ++ ['.'] ++ post, by simp⟩
      · exact absurd (Or.inr ⟨a, d, hnd, hd,
          ⟨pre1, mid1 ++ ['.'] ++ post, by simp⟩⟩) hfree

theorem first_dot_split {r : List Char} (hr : ∀ c ∈ r, isDigit c = true ∨ c = '.')
    (hdot : '.' ∈ r) :
    ∃ ds post, r = ds ++ '.' :: post ∧ ∀ c ∈ ds, isDigit c = true := by
  induction r with
  | nil => cases hdot
  | cons c rest ih =>
    by_cases hc : c = '.'
    · subst hc
      exact ⟨[], rest, rfl, fun c hc => by cases hc⟩
    · have hd : isDigit c = true := (hr c (List.mem_cons_self _ _)).resolve_right hc
      have hmem : '.' ∈ rest := by
        rcases List.mem_cons.mp hdot with h | h
        · exact absurd h.symm hc
        · exact h
      obtain ⟨ds, post, rfl, hds⟩ :=
        ih (fun c hc => hr c (List.mem_cons_of_mem _ hc)) hmem
      refine ⟨c :: ds, post, rfl, fun e he => ?_⟩
      rcases List.mem_cons.mp he with rfl | he
      · exact hd
      · exact hds e he

theorem dots_of_run {run : List Char} (hr : ∀ c ∈ run, isDigit c = true ∨ c = '.')
    (hcount : 1 < run.count '.') :
    ∃ mid, (∀ c ∈ mid, isDigit c = true) ∧ ('.' :: (mid ++ ['.'])) <:+: run := by
  induction run with
  | nil => simp at hcount
  | cons c rest ih =>
    have hrest : ∀ c ∈ rest, isDigit c = true ∨ c = '.' :=
      fun c hc => hr c (List.mem_cons_of_mem _ hc)
    by_cases hc : c = '.'
    · subst hc
      rw [List.count_cons_self] at hcount
      have hmem : '.' ∈ rest := List.count_pos_iff.mp (by omega)
      obtain ⟨ds, post, rfl, hds⟩ := first_dot_split hrest hmem
      exact ⟨ds, hds, ⟨[], post, by simp⟩⟩
    · rw [List.count_cons_of_ne (fun h => hc h.symm)] at hcount
      obtain ⟨mid, hmid, hin⟩ := ih hrest hcount
      exact ⟨mid, hmid, List.infix_cons hin⟩

theorem infix_filter_of_all {w x : List Char} {p : Char → Bool} (h : w <:+: x)
    (hw : ∀ c ∈ w, p c = true) : w <:+: x.filter p := by
  obtain ⟨pre, post, rfl⟩ := h
  rw [List.filter_append, List.filter_append, List.filter_eq_self.mpr hw]
  exact ⟨_, _, rfl⟩

theorem infix_map_of_fixed {w x : List Char} {f : Char → Char} (h : w <:+: x)
    (hw : ∀ c ∈ w, f c = c) : w <:+: x.map f := by
  obtain ⟨pre, post, rfl⟩ := h
  have e : w.map f = w := by
    conv_rhs => rw [← List.map_id w]
    exact List.map_congr_left (fun c hc => by rw [hw c hc]; rfl)
  rw [List.map_append, List.map_append, e]
  exact ⟨_, _, rfl⟩

theorem isWhitespace_of_isDigit {c : Char} (hd : isDigit c = true) :
    isWhitespace c = false := by
  simp only [isDigit, Bool.and_eq_true, decide_eq_true_eq] at hd
  simp only [isWhitespace, Bool.or_eq_false_iff, beq_eq_false_iff_ne, ne_eq,
    Bool.and_eq_false_iff, decide_eq_false_iff_not]
  omega

theorem convertOperator_of_isDigit {c : Char} (hd : isDigit c = true) :
    convertOperator c = c := by
  have h1 : (c == '×') = false := by
    rw [beq_eq_false_iff_ne]; rintro rfl; exact absurd hd (by decide)
  have h2 : (c == '÷') = false := by
    rw [beq_eq_false_iff_ne]; rintro rfl; exact absurd hd (by decide)
  simp [convertOperator, h1, h2]

theorem dots_word_plain {mid : List Char} (hmid : ∀ c ∈ mid, isDigit c = true) :
    ∀ c ∈ '.' :: (mid ++ ['.']),
      (!isWhitespace c) = true ∧ convertOperator c = c := by
  intro c hc
  have hdot : (!isWhitespace '.') = true ∧ convertOperator '.' = '.' := by decide
  rcases List.mem_cons.mp hc with rfl | hc
  · exact hdot
  · rcases List.mem_append.mp hc with hc | hc
    · exact ⟨by simp [isWhitespace_of_isDigit (hmid c hc)],
        convertOperator_of_isDigit (hmid c hc)⟩
    · rw [List.mem_singleton.mp hc]
      exact hdot

theorem parse_rejects_dots_word {x mid : List Char} (hx : ∀ c ∈ x, isValidChar c = true)
    (hmid : ∀ c ∈ mid, isDigit c = true) (h : ('.' :: (mid ++ ['.'])) <:+: x) :
    parse x = .error .multipleDecimalPoints ∨
      parse x = .error .multipleDecimalPointsInNumber := by
  have hplain := dots_word_plain hmid
  have h1 : ('.' :: (mid ++ ['.'])) <:+: removeWhitespace x :=
    infix_filter_of_all h (fun c hc => (hplain c hc).1)
  have h2 : ('.' :: (mid ++ ['.'])) <:+: convertOperators (removeWhitespace x) := by
    rw [convertOperators_eq_map]
    exact infix_map_of_fixed h1 (fun c hc => (hplain c hc).2)
  have h3 : ('.' :: (mid ++ ['.'])) <:+:
      normalizeDecimals (convertOperators (removeWhitespace x)) := by
    rw [normalizeDecimals_eq_prefixZeros]
    exact dots_infix_prefixZeros hmid h2 true
  have hr : removeWhitespace x ≠ [] := by
    intro he
    rw [he] at h1
    have := List.infix_nil.mp h1
    cases this
  have hv : validateCharacters (removeWhitespace x) = .ok () :=
    validateCharacters_ok_iff.mpr ⟨hr, fun c hc => hx c (List.mem_filter.mp hc).1⟩
  have hbad := reject_of_dots_word hmid h3 (not_hasFreeDot_normalizeDecimals _)
  rw [parse_of_removeWhitespace_ne_nil hr]
  unfold parseCore
  rw [hv]
  cases hf : validateNumberFormat
      (normalizeDecimals (convertOperators (removeWhitespace x))) with
  | error err =>
    rcases validateNumberFormat_error hf with rfl | rfl
    · exact Or.inl rfl
    · exact Or.inr rfl
  | ok u =>
    have := (validateNumberFormat_ok_iff _).mp hf
    rcases hbad with hb | hb
    · rw [this.1] at hb
      cases hb
    · rw [this.2] at hb
      cases hb

/-- C5: for every input made only of allowed characters, `parse` raises an
'Invalid number format' error whenever the input contains two consecutive `.`
or a run of digits and `.` characters (maximal or not) with more than one `.`. -/
theorem parse_rejects_multiple_points (x : List Char)
    (hx : ∀ c ∈ x, isValidChar c = true)
    (h : ['.', '.'] <:+: x ∨
      ∃ run, run <:+: x ∧ (∀ c ∈ run, isDigit c = true ∨ c = '.') ∧ 1 < run.count '.') :
    parse x = .error .multipleDecimalPoints ∨
      parse x = .error .multipleDecimalPointsInNumber := by
  rcases h with h | ⟨run, hin, hrun, hcount⟩
  · exact @parse_rejects_dots_word x [] hx (fun c hc => by cases hc) h
  · obtain ⟨mid, hmid, hw⟩ := dots_of_run hrun hcount
    exact parse_rejects_dots_word hx hmid (hw.trans hin)

/-- Witness of C5 at `1.2.3`, whose only run of digits and points holds two
points. -/
theorem parse_rejects_multiple_points_witness :
    (∀ c ∈ "1.2.3".toList, isValidChar c = true) ∧
    "1.2.3".toList <:+: "1.2.3".toList ∧
    (∀ c ∈ "1.2.3".toList, isDigit c = true ∨ c = '.') ∧
    1 < "1.2.3".toList.count '.' ∧
    (parse "1.2.3".toList = .error .multipleDecimalPoints ∨
      parse "1.2.3".toList = .error .multipleDecimalPointsInNumber) :=
  ⟨by decide, List.infix_refl _, by decide, by decide,
   parse_rejects_multiple_points "1.2.3".toList (by decide)
     (Or.inr ⟨"1.2.3".toList, List.infix_refl _, by decide, by decide⟩)⟩

/-! ## Parsing the output again -/

theorem takesSecondDot_plain_head (st : NumberStage) {y : Char} (rest : List Char)
    (h1 : isDigit y = false) (h2 : (y == '.') = false) :
    takesSecondDot st (y :: rest) =
      (match st with
       | .afterSecondDot => true
       | _ => takesSecondDot .outside rest) := by
  cases st <;> simp [takesSecondDot, h1, h2]

theorem StarInserted.takesSecondDot_eq {s t : List Char} (h : StarInserted s t)
    (st : NumberStage) : takesSecondDot st t = takesSecondDot st s := by
  induction h generalizing st with
  | nil => rfl
  | cons c _ ih =>
    cases st <;> simp only [takesSecondDot] <;>
      repeat (first | rfl | exact ih _ | split)
  | star h1 h2 _ ih =>
    rw [takesSecondDot_plain_head st _ (by decide) (by decide),
      takesSecondDot_plain_head st _ h1 h2, ih,
      takesSecondDot_plain_head .outside _ h1 h2]

theorem StarInserted.startsWithDigit_eq {s t : List Char} (h : StarInserted s t) :
    startsWithDigit t = startsWithDigit s := by
  cases h with
  | nil => rfl
  | cons c _ => rfl
  | star h1 _ _ =>
    simp only [startsWithDigit, h1]
    decide

theorem StarInserted.freeDotGo_eq {s t : List Char} (h : StarInserted s t)
    (free : Bool) : freeDotGo free t = freeDotGo free s := by
  induction h generalizing free with
  | nil => rfl
  | cons c h1 ih =>
    simp only [freeDotGo, ih, h1.startsWithDigit_eq]
  | star h1 h2 _ ih =>
    have e1 : isNotDigitOrDot '*' = true := by decide
    have e2 : (('*' : Char) == '.') = false := by decide
    rw [freeDotGo, e1, e2, ih]
    simp [freeDotGo, h2]

theorem StarInserted.filter_isParen_eq {s t : List Char} (h : StarInserted s t) :
    t.filter isParen = s.filter isParen := by
  induction h with
  | nil => rfl
  | cons c _ ih => simp only [List.filter_cons, ih]
  | star _ _ _ ih =>
    have e : isParen '*' = false := by decide
    rw [List.filter_cons, e]
    exact ih

theorem StarInserted.validateNumberFormat_ok {s t : List Char} (h : StarInserted s t)
    (hs : validateNumberFormat s = .ok ()) : validateNumberFormat t = .ok () := by
  rw [validateNumberFormat_ok_iff] at hs ⊢
  refine ⟨?_, by rw [h.takesSecondDot_eq]; exact hs.2⟩
  rw [← Bool.not_eq_true, hasConsecutiveDots_iff]
  intro hin
  have := (hasConsecutiveDots_iff s).mpr (h.infix_transfer (by decide) hin)
  rw [hs.1] at this
  cases this

theorem convertOperator_valid {c : Char} (hv : isValidChar c = true) :
    isValidChar (convertOperator c) = true := by
  unfold convertOperator
  by_cases h1 : (c == '×') = true
  · simp only [h1, if_true]
    decide
  · by_cases h2 : (c == '÷') = true
    · simp only [h1, h2, if_true, if_false, Bool.false_eq_true]
      decide
    · simp only [h1, h2, if_false, Bool.false_eq_true]
      exact hv

theorem convertOperators_eq_self {y : List Char} (h : ∀ c ∈ y, c ≠ '×' ∧ c ≠ '÷') :
    convertOperators y = y := by
  rw [convertOperators_eq_map]
  conv_rhs => rw [← List.map_id y]
  apply List.map_congr_left
  intro c hc
  have h1 : (c == '×') = false := beq_eq_false_iff_ne.mpr (h c hc).1
  have h2 : (c == '÷') = false := beq_eq_false_iff_ne.mpr (h c hc).2
  simp [convertOperator, h1, h2]

theorem removeWhitespace_eq_self {y : List Char} (h : ∀ c ∈ y, isWhitespace c = false) :
    removeWhitespace y = y := by
  unfold removeWhitespace
  rw [List.filter_eq_self]
  intro c hc
  simp [h c hc]

/-- C1: `parse` is a fixed point on its own output: for every input on which
`parse` succeeds, parsing the output succeeds as well and returns the output
unchanged. -/
theorem parse_idempotent (x y : List Char) (h : parse x = .ok y) : parse y = .ok y := by
  have hclean := output_clean h
  rcases parse_ok_cases h with ⟨_, rfl⟩ | ⟨hr, hv, hf, hp, hy⟩
  · rfl
  · have hins : StarInserted (normalizeDecimals (convertOperators (removeWhitespace x))) y := by
      rw [hy]
      exact starInserted_handleImplicitMultiplication _
    have hnoimp : NoImplicit y := by
      rw [hy]
      exact noImplicit_handleImplicitMultiplication _
    have hws : removeWhitespace y = y :=
      removeWhitespace_eq_self (fun c hc => (hclean c hc).1)
    have hconv : convertOperators y = y :=
      convertOperators_eq_self (fun c hc => (hclean c hc).2)
    have hne : y ≠ [] := by
      rintro rfl
      have hsub := (output_sublist h)
      have := List.sublist_nil.mp hsub
      exact hr (List.map_eq_nil_iff.mp this)
    have hvalid : ∀ c ∈ y, isValidChar c = true := by
      intro c hc
      rcases hins.mem hc with rfl | hc
      · decide
      · rw [normalizeDecimals_eq_prefixZeros] at hc
        rcases mem_prefixZeros hc with rfl | hc
        · decide
        · rw [convertOperators_eq_map] at hc
          obtain ⟨c0, hc0, rfl⟩ := List.mem_map.mp hc
          exact convertOperator_valid ((validateCharacters_ok_iff.mp hv).2 c0 hc0)
    have hnorm : normalizeDecimals y = y := by
      apply normalizeDecimals_of_not_hasFreeDot
      rw [hasFreeDot_iff, hins.freeDotGo_eq, ← hasFreeDot_iff]
      exact not_hasFreeDot_normalizeDecimals _
    have hv2 : validateCharacters y = .ok () := validateCharacters_ok_iff.mpr ⟨hne, hvalid⟩
    have hf2 : validateNumberFormat (normalizeDecimals (convertOperators y)) = .ok () := by
      rw [hconv, hnorm]
      exact hins.validateNumberFormat_ok hf
    have hp2 : validateParentheses (normalizeDecimals (convertOperators y)) = .ok () := by
      rw [hconv, hnorm, validateParentheses_congr hins.filter_isParen_eq]
      exact hp
    have hne2 : removeWhitespace y ≠ [] := by rw [hws]; exact hne
    rw [parse_of_removeWhitespace_ne_nil hne2, hws, parseCore_of_ok hv2 hf2 hp2, hconv,
      hnorm, handleImplicitMultiplication_eq_self hnoimp]

/-- Witness of C1 at `2π(3+4)`, whose output `2*π*(3+4)` parses to itself. -/
theorem parse_idempotent_witness :
    parse "2π(3+4)".toList = .ok "2*π*(3+4)".toList ∧
    parse "2*π*(3+4)".toList = .ok "2*π*(3+4)".toList :=
  ⟨by decide, parse_idempotent "2π(3+4)".toList "2*π*(3+4)".toList (by decide)⟩

end ExpressionParser

namespace CalculatorEngine

open ExpressionParser

/-! ## The calculator engine -/

theorem dropWhile_eq_nil_iff_all {s : List Char} {p : Char → Bool} :
    s.dropWhile p = [] ↔ ∀ c ∈ s, p c = true := by
  induction s with
  | nil => simp
  | cons c rest ih =>
    by_cases hc : p c = true
    · simp [List.dropWhile_cons, hc, ih]
    · simp [List.dropWhile_cons, hc]

theorem trim_eq_nil_iff (s : List Char) : trim s = [] ↔ IsBlank s := by
  unfold trim IsBlank
  rw [List.reverse_eq_nil_iff, dropWhile_eq_nil_iff_all]
  constructor
  · intro h
    by_contra hne
    have hne2 : s.dropWhile isWhitespace ≠ [] := fun he =>
      hne (dropWhile_eq_nil_iff_all.mp he)
    have hhead := List.head_dropWhile_not isWhitespace s hne2
    have hmem : (s.dropWhile isWhitespace).head hne2 ∈ (s.dropWhile isWhitespace).reverse :=
      List.mem_reverse.mpr (List.head_mem hne2)
    rw [h _ hmem] at hhead
    cases hhead
  · intro h c hc
    have hc2 : c ∈ s.dropWhile isWhitespace := List.mem_reverse.mp hc
    exact h c ((List.dropWhile_sublist _).subset hc2)

theorem evaluate_of_blank (lib : Library) (angleMode expression : List Char)
    (h : IsBlank expression) :
    evaluate lib angleMode expression = .error "Empty expression".toList := by
  unfold evaluate
  rw [if_pos (Or.inr ((trim_eq_nil_iff expression).mpr h))]

theorem evaluate_of_not_blank (lib : Library) (angleMode expression : List Char)
    (h : ¬ IsBlank expression) :
    evaluate lib angleMode expression =
      match evaluateBody lib angleMode expression with
      | .error message => .error (handleEvaluationError message)
      | .ok result => .ok result := by
  unfold evaluate
  rw [if_neg]
  rintro (h1 | h1)
  · apply h
    rw [h1]
    intro c hc
    cases hc
  · exact h ((trim_eq_nil_iff expression).mp h1)

theorem evaluateBody_number (lib : Library) (angleMode expression : List Char)
    (n : JsNumber)
    (h : lib.mathEvaluate (preprocessExpression angleMode expression) = .ok (.number n)) :
    evaluateBody lib angleMode expression =
      match validateResult lib (.number n) with
      | .error message => .error message
      | .ok _ => .ok (.number n) := by
  unfold evaluateBody
  simp only [h, convertBigNumber]

theorem validateResult_nan (lib : Library) :
    validateResult lib (.number .nan) = .error "Invalid mathematical operation".toList := rfl

theorem validateResult_infinite (lib : Library) (n : JsNumber)
    (h : n = .posInf ∨ n = .negInf) :
    validateResult lib (.number n) = .error "Division by zero or result too large".toList := by
  rcases h with rfl | rfl <;> rfl

theorem validateResult_ok_number {lib : Library} {n : JsNumber}
    (h : validateResult lib (.number n) = .ok ()) : n.isFinite = true := by
  cases n <;> first | rfl | cases h

theorem evaluate_nan (lib : Library) (angleMode expression : List Char)
    (hne : ¬ IsBlank expression)
    (h : lib.mathEvaluate (preprocessExpression angleMode expression) = .ok (.number .nan)) :
    evaluate lib angleMode expression =
      .error "Calculation error: Invalid mathematical operation".toList := by
  rw [evaluate_of_not_blank lib angleMode expression hne,
    evaluateBody_number lib angleMode expression _ h, validateResult_nan]
  decide

theorem evaluate_infinite (lib : Library) (angleMode expression : List Char)
    (n : JsNumber) (hn : n = .posInf ∨ n = .negInf) (hne : ¬ IsBlank expression)
    (h : lib.mathEvaluate (preprocessExpression angleMode expression) = .ok (.number n)) :
    evaluate lib angleMode expression =
      .error "Calculation error: Division by zero or result too large".toList := by
  rw [evaluate_of_not_blank lib angleMode expression hne,
    evaluateBody_number lib angleMode expression _ h, validateResult_infinite lib n hn]
  exact congrArg Except.error (by decide)

theorem evaluate_ok_valid (lib : Library) (angleMode expression : List Char)
    (r : EvalResult) (h : evaluate lib angleMode expression = .ok r) :
    validateResult lib r = .ok () := by
  unfold evaluate at h
  split at h
  · cases h
  · unfold evaluateBody at h
    cases hm : lib.mathEvaluate (preprocessExpression angleMode expression) with
    | error message => simp only [hm] at h; cases h
    | ok result =>
      simp only [hm] at h
      cases hv : validateResult lib (convertBigNumber lib result) with
      | error message => simp only [hv] at h; cases h
      | ok u =>
        simp only [hv] at h
        injection h with h
        rw [← h]
        exact hv

theorem evaluate_ok_number_finite (lib : Library) (angleMode expression : List Char)
    (n : JsNumber) (h : evaluate lib angleMode expression = .ok (.number n)) :
    n.isFinite = true :=
  validateResult_ok_number (evaluate_ok_valid lib angleMode expression _ h)

/-- C12: for a `NaN` result the error `evaluate` throws does not carry the message
`Invalid mathematical operation` but `Calculation error: Invalid mathematical
operation`, and for an infinite result it carries `Calculation error: Division
by zero or result too large`: the error of `_validateResult` is thrown inside
the `try` block and goes through `_handleEvaluationError`. -/
theorem evaluate_nonfinite_wrapped :
    evaluate (constLibrary (.number .nan)) "DEG".toList "0/0".toList =
      .error "Calculation error: Invalid mathematical operation".toList ∧
    evaluate (constLibrary (.number .posInf)) "DEG".toList "5/0".toList =
      .error "Calculation error: Division by zero or result too large".toList ∧
    evaluate (constLibrary (.number .negInf)) "DEG".toList "-5/0".toList =
      .error "Calculation error: Division by zero or result too large".toList := by
  decide

/-- C13: for every expression for which the evaluator yields `Infinity` or
`-Infinity`, `evaluate` throws an error whose message contains `Division by
zero`. -/
theorem evaluate_division_by_zero (lib : Library) (angleMode expression : List Char)
    (n : JsNumber) (hn : n = .posInf ∨ n = .negInf) (hne : ¬ IsBlank expression)
    (h : lib.mathEvaluate (preprocessExpression angleMode expression) = .ok (.number n)) :
    ∃ message, evaluate lib angleMode expression = .error message ∧
      includes message "Division by zero".toList = true :=
  ⟨_, evaluate_infinite lib angleMode expression n hn hne h, by decide⟩

/-- Witness of C13 at `5/0` with an evaluator that yields `Infinity`. -/
theorem evaluate_division_by_zero_witness :
    ¬ IsBlank "5/0".toList ∧
    ∃ message, evaluate (constLibrary (.number .posInf)) "DEG".toList "5/0".toList =
        .error message ∧
      includes message "Division by zero".toList = true :=
  ⟨fun h => absurd (h '5' (by decide)) (by decide),
   evaluate_division_by_zero (constLibrary (.number .posInf)) "DEG".toList "5/0".toList
     .posInf (Or.inl rfl) (fun h => absurd (h '5' (by decide)) (by decide)) rfl⟩

theorem setAngleMode_string (engine : Engine) (text : List Char) :
    engine.setAngleMode (.string text) =
      if text ≠ "DEG".toList ∧ text ≠ "RAD".toList then .error invalidAngleModeMessage
      else .ok { engine with angleMode := text } := rfl

theorem setAngleMode_other (engine : Engine) (tag : Nat) :
    engine.setAngleMode (.other tag) = .error invalidAngleModeMessage := rfl

theorem setAngleMode_ok_iff (engine : Engine) (mode : JsArg) (next : Engine) :
    engine.setAngleMode mode = .ok next ↔
      (mode = .string "DEG".toList ∨ mode = .string "RAD".toList) ∧
        mode = .string next.angleMode := by
  cases mode with
  | other tag => simp [setAngleMode_other]
  | string text =>
    rw [setAngleMode_string]
    by_cases h : text ≠ "DEG".toList ∧ text ≠ "RAD".toList
    · rw [if_pos h]
      constructor
      · intro h2; cases h2
      · rintro ⟨h1 | h1, _⟩
        · injection h1 with h1; exact absurd h1 h.1
        · injection h1 with h1; exact absurd h1 h.2
    · rw [if_neg h]
      constructor
      · intro h2
        injection h2 with h2
        subst h2
        refine ⟨?_, rfl⟩
        by_contra hc
        apply h
        constructor
        · intro he; exact hc (Or.inl (by rw [he]))
        · intro he; exact hc (Or.inr (by rw [he]))
      · rintro ⟨_, h2⟩
        injection h2 with h2
        cases next
        simp only at h2
        subst h2
        rfl

theorem setAngleMode_error (engine : Engine) (mode : JsArg) (message : List Char)
    (h : engine.setAngleMode mode = .error message) : message = invalidAngleModeMessage := by
  cases mode with
  | other tag =>
    rw [setAngleMode_other] at h
    injection h with h
    exact h.symm
  | string text =>
    rw [setAngleMode_string] at h
    split at h
    · injection h with h
      exact h.symm
    · cases h

theorem afterSetAngleMode_mode (engine : Engine) (mode : JsArg)
    (h : engine.angleMode = "DEG".toList ∨ engine.angleMode = "RAD".toList) :
    (engine.afterSetAngleMode mode).angleMode = "DEG".toList ∨
      (engine.afterSetAngleMode mode).angleMode = "RAD".toList := by
  unfold Engine.afterSetAngleMode
  cases hs : engine.setAngleMode mode with
  | error message => exact h
  | ok next =>
    obtain ⟨h1, h2⟩ := (setAngleMode_ok_iff engine mode next).mp hs
    rw [h2] at h1
    rcases h1 with h1 | h1
    · injection h1 with h1; exact Or.inl h1
    · injection h1 with h1; exact Or.inr h1

theorem afterCalls_mode (engine : Engine) (modes : List JsArg)
    (h : engine.angleMode = "DEG".toList ∨ engine.angleMode = "RAD".toList) :
    (engine.afterCalls modes).angleMode = "DEG".toList ∨
      (engine.afterCalls modes).angleMode = "RAD".toList := by
  induction modes generalizing engine with
  | nil => exact h
  | cons mode rest ih => exact ih _ (afterSetAngleMode_mode engine mode h)

/-- C15: a new engine reports `DEG`; `setAngleMode(m)` with `m` equal to `'DEG'` or
`'RAD'` makes `getAngleMode` return `m`; with any other value it throws the
error whose message starts with `Invalid angle mode` and the engine is left as
it was; after any sequence of `setAngleMode` calls `getAngleMode` returns
`'DEG'` or `'RAD'`. -/
theorem angleMode_deg_or_rad (engine : Engine) (mode : JsArg) (modes : List JsArg) :
    Engine.create.getAngleMode = "DEG".toList ∧
    ((mode = .string "DEG".toList ∨ mode = .string "RAD".toList) →
      ∃ next, engine.setAngleMode mode = .ok next ∧ mode = .string next.getAngleMode) ∧
    (¬ (mode = .string "DEG".toList ∨ mode = .string "RAD".toList) →
      engine.setAngleMode mode = .error invalidAngleModeMessage ∧
      engine.afterSetAngleMode mode = engine) ∧
    "Invalid angle mode".toList <+: invalidAngleModeMessage ∧
    ((Engine.create.afterCalls modes).getAngleMode = "DEG".toList ∨
      (Engine.create.afterCalls modes).getAngleMode = "RAD".toList) := by
  refine ⟨rfl, ?_, ?_, ?_, afterCalls_mode _ modes (Or.inl rfl)⟩
  · rintro (rfl | rfl)
    · exact ⟨{ engine with angleMode := "DEG".toList }, rfl, rfl⟩
    · exact ⟨{ engine with angleMode := "RAD".toList }, rfl, rfl⟩
  · intro h
    have herr : engine.setAngleMode mode = .error invalidAngleModeMessage := by
      cases hs : engine.setAngleMode mode with
      | ok next => exact absurd ((setAngleMode_ok_iff engine mode next).mp hs).1 h
      | error message => rw [setAngleMode_error engine mode message hs]
    refine ⟨herr, ?_⟩
    unfold Engine.afterSetAngleMode
    rw [herr]
  · exact ⟨". Must be \"DEG\" or \"RAD\"".toList, by decide⟩

/-- Witness of C15: `setAngleMode('RAD')` on a new engine, and the rejected value
`'INVALID'` of the unit test. -/
theorem angleMode_deg_or_rad_witness :
    (∃ next, Engine.create.setAngleMode (.string "RAD".toList) = .ok next ∧
      JsArg.string "RAD".toList = .string next.getAngleMode) ∧
    (Engine.create.setAngleMode (.string "INVALID".toList) = .error invalidAngleModeMessage ∧
      Engine.create.afterSetAngleMode (.string "INVALID".toList) = Engine.create) :=
  ⟨(angleMode_deg_or_rad Engine.create (.string "RAD".toList) []).2.1 (Or.inr rfl),
   (angleMode_deg_or_rad Engine.create (.string "INVALID".toList) []).2.2.1 (by decide)⟩

/-! ## The degree-mode rewrite -/

theorem matchTrig_none_of_no_start {g t : List Char} (h : ¬ (g ++ ['(']) <+: t) :
    matchTrig g t = none := by
  unfold matchTrig
  rw [if_neg]
  rw [List.isPrefixOf_iff_prefix]
  exact h

theorem replaceTrigGo_step {g : List Char} {c : Char} {t : List Char}
    (h : matchTrig g (c :: t) = none) :
    replaceTrigGo g 0 (c :: t) = c :: replaceTrigGo g 0 t := by
  rw [replaceTrigGo, h]

theorem replaceTrigGo_nil (g : List Char) (k : Nat) : replaceTrigGo g k [] = [] := by
  cases k <;> rfl

theorem replaceTrigGo_skip (g : List Char) (k : Nat) (s : List Char) :
    replaceTrigGo g k s = replaceTrigGo g 0 (s.drop k) := by
  induction k generalizing s with
  | zero => rfl
  | succ k ih =>
    cases s with
    | nil => rw [replaceTrigGo_nil, List.drop_nil, replaceTrigGo_nil]
    | cons c rest => rw [replaceTrigGo, ih, List.drop_succ_cons]

theorem takeWhile_append_stop {p : Char → Bool} {a : List Char} {c : Char}
    {r : List Char} (ha : ∀ x ∈ a, p x = true) (hc : p c = false) :
    (a ++ c :: r).takeWhile p = a ∧ (a ++ c :: r).dropWhile p = c :: r := by
  induction a with
  | nil => simp [List.takeWhile_cons, List.dropWhile_cons, hc]
  | cons x a ih =>
    have hx := ha x (List.mem_cons_self _ _)
    have := ih (fun y hy => ha y (List.mem_cons_of_mem _ hy))
    simp [List.takeWhile_cons, List.dropWhile_cons, hx, this]

theorem matchTrig_call (f arg post : List Char) (hne : arg ≠ [])
    (harg : ')' ∉ arg) :
    matchTrig f (f ++ '(' :: (arg ++ ')' :: post)) = some (arg, post) := by
  unfold matchTrig
  have hp : (f ++ ['(']).isPrefixOf (f ++ '(' :: (arg ++ ')' :: post)) = true := by
    rw [List.isPrefixOf_iff_prefix]
    exact ⟨arg ++ ')' :: post, by simp⟩
  have hd : (f ++ '(' :: (arg ++ ')' :: post)).drop (f.length + 1) = arg ++ ')' :: post := by
    have e : f ++ '(' :: (arg ++ ')' :: post) = (f ++ ['(']) ++ (arg ++ ')' :: post) := by simp
    rw [e, List.drop_left' (by simp)]
  have hrun := @takeWhile_append_stop (fun c => c != ')') arg ')' post
    (fun x hx => by
      have : x ≠ ')' := fun h => harg (h ▸ hx)
      simpa using this) (by decide)
  rw [if_pos hp]
  simp only [hd, hrun.1, hrun.2]
  cases arg with
  | nil => exact absurd rfl hne
  | cons a rest => rfl

theorem replaceTrig_call (f arg post : List Char) (hf : f ≠ []) (hne : arg ≠ [])
    (harg : ')' ∉ arg) :
    replaceTrig f (f ++ '(' :: (arg ++ ')' :: post)) = degCall f arg ++ replaceTrig f post := by
  unfold replaceTrig
  cases f with
  | nil => exact absurd rfl hf
  | cons c f1 =>
    have hm := matchTrig_call (c :: f1) arg post hne harg
    rw [List.cons_append] at hm ⊢
    rw [replaceTrigGo, hm]
    simp only
    rw [replaceTrigGo_skip]
    congr 2
    have e : f1 ++ '(' :: (arg ++ ')' :: post) = (f1 ++ '(' :: arg ++ [')']) ++ post := by simp
    rw [e, List.drop_left' (by simp [List.length_cons]; omega)]

theorem replaceTrig_copy_clashes (g w rest : List Char) (h : clashes g w = true) :
    replaceTrig g (w ++ rest) = w ++ replaceTrig g rest := by
  unfold replaceTrig
  induction w with
  | nil => rfl
  | cons c w ih =>
    simp only [clashes, Bool.and_eq_true, Bool.not_eq_true', Bool.or_eq_false_iff] at h
    obtain ⟨⟨h1, h2⟩, h3⟩ := h
    have hnone : matchTrig g (c :: (w ++ rest)) = none := by
      apply matchTrig_none_of_no_start
      intro hp
      have hcw : (c :: w) <+: c :: (w ++ rest) := ⟨rest, rfl⟩
      rcases List.prefix_or_prefix_of_prefix hp hcw with hq | hq
      · have := List.isPrefixOf_iff_prefix.mpr hq
        rw [h1] at this
        cases this
      · have := List.isPrefixOf_iff_prefix.mpr hq
        rw [h2] at this
        cases this
    rw [List.cons_append, replaceTrigGo_step hnone, ih h3]
    rfl

theorem replaceTrig_copy_before_close (g x r : List Char) (hx : '(' ∉ x)
    (hg : ')' ∉ g) :
    replaceTrig g (x ++ ')' :: r) = x ++ replaceTrig g (')' :: r) := by
  unfold replaceTrig
  induction x with
  | nil => rfl
  | cons c x ih =>
    have hx1 : '(' ∉ x := fun h => hx (List.mem_cons_of_mem _ h)
    have hnone : matchTrig g (c :: (x ++ ')' :: r)) = none := by
      apply matchTrig_none_of_no_start
      intro hp
      have hcw : (c :: x) <+: c :: (x ++ ')' :: r) := ⟨')' :: r, rfl⟩
      rcases List.prefix_or_prefix_of_prefix hp hcw with hq | hq
      · exact hx (hq.subset (by simp))
      · obtain ⟨u, hu⟩ := hq
        rw [← hu] at hp
        have hp2 : u <+: ')' :: r := by
          have := (List.prefix_append_right_inj (c :: x)).mp hp
          exact this
        cases u with
        | nil =>
          rw [List.append_nil] at hu
          exact hx (hu ▸ (by simp))
        | cons d u =>
          have hd := (List.cons_prefix_cons.mp hp2).1
          subst hd
          have hmem : ')' ∈ g ++ ['('] := hu ▸ (by simp)
          rcases List.mem_append.mp hmem with h | h
          · exact hg h
          · simp at h
    rw [List.cons_append, replaceTrigGo_step hnone, ih hx1]
    rfl

theorem replaceTrig_copy_before_name (g x f r : List Char) (hx : '(' ∉ x)
    (hf : '(' ∉ f) (hlen : g.length ≤ f.length) :
    replaceTrig g (x ++ (f ++ r)) = x ++ replaceTrig g (f ++ r) := by
  unfold replaceTrig
  induction x with
  | nil => rfl
  | cons c x ih =>
    have hx1 : '(' ∉ x := fun h => hx (List.mem_cons_of_mem _ h)
    have hnone : matchTrig g (c :: (x ++ (f ++ r))) = none := by
      apply matchTrig_none_of_no_start
      intro hp
      have hcw : (c :: x ++ f) <+: c :: (x ++ (f ++ r)) := ⟨r, by simp⟩
      have hq : (g ++ ['(']) <+: c :: x ++ f :=
        List.prefix_of_prefix_length_le hp hcw (by
          simp only [List.length_append, List.length_cons, List.length_nil]
          omega)
      have hmem : '(' ∈ c :: x ++ f := hq.subset (by simp)
      rcases List.mem_append.mp hmem with h | h
      · exact hx h
      · exact hf h
    rw [List.cons_append, replaceTrigGo_step hnone, ih hx1]
    rfl

theorem replaceTrig_other_call (g f pre arg post : List Char)
    (hpre : '(' ∉ pre) (hf : '(' ∉ f) (hlen : g.length ≤ f.length) (hg : ')' ∉ g)
    (harg : '(' ∉ arg) (hc1 : clashes g (f ++ ['(']) = true)
    (hc2 : clashes g [')'] = true) :
    replaceTrig g (pre ++ (f ++ '(' :: (arg ++ ')' :: post))) =
      pre ++ (f ++ '(' :: (arg ++ ')' :: replaceTrig g post)) := by
  rw [replaceTrig_copy_before_name g pre f _ hpre hf hlen]
  have e : f ++ '(' :: (arg ++ ')' :: post) = (f ++ ['(']) ++ (arg ++ ')' :: post) := by simp
  rw [e, replaceTrig_copy_clashes g _ _ hc1, replaceTrig_copy_before_close g arg post harg hg]
  have e2 : ')' :: post = [')'] ++ post := rfl
  rw [e2, replaceTrig_copy_clashes g _ _ hc2]
  simp

theorem replaceTrig_other_degCall (g f pre arg post : List Char)
    (hpre : '(' ∉ pre) (hf : '(' ∉ f) (hlen : g.length ≤ f.length) (hg : ')' ∉ g)
    (harg : '(' ∉ arg) (hc1 : clashes g (f ++ ['(', '(']) = true)
    (hc2 : clashes g ") * pi / 180)".toList = true) :
    replaceTrig g (pre ++ (degCall f arg ++ post)) =
      pre ++ (degCall f arg ++ replaceTrig g post) := by
  have e : degCall f arg ++ post =
      f ++ (['(', '('] ++ (arg ++ ')' :: (" * pi / 180)".toList ++ post))) := by
    simp [degCall]
  have e3 : ∀ t, degCall f arg ++ t =
      (f ++ ['(', '(']) ++ (arg ++ (") * pi / 180)".toList ++ t)) := by
    intro t
    simp [degCall]
  rw [e, replaceTrig_copy_before_name g pre f _ hpre hf hlen]
  have e1 : f ++ (['(', '('] ++ (arg ++ ')' :: (" * pi / 180)".toList ++ post))) =
      (f ++ ['(', '(']) ++ (arg ++ ')' :: (" * pi / 180)".toList ++ post)) := by simp
  rw [e1, replaceTrig_copy_clashes g _ _ hc1,
    replaceTrig_copy_before_close g arg _ harg hg]
  have e2 : ')' :: (" * pi / 180)".toList ++ post) = ") * pi / 180)".toList ++ post := rfl
  rw [e2, replaceTrig_copy_clashes g _ _ hc2, e3]

theorem replaceTrig_self_call (f pre arg post : List Char)
    (hpre : '(' ∉ pre) (hf : '(' ∉ f) (hfne : f ≠ []) (hne : arg ≠ [])
    (harg : ')' ∉ arg) :
    replaceTrig f (pre ++ (f ++ '(' :: (arg ++ ')' :: post))) =
      pre ++ (degCall f arg ++ replaceTrig f post) := by
  rw [replaceTrig_copy_before_name f pre f _ hpre hf (le_refl _),
    replaceTrig_call f arg post hfne hne harg]

theorem convertTrig_call (f pre arg post : List Char)
    (hf : f = ['s', 'i', 'n'] ∨ f = ['c', 'o', 's'] ∨ f = ['t', 'a', 'n'])
    (hpre : '(' ∉ pre) (hne : arg ≠ []) (hopen : '(' ∉ arg) (hclose : ')' ∉ arg) :
    convertTrigFunctionsToDeg (pre ++ (f ++ '(' :: (arg ++ ')' :: post))) =
      pre ++ (degCall f arg ++ convertTrigFunctionsToDeg post) := by
  unfold convertTrigFunctionsToDeg
  rcases hf with rfl | rfl | rfl
  · rw [replaceTrig_self_call _ pre arg post hpre (by decide) (by decide) hne hclose,
      replaceTrig_other_degCall _ _ pre arg _ hpre (by decide) (by decide) (by decide) hopen
        (by decide) (by decide),
      replaceTrig_other_degCall _ _ pre arg _ hpre (by decide) (by decide) (by decide) hopen
        (by decide) (by decide)]
  · rw [replaceTrig_other_call _ _ pre arg post hpre (by decide) (by decide) (by decide) hopen
        (by decide) (by decide),
      replaceTrig_self_call _ pre arg _ hpre (by decide) (by decide) hne hclose,
      replaceTrig_other_degCall _ _ pre arg _ hpre (by decide) (by decide) (by decide) hopen
        (by decide) (by decide)]
  · rw [replaceTrig_other_call _ _ pre arg post hpre (by decide) (by decide) (by decide) hopen
        (by decide) (by decide),
      replaceTrig_other_call _ _ pre arg _ hpre (by decide) (by decide) (by decide) hopen
        (by decide) (by decide),
      replaceTrig_self_call _ pre arg _ hpre (by decide) (by decide) hne hclose]

theorem replacePi_append (a b : List Char) :
    replacePi (a ++ b) = replacePi a ++ replacePi b := by
  unfold replacePi
  rw [List.flatMap_append]

theorem replacePi_cons (c : Char) (s : List Char) :
    replacePi (c :: s) = (if c == 'π' then ['p', 'i'] else [c]) ++ replacePi s := by
  unfold replacePi
  rw [List.flatMap_cons]

theorem mem_replacePi {s : List Char} {c : Char} (h : c ∈ replacePi s) :
    c = 'p' ∨ c = 'i' ∨ c ∈ s := by
  induction s with
  | nil => simp [replacePi] at h
  | cons d s ih =>
    rw [replacePi_cons] at h
    rcases List.mem_append.mp h with h | h
    · split at h
      · simp only [List.mem_cons, List.mem_singleton, List.not_mem_nil, or_false] at h
        rcases h with rfl | rfl
        · exact Or.inl rfl
        · exact Or.inr (Or.inl rfl)
      · rw [List.mem_singleton] at h
        exact Or.inr (Or.inr (h ▸ List.mem_cons_self _ _))
    · rcases ih h with h | h | h
      · exact Or.inl h
      · exact Or.inr (Or.inl h)
      · exact Or.inr (Or.inr (List.mem_cons_of_mem _ h))

theorem replacePi_ne_nil {s : List Char} (h : s ≠ []) : replacePi s ≠ [] := by
  cases s with
  | nil => exact absurd rfl h
  | cons c s =>
    rw [replacePi_cons]
    split <;> simp

/-- C11 as stated fails: in `sin((1+2)+3)` the argument `(1+2)+3` is balanced and
ends at the `)` that matches the call's `(`, yet preprocessing does not give
`sin(((1+2)+3) * pi / 180)`; the argument is cut at its first `)`. -/
theorem preprocess_nested_argument_cut :
    preprocessExpression "DEG".toList "sin((1+2)+3)".toList =
      "sin(((1+2) * pi / 180)+3)".toList ∧
    preprocessExpression "DEG".toList "sin((1+2)+3)".toList ≠
      "sin(".toList ++ ("((1+2)+3) * pi / 180".toList ++ ")".toList) := by
  decide

/-! ## Formatting of results -/

theorem formatNumber_of_isInteger (m : NumberMethods) (x : JsNumber) (k : Nat)
    (h : x.isInteger = true) : formatNumber m x k = numberToString m x := by
  have hfin : x.isFinite = true := by
    cases x <;> first | rfl | cases h
  unfold formatNumber formatFinite
  simp [hfin, h]

theorem formatResult_number (lib : Library) (m : NumberMethods) (x : JsNumber) :
    formatResult lib m (.number x) = formatNumber m x maxDecimalPlaces := rfl

theorem isInteger_intCast (z : Int) : (JsNumber.finite (z : ℚ)).isInteger = true := by
  simp [JsNumber.isInteger]

theorem numberToString_intCast (m : NumberMethods) (z : Int) (h : z.natAbs < 2 ^ 53) :
    numberToString m (.finite (z : ℚ)) = integerDigits z := by
  have e : numberToString m (.finite (z : ℚ)) =
      if (z : ℚ).den = 1 ∧ (z : ℚ).num.natAbs < 2 ^ 53 then integerDigits (z : ℚ).num
      else m.toStringOther (.finite (z : ℚ)) := rfl
  rw [e, if_pos]
  · simp
  · exact ⟨by simp, by simpa using h⟩

theorem formatNumber_intCast (m : NumberMethods) (z : Int) (k : Nat)
    (h : z.natAbs < 2 ^ 53) : formatNumber m (.finite (z : ℚ)) k = integerDigits z := by
  rw [formatNumber_of_isInteger m _ k (isInteger_intCast z), numberToString_intCast m z h]

theorem isDigit_digitChar {k : Nat} (h : k < 10) : isDigit (Nat.digitChar k) = true := by
  interval_cases k <;> decide

theorem isDigit_of_mem_toDigitsCore (fuel n : Nat) (ds : List Char)
    (hds : ∀ c ∈ ds, isDigit c = true) :
    ∀ c ∈ Nat.toDigitsCore 10 fuel n ds, isDigit c = true := by
  induction fuel generalizing n ds with
  | zero => simpa [Nat.toDigitsCore] using hds
  | succ fuel ih =>
    have hcons : ∀ c ∈ Nat.digitChar (n % 10) :: ds, isDigit c = true := by
      intro c hc
      rcases List.mem_cons.mp hc with rfl | hc
      · exact isDigit_digitChar (Nat.mod_lt _ (by decide))
      · exact hds c hc
    unfold Nat.toDigitsCore
    simp only
    split
    · exact hcons
    · exact ih _ _ hcons

theorem isDigit_of_mem_toDigits (n : Nat) : ∀ c ∈ Nat.toDigits 10 n, isDigit c = true :=
  isDigit_of_mem_toDigitsCore _ _ [] (fun c hc => by cases hc)

theorem integerDigits_plain (z : Int) :
    '.' ∉ integerDigits z ∧ 'e' ∉ integerDigits z := by
  have key : ∀ c, isDigit c = false → c ≠ '-' → c ∉ integerDigits z := by
    intro c hc hm hmem
    unfold integerDigits at hmem
    split at hmem
    · rcases List.mem_cons.mp hmem with h | h
      · exact hm h
      · rw [isDigit_of_mem_toDigits _ c h] at hc
        cases hc
    · rw [isDigit_of_mem_toDigits _ c hmem] at hc
      cases hc
  exact ⟨key '.' (by decide) (by decide), key 'e' (by decide) (by decide)⟩

theorem numberToString_intCast_large (m : NumberMethods) (z : Int)
    (h : ¬ z.natAbs < 2 ^ 53) :
    numberToString m (.finite (z : ℚ)) = m.toStringOther (.finite (z : ℚ)) := by
  have e : numberToString m (.finite (z : ℚ)) =
      if (z : ℚ).den = 1 ∧ (z : ℚ).num.natAbs < 2 ^ 53 then integerDigits (z : ℚ).num
      else m.toStringOther (.finite (z : ℚ)) := rfl
  rw [e, if_neg]
  rintro ⟨_, h2⟩
  exact h (by simpa using h2)

/-- C16: for every expression that is empty or consists only of whitespace,
`evaluate` and `evaluateAndFormat` throw the error with the message `Empty
expression`, whatever the evaluator is (it is not called), and the message is not
the one error translation would give. -/
theorem evaluate_empty_expression (lib : Library) (m : NumberMethods)
    (angleMode expression : List Char) (h : IsBlank expression) :
    evaluate lib angleMode expression = .error "Empty expression".toList ∧
    evaluateAndFormat lib m angleMode expression = .error "Empty expression".toList ∧
    handleEvaluationError "Empty expression".toList ≠ "Empty expression".toList := by
  have e := evaluate_of_blank lib angleMode expression h
  refine ⟨e, ?_, by decide⟩
  unfold evaluateAndFormat
  rw [e]

/-- Witness of C16 at the empty expression and at three spaces. -/
theorem evaluate_empty_expression_witness :
    IsBlank "   ".toList ∧
    evaluate (constLibrary (.number (.finite 1))) "DEG".toList "   ".toList =
      .error "Empty expression".toList :=
  ⟨by intro c hc; revert c; decide,
   (evaluate_empty_expression (constLibrary (.number (.finite 1))) sampleMethods
     "DEG".toList "   ".toList (by intro c hc; revert c; decide)).1⟩

/-- C17 as stated fails on integer values: `0` has a magnitude below `0.000001`
and `20000000000` one above `1e10`, both are finite, and they are written `0`
and `20000000000`, without an exponent. -/
theorem formatNumber_integer_not_scientific :
    (JsNumber.finite 0).isFinite = true ∧ (JsNumber.finite 0).absBelowSmall = true ∧
    formatNumber sampleMethods (.finite 0) 10 = "0".toList ∧
    (JsNumber.finite 20000000000).isFinite = true ∧
    (JsNumber.finite 20000000000).absAboveLarge = true ∧
    formatNumber sampleMethods (.finite 20000000000) 10 = "20000000000".toList := by
  refine ⟨rfl, ?_, ?_, rfl, ?_, ?_⟩
  · simp only [JsNumber.absBelowSmall, smallThreshold, decide_eq_true_eq]
    norm_num
  · have := formatNumber_intCast sampleMethods 0 10 (by decide)
    simpa using this
  · simp only [JsNumber.absAboveLarge, decide_eq_true_eq]
    norm_num
  · have := formatNumber_intCast sampleMethods 20000000000 10 (by decide)
    rw [show integerDigits 20000000000 = "20000000000".toList by decide] at this
    exact_mod_cast this

/-- C18 as stated fails at `10 ^ 21`: the value is finite and integer, and it is
written `1e+21`, which is not its decimal digit string. -/
theorem formatNumber_large_integer_exponent :
    (JsNumber.finite (10 ^ 21)).isInteger = true ∧
    formatNumber sampleMethods (.finite (10 ^ 21)) 10 = "1e+21".toList ∧
    integerDigits (10 ^ 21) = "1000000000000000000000".toList := by
  have hcast : ((10 : ℚ) ^ 21) = (((10 : Int) ^ 21 : Int) : ℚ) := by norm_num
  refine ⟨?_, ?_, by decide⟩
  · rw [hcast]
    exact isInteger_intCast _
  · have h1 := formatNumber_of_isInteger sampleMethods (.finite (((10 : Int) ^ 21 : Int) : ℚ))
      10 (isInteger_intCast _)
    have h2 := numberToString_intCast_large sampleMethods ((10 : Int) ^ 21) (by decide)
    rw [h2] at h1
    rw [hcast, h1, ← hcast]
    simp [sampleMethods]

/-- C18 (amended): for every integer `n` below `2 ^ 53` in magnitude,
`formatNumber(n)` and `_formatResult(n)` are the decimal digit string of `n`,
which has no decimal point and no exponent; `5` gives `5` and `10 ^ 10` gives
`10000000000`. -/
theorem formatNumber_safe_integer (lib : Library) (m : NumberMethods) (n : Int)
    (k : Nat) (h : n.natAbs < 2 ^ 53) :
    formatNumber m (.finite (n : ℚ)) k = integerDigits n ∧
    formatResult lib m (.number (.finite (n : ℚ))) = integerDigits n ∧
    '.' ∉ integerDigits n ∧ 'e' ∉ integerDigits n ∧
    integerDigits 5 = "5".toList ∧
    integerDigits (10 ^ 10) = "10000000000".toList := by
  refine ⟨formatNumber_intCast m n k h, ?_, (integerDigits_plain n).1,
    (integerDigits_plain n).2, by decide, by decide⟩
  rw [formatResult_number]
  exact formatNumber_intCast m n _ h

/-- Witness of the amended C18 at `10 ^ 10`, the value of the unit test. -/
theorem formatNumber_safe_integer_witness :
    ((10 : Int) ^ 10).natAbs < 2 ^ 53 ∧
    formatNumber sampleMethods (.finite (((10 : Int) ^ 10 : Int) : ℚ)) 10 =
      "10000000000".toList :=
  ⟨by decide,
   (formatNumber_safe_integer (constLibrary (.number .nan)) sampleMethods (10 ^ 10) 10
     (by decide)).1.trans (by decide)⟩

theorem matchZerosE_of_zeros {zs r : List Char} (hne : zs ≠ [])
    (hz : allZeros zs = true) : matchZerosE (zs ++ 'e' :: r) = some r := by
  have hall : ∀ x ∈ zs, (fun c => c == '0') x = true := by
    simpa [allZeros, List.all_eq_true] using hz
  have hrun := @takeWhile_append_stop (fun c => c == '0') zs 'e' r hall (by decide)
  unfold matchZerosE
  rw [hrun.1, hrun.2]
  cases zs with
  | nil => exact absurd rfl hne
  | cons z zs => rfl

theorem matchZerosE_of_head {c : Char} {t : List Char} (hc : (c == '0') = false) :
    matchZerosE (c :: t) = none := by
  unfold matchZerosE
  simp [List.takeWhile_cons, hc]

theorem matchZerosE_of_not_allZeros {frac t : List Char} (hz : allZeros frac = false)
    (he : 'e' ∉ frac) : matchZerosE (frac ++ t) = none := by
  have hne : frac.dropWhile (fun c => c == '0') ≠ [] := by
    intro h
    have := dropWhile_eq_nil_iff_all.mp h
    have hall : allZeros frac = true := by
      simpa [allZeros, List.all_eq_true] using this
    rw [hall] at hz
    cases hz
  have hdrop : (frac ++ t).dropWhile (fun c => c == '0') =
      frac.dropWhile (fun c => c == '0') ++ t := by
    rw [List.dropWhile_append]
    simp [hne]
  unfold matchZerosE
  rw [hdrop]
  cases hd : frac.dropWhile (fun c => c == '0') with
  | nil => exact absurd hd hne
  | cons d r =>
    have hmem : d ∈ frac := by
      have : d ∈ frac.dropWhile (fun c => c == '0') := hd ▸ List.mem_cons_self _ _
      exact (List.dropWhile_sublist _).subset this
    have hde : d ≠ 'e' := fun h => he (h ▸ hmem)
    split
    · next heq =>
      simp only [List.cons_append, List.cons.injEq] at heq
      exact absurd heq.1 hde
    · rfl

theorem mem_of_matchZerosE {t r : List Char} (h : matchZerosE t = some r) : 'e' ∈ t := by
  unfold matchZerosE at h
  split at h
  · next heq =>
    have hmem : 'e' ∈ t.dropWhile (fun c => c == '0') := heq ▸ List.mem_cons_self _ _
    exact (List.dropWhile_sublist _).subset hmem
  · cases h

theorem matchDotZerosE_none_of_no_e {t : List Char} (h : 'e' ∉ t) :
    matchDotZerosE t = none := by
  have h1 : matchZerosE t = none := by
    cases hm : matchZerosE t with
    | none => rfl
    | some r => exact absurd (mem_of_matchZerosE hm) h
  unfold matchDotZerosE
  split
  · next rest =>
    have h2 : matchZerosE rest = none := by
      cases hm : matchZerosE rest with
      | none => rfl
      | some r => exact absurd (List.mem_cons_of_mem _ (mem_of_matchZerosE hm)) h
    rw [h2]
    exact h1
  · exact h1

theorem stripZeros_of_no_e {t : List Char} (h : 'e' ∉ t) : stripZeros t = t := by
  induction t with
  | nil => rfl
  | cons c t ih =>
    rw [stripZeros, matchDotZerosE_none_of_no_e h]
    simp only
    rw [ih (fun hm => h (List.mem_cons_of_mem _ hm))]

theorem matchDotZerosE_of_ne_dot {c : Char} {t : List Char} (hc : c ≠ '.') :
    matchDotZerosE (c :: t) = matchZerosE (c :: t) := by
  unfold matchDotZerosE
  split
  · next rest heq =>
    injection heq with h1 _
    exact absurd h1 hc
  · rfl

theorem stripZeros_cons_of_none {c : Char} {t : List Char}
    (h : matchDotZerosE (c :: t) = none) : stripZeros (c :: t) = c :: stripZeros t := by
  rw [stripZeros, h]

theorem stripZeros_fraction (frac ex : List Char) (hfrac : ∀ c ∈ frac, isDigit c = true)
    (hex : 'e' ∉ ex) :
    stripZeros (frac ++ 'e' :: ex) = trimZeros frac ++ 'e' :: ex := by
  induction frac with
  | nil =>
    have hn : matchDotZerosE ('e' :: ex) = none := by
      rw [matchDotZerosE_of_ne_dot (by decide), matchZerosE_of_head (by decide)]
    rw [List.nil_append, stripZeros_cons_of_none hn, stripZeros_of_no_e hex]
    rfl
  | cons c fr ih =>
    have hc := hfrac c (List.mem_cons_self _ _)
    have hcd : c ≠ '.' := by
      rintro rfl
      exact absurd hc (by decide)
    have hfe : 'e' ∉ c :: fr := by
      intro hm
      exact absurd (hfrac 'e' hm) (by decide)
    cases hz : allZeros (c :: fr)
    · have hn : matchDotZerosE (c :: (fr ++ 'e' :: ex)) = none := by
        rw [matchDotZerosE_of_ne_dot hcd]
        exact @matchZerosE_of_not_allZeros (c :: fr) ('e' :: ex) hz hfe
      rw [List.cons_append, stripZeros_cons_of_none hn,
        ih (fun d hd => hfrac d (List.mem_cons_of_mem _ hd)), trimZeros, hz]
      rfl
    · have hs : matchDotZerosE (c :: (fr ++ 'e' :: ex)) = some ex := by
        rw [matchDotZerosE_of_ne_dot hcd]
        exact @matchZerosE_of_zeros (c :: fr) ex (by simp) hz
      rw [List.cons_append, stripZeros, hs, trimZeros, hz]
      rfl

theorem trimZeros_length_le (frac : List Char) : (trimZeros frac).length ≤ frac.length := by
  induction frac with
  | nil => exact le_refl _
  | cons c fr ih =>
    rw [trimZeros]
    split
    · exact Nat.zero_le _
    · simpa using ih

theorem trimZeros_eq_nil_iff (frac : List Char) :
    trimZeros frac = [] ↔ allZeros frac = true := by
  cases frac with
  | nil => simp [trimZeros, allZeros]
  | cons c fr =>
    rw [trimZeros]
    cases hz : allZeros (c :: fr) <;> simp

theorem stripZeros_mantissa (sign frac ex : List Char) (d : Char)
    (hsign : sign = [] ∨ sign = ['-']) (hd : isDigit d = true) (hne : frac ≠ [])
    (hfrac : ∀ c ∈ frac, isDigit c = true) (hex : 'e' ∉ ex) :
    stripZeros (sign ++ d :: '.' :: (frac ++ 'e' :: ex)) =
      sign ++ d :: (fractionPart (trimZeros frac) ++ 'e' :: ex) := by
  have hcore : stripZeros (d :: '.' :: (frac ++ 'e' :: ex)) =
      d :: (fractionPart (trimZeros frac) ++ 'e' :: ex) := by
    have hdd : d ≠ '.' := by
      rintro rfl
      exact absurd hd (by decide)
    have hfe : 'e' ∉ frac := fun hm => absurd (hfrac 'e' hm) (by decide)
    have hn : matchDotZerosE (d :: '.' :: (frac ++ 'e' :: ex)) = none := by
      rw [matchDotZerosE_of_ne_dot hdd]
      cases hz : (d == '0')
      · exact matchZerosE_of_head hz
      · have e : d :: '.' :: (frac ++ 'e' :: ex) = [d] ++ ('.' :: (frac ++ 'e' :: ex)) := rfl
        rw [e]
        unfold matchZerosE
        simp [List.takeWhile_cons, List.dropWhile_cons, hz]
    rw [stripZeros_cons_of_none hn]
    congr 1
    cases hz : allZeros frac
    · have hm : matchDotZerosE ('.' :: (frac ++ 'e' :: ex)) = none := by
        unfold matchDotZerosE
        simp only
        rw [matchZerosE_of_not_allZeros hz hfe, matchZerosE_of_head (by decide)]
      have hnil : trimZeros frac ≠ [] := by
        rw [Ne, trimZeros_eq_nil_iff, hz]
        simp
      rw [stripZeros_cons_of_none hm, stripZeros_fraction frac ex hfrac hex, fractionPart,
        if_neg hnil]
      rfl
    · have hm : matchDotZerosE ('.' :: (frac ++ 'e' :: ex)) = some ex := by
        unfold matchDotZerosE
        simp only
        rw [matchZerosE_of_zeros hne hz]
      rw [stripZeros, hm, fractionPart, if_pos ((trimZeros_eq_nil_iff frac).mpr hz)]
      rfl
  rcases hsign with rfl | rfl
  · exact hcore
  · have hn : matchDotZerosE ('-' :: (d :: '.' :: (frac ++ 'e' :: ex))) = none := by
      rw [matchDotZerosE_of_ne_dot (by decide), matchZerosE_of_head (by decide)]
    rw [List.singleton_append, stripZeros_cons_of_none hn, hcore]
    rfl

theorem formatNumber_of_range (m : NumberMethods) (x : JsNumber) (k : Nat)
    (hfin : x.isFinite = true) (hint : x.isInteger = false)
    (hrange : x.absBelowSmall = true ∨ x.absAboveLarge = true) :
    formatNumber m x k = stripZeros (m.toExponential 6 x) := by
  unfold formatNumber formatFinite
  have hor : (x.absBelowSmall || x.absAboveLarge) = true := by
    rcases hrange with h | h <;> simp [h]
  simp [hfin, hint, hor]

theorem not_isInteger_of_between (q : ℚ) (z : Int) (h1 : (z : ℚ) < q)
    (h2 : q < (z : ℚ) + 1) : (JsNumber.finite q).isInteger = false := by
  simp only [JsNumber.isInteger, decide_eq_false_iff_not]
  intro hden
  have hq : ((q.num : Int) : ℚ) = q := Rat.coe_int_num_of_den_eq_one hden
  rw [← hq] at h1 h2
  have h3 : z < q.num := by exact_mod_cast h1
  have h4 : q.num < z + 1 := by exact_mod_cast h2
  omega

/-- C17 (amended): for every finite value `x` that is not an integer, with
`|x| < 0.000001` or `|x| > 1e10`, `formatNumber(x)` and `_formatResult(x)` are the
text of `x.toExponential(6)` (an optional `-`, one digit, `.`, six digits, `e`
and the exponent) with the trailing zeros of the fraction removed, and the `.`
too when no fraction digit is left: one leading digit, at most six fraction
digits, then `e` and the exponent. -/
theorem formatNumber_scientific (lib : Library) (m : NumberMethods) (x : JsNumber)
    (sign frac ex : List Char) (d : Char)
    (hfin : x.isFinite = true) (hint : x.isInteger = false)
    (hrange : x.absBelowSmall = true ∨ x.absAboveLarge = true)
    (hshape : m.toExponential 6 x = sign ++ d :: '.' :: (frac ++ 'e' :: ex))
    (hsign : sign = [] ∨ sign = ['-']) (hd : isDigit d = true)
    (hlen : frac.length = 6) (hfrac : ∀ c ∈ frac, isDigit c = true) (hex : 'e' ∉ ex) :
    formatNumber m x 10 = sign ++ d :: (fractionPart (trimZeros frac) ++ 'e' :: ex) ∧
    formatResult lib m (.number x) =
      sign ++ d :: (fractionPart (trimZeros frac) ++ 'e' :: ex) ∧
    (trimZeros frac).length ≤ 6 := by
  have hne : frac ≠ [] := by
    rintro rfl
    cases hlen
  have key : ∀ k, formatNumber m x k =
      sign ++ d :: (fractionPart (trimZeros frac) ++ 'e' :: ex) := fun k => by
    rw [formatNumber_of_range m x k hfin hint hrange, hshape,
      stripZeros_mantissa sign frac ex d hsign hd hne hfrac hex]
  refine ⟨key 10, ?_, hlen ▸ trimZeros_length_le frac⟩
  rw [formatResult_number]
  exact key _

theorem sample_small_facts :
    (JsNumber.finite (3 / 20000000)).isInteger = false ∧
    (JsNumber.finite (3 / 20000000)).absBelowSmall = true ∧
    sampleMethods.toExponential 6 (.finite (3 / 20000000)) = "1.500000e-7".toList := by
  refine ⟨not_isInteger_of_between _ 0 (by norm_num) (by norm_num), ?_, ?_⟩
  · simp only [JsNumber.absBelowSmall, smallThreshold, decide_eq_true_eq]
    rw [abs_of_pos (by norm_num)]
    norm_num
  · have hne : ¬ ((3 : ℚ) / 20000000 = 24691357803 / 2) := by norm_num
    simp [sampleMethods, hne]

/-- Witness of the amended C17 at `1.5e-7`, written `1.5e-7`. -/
theorem formatNumber_scientific_witness :
    (JsNumber.finite (3 / 20000000)).isInteger = false ∧
    (JsNumber.finite (3 / 20000000)).absBelowSmall = true ∧
    formatNumber sampleMethods (.finite (3 / 20000000)) 10 = "1.5e-7".toList :=
  ⟨sample_small_facts.1, sample_small_facts.2.1,
   (formatNumber_scientific (constLibrary (.number .nan)) sampleMethods
     (.finite (3 / 20000000)) [] "500000".toList "-7".toList '1' rfl sample_small_facts.1
     (Or.inl sample_small_facts.2.1) sample_small_facts.2.2 (Or.inl rfl) (by decide)
     (by decide) (by decide) (by decide)).1.trans (by decide)⟩

theorem sample_large_facts :
    (JsNumber.finite (24691357803 / 2)).isInteger = false ∧
    (JsNumber.finite (24691357803 / 2)).absAboveLarge = true ∧
    sampleMethods.toExponential 6 (.finite (24691357803 / 2)) = "1.234568e+10".toList := by
  refine ⟨not_isInteger_of_between _ 12345678901 (by norm_num) (by norm_num), ?_, ?_⟩
  · simp only [JsNumber.absAboveLarge, decide_eq_true_eq]
    rw [abs_of_pos (by norm_num)]
    norm_num
  · simp [sampleMethods]

/-- C19 as stated fails at `12345678901.5`: the value is written `1.234568e+10`,
that text parses to the integer `12345680000`, and the integer is written
`12345680000`. -/
theorem formatNumber_round_trip_fails :
    (JsNumber.finite (24691357803 / 2)).isFinite = true ∧
    formatNumber sampleMethods (.finite (24691357803 / 2)) 10 = "1.234568e+10".toList ∧
    formatNumber sampleMethods
        (sampleMethods.parseFloat (formatNumber sampleMethods (.finite (24691357803 / 2)) 10))
        10 = "12345680000".toList := by
  have h1 : formatNumber sampleMethods (.finite (24691357803 / 2)) 10 =
      "1.234568e+10".toList := by
    rw [formatNumber_of_range sampleMethods (.finite (24691357803 / 2)) 10 rfl
      sample_large_facts.1 (Or.inr sample_large_facts.2.1), sample_large_facts.2.2]
    decide
  refine ⟨rfl, h1, ?_⟩
  rw [h1]
  have h2 : sampleMethods.parseFloat "1.234568e+10".toList =
      .finite (((12345680000 : Int) : ℚ)) := by
    simp [sampleMethods]
  rw [h2, formatNumber_intCast sampleMethods 12345680000 10 (by decide)]
  decide

/-! ## The translation of evaluation errors -/

theorem handleEvaluationError_rules (m : List Char) :
    (includes (toLowerCase m) "divide".toList = true →
        includes (toLowerCase m) "zero".toList = true →
        handleEvaluationError m = "Division by zero".toList) ∧
    (¬ (includes (toLowerCase m) "divide".toList = true ∧
          includes (toLowerCase m) "zero".toList = true) →
      ((includes (toLowerCase m) "undefined symbol".toList = true ∨
          includes (toLowerCase m) "undefined function".toList = true) →
        handleEvaluationError m = "Invalid function or symbol".toList) ∧
      (¬ (includes (toLowerCase m) "undefined symbol".toList = true ∨
            includes (toLowerCase m) "undefined function".toList = true) →
        ((includes (toLowerCase m) "syntax".toList = true ∨
            includes (toLowerCase m) "unexpected".toList = true) →
          handleEvaluationError m = "Invalid expression syntax".toList) ∧
        (¬ (includes (toLowerCase m) "syntax".toList = true ∨
              includes (toLowerCase m) "unexpected".toList = true) →
          (includes (toLowerCase m) "parenthes".toList = true →
            handleEvaluationError m = "Unbalanced parentheses".toList) ∧
          (¬ includes (toLowerCase m) "parenthes".toList = true →
            ((includes (toLowerCase m) "log".toList = true ∨
                includes (toLowerCase m) "ln".toList = true) →
              handleEvaluationError m = "Logarithm of non-positive number".toList) ∧
            (¬ (includes (toLowerCase m) "log".toList = true ∨
                  includes (toLowerCase m) "ln".toList = true) →
              (includes (toLowerCase m) "sqrt".toList = true →
                handleEvaluationError m = "Square root of negative number".toList) ∧
              (¬ includes (toLowerCase m) "sqrt".toList = true →
                (includes (toLowerCase m) "tan".toList = true →
                  handleEvaluationError m = "Tangent undefined for this angle".toList) ∧
                (¬ includes (toLowerCase m) "tan".toList = true →
                  handleEvaluationError m = "Calculation error: ".toList ++ m))))))) := by
  unfold handleEvaluationError
  simp only [Bool.and_eq_true, Bool.or_eq_true]
  refine ⟨fun h1 h2 => by rw [if_pos ⟨h1, h2⟩], fun n1 => ?_⟩
  rw [if_neg n1]
  refine ⟨fun h => by rw [if_pos h], fun n2 => ?_⟩
  rw [if_neg n2]
  refine ⟨fun h => by rw [if_pos h], fun n3 => ?_⟩
  rw [if_neg n3]
  refine ⟨fun h => by rw [if_pos h], fun n4 => ?_⟩
  rw [if_neg n4]
  refine ⟨fun h => by rw [if_pos h], fun n5 => ?_⟩
  rw [if_neg n5]
  refine ⟨fun h => by rw [if_pos h], fun n6 => ?_⟩
  rw [if_neg n6]
  exact ⟨fun h => by rw [if_pos h], fun n7 => by rw [if_neg n7]⟩

theorem evaluate_of_body_error (lib : Library) (angleMode expression message : List Char)
    (hne : ¬ (expression = [] ∨ trim expression = []))
    (h : evaluateBody lib angleMode expression = .error message) :
    evaluate lib angleMode expression = .error (handleEvaluationError message) := by
  unfold evaluate
  rw [if_neg hne]
  simp only [h]

/-! ## The results shown by evaluateAndFormat -/

theorem rest_subset_of_matchZerosE {s r : List Char} (h : matchZerosE s = some r) :
    ∀ c ∈ r, c ∈ s := by
  intro c hc
  unfold matchZerosE at h
  split at h
  · rename_i hd tl rest _ hdrop
    cases h
    have : c ∈ s.dropWhile (fun c => c == '0') := by rw [hdrop]; exact List.mem_cons_of_mem _ hc
    exact (List.dropWhile_sublist _).subset this
  · cases h

theorem rest_subset_of_matchDotZerosE {s r : List Char} (h : matchDotZerosE s = some r) :
    ∀ c ∈ r, c ∈ s := by
  intro c hc
  unfold matchDotZerosE at h
  split at h
  · rename_i rest
    split at h
    · rename_i r2 h2
      cases h
      exact List.mem_cons_of_mem _ (rest_subset_of_matchZerosE h2 c hc)
    · exact rest_subset_of_matchZerosE h c hc
  · exact rest_subset_of_matchZerosE h c hc

theorem mem_stripZeros (t : List Char) : ∀ c ∈ stripZeros t, c = 'e' ∨ c ∈ t := by
  induction t with
  | nil => intro c hc; simp [stripZeros] at hc
  | cons d rest ih =>
    intro c hc
    unfold stripZeros at hc
    split at hc
    · rename_i r hr
      rcases List.mem_cons.mp hc with h | h
      · exact Or.inl h
      · exact Or.inr (rest_subset_of_matchDotZerosE hr c h)
    · rcases List.mem_cons.mp hc with h | h
      · exact Or.inr (h ▸ List.mem_cons_self _ _)
      · rcases ih c h with h2 | h2
        · exact Or.inl h2
        · exact Or.inr (List.mem_cons_of_mem _ h2)

theorem integerDigits_ne_error (z : Int) : integerDigits z ≠ "Error".toList := by
  intro h
  unfold integerDigits at h
  split at h
  · cases h
  · have := isDigit_of_mem_toDigits z.natAbs 'E' (by rw [h]; decide)
    exact absurd this (by decide)

theorem numberToString_ne_error (m : NumberMethods)
    (hs : ∀ x, m.toStringOther x ≠ "Error".toList) (x : JsNumber) :
    numberToString m x ≠ "Error".toList := by
  unfold numberToString
  split
  · split
    · exact integerDigits_ne_error _
    · exact hs _
  · exact hs _

theorem formatFinite_ne_error (m : NumberMethods)
    (hs : ∀ x, m.toStringOther x ≠ "Error".toList)
    (he : ∀ digits x, 'E' ∉ m.toExponential digits x) (d : Nat) (x : JsNumber) :
    formatFinite m d x ≠ "Error".toList := by
  unfold formatFinite
  split
  · exact numberToString_ne_error m hs _
  · split
    · intro h
      rcases mem_stripZeros (m.toExponential 6 x) 'E' (by rw [h]; decide) with h2 | h2
      · exact absurd h2 (by decide)
      · exact he 6 x h2
    · exact numberToString_ne_error m hs _

theorem formatResult_of_valid (lib : Library) (m : NumberMethods) (r : EvalResult)
    (h : validateResult lib r = .ok ()) :
    (lib.toNumber r).isFinite = true ∧
      ∃ num, formatResult lib m r = formatFinite m maxDecimalPlaces num ∧
        ∀ n, r = .number n → num = n ∧ n.isFinite = true := by
  have hf : (lib.toNumber r).isFinite = true := by
    unfold validateResult at h
    by_contra hn
    simp only [Bool.not_eq_true] at hn
    rw [hn] at h
    simp only [Bool.not_false, if_true] at h
    split at h <;> cases h
  refine ⟨hf, ?_⟩
  cases r with
  | number n =>
    refine ⟨n, ?_, fun n2 h2 => ?_⟩
    · unfold formatResult
      rw [hf]
      simp
    · cases h2
      exact ⟨rfl, hf⟩
  | bigNumber text =>
    refine ⟨lib.numberOfString (m.objectToString (.bigNumber text)), ?_, fun n2 h2 => by cases h2⟩
    unfold formatResult
    rw [hf]
    simp
  | complex re im =>
    refine ⟨lib.numberOfString (m.objectToString (.complex re im)), ?_, fun n2 h2 => by cases h2⟩
    unfold formatResult
    rw [hf]
    simp
  | other tag =>
    refine ⟨lib.numberOfString (m.objectToString (.other tag)), ?_, fun n2 h2 => by cases h2⟩
    unfold formatResult
    rw [hf]
    simp

theorem evaluateAndFormat_cases (lib : Library) (m : NumberMethods)
    (angleMode expression : List Char) :
    (∀ message, evaluate lib angleMode expression = .error message →
        evaluateAndFormat lib m angleMode expression = .error message) ∧
    (∀ r, evaluate lib angleMode expression = .ok r →
        evaluateAndFormat lib m angleMode expression = .ok (formatResult lib m r)) := by
  unfold evaluateAndFormat
  constructor
  · intro message h; simp only [h]
  · intro r h; simp only [h]

/-- C26: `_handleEvaluationError` always throws, so a failure inside the `try` block
of `evaluate` leaves `evaluate` with the translated message; and the message is
that of the first rule, in the order of the method, that the lower-cased raw
message satisfies: `divide` and `zero`; `undefined symbol` or `undefined
function`; `syntax` or `unexpected`; `parenthes`; `log` or `ln`; `sqrt`; `tan`;
when no rule applies it is `Calculation error: ` followed by the raw message. -/
theorem handleEvaluationError_first_match (m : List Char) :
    (∀ (lib : Library) (angleMode expression : List Char),
        ¬ (expression = [] ∨ trim expression = []) →
        evaluateBody lib angleMode expression = .error m →
        evaluate lib angleMode expression = .error (handleEvaluationError m)) ∧
    (includes (toLowerCase m) "divide".toList = true →
        includes (toLowerCase m) "zero".toList = true →
        handleEvaluationError m = "Division by zero".toList) ∧
    (¬ (includes (toLowerCase m) "divide".toList = true ∧
          includes (toLowerCase m) "zero".toList = true) →
      ((includes (toLowerCase m) "undefined symbol".toList = true ∨
          includes (toLowerCase m) "undefined function".toList = true) →
        handleEvaluationError m = "Invalid function or symbol".toList) ∧
      (¬ (includes (toLowerCase m) "undefined symbol".toList = true ∨
            includes (toLowerCase m) "undefined function".toList = true) →
        ((includes (toLowerCase m) "syntax".toList = true ∨
            includes (toLowerCase m) "unexpected".toList = true) →
          handleEvaluationError m = "Invalid expression syntax".toList) ∧
        (¬ (includes (toLowerCase m) "syntax".toList = true ∨
              includes (toLowerCase m) "unexpected".toList = true) →
          (includes (toLowerCase m) "parenthes".toList = true →
            handleEvaluationError m = "Unbalanced parentheses".toList) ∧
          (¬ includes (toLowerCase m) "parenthes".toList = true →
            ((includes (toLowerCase m) "log".toList = true ∨
                includes (toLowerCase m) "ln".toList = true) →
              handleEvaluationError m = "Logarithm of non-positive number".toList) ∧
            (¬ (includes (toLowerCase m) "log".toList = true ∨
                  includes (toLowerCase m) "ln".toList = true) →
              (includes (toLowerCase m) "sqrt".toList = true →
                handleEvaluationError m = "Square root of negative number".toList) ∧
              (¬ includes (toLowerCase m) "sqrt".toList = true →
                (includes (toLowerCase m) "tan".toList = true →
                  handleEvaluationError m = "Tangent undefined for this angle".toList) ∧
                (¬ includes (toLowerCase m) "tan".toList = true →
                  handleEvaluationError m = "Calculation error: ".toList ++ m))))))) :=
  ⟨fun lib angleMode expression hne h => evaluate_of_body_error lib angleMode expression m hne h,
    handleEvaluationError_rules m⟩

/-- The message `Cannot take LOG of a Syntax error` satisfies the third rule
(`syntax`) and the fifth (`log`), and none before the third: the third rule
gives the message. -/
theorem handleEvaluationError_first_match_witness :
    includes (toLowerCase "Cannot take LOG of a Syntax error".toList) "log".toList = true ∧
    handleEvaluationError "Cannot take LOG of a Syntax error".toList =
      "Invalid expression syntax".toList :=
  ⟨by decide,
    (((handleEvaluationError_first_match "Cannot take LOG of a Syntax error".toList).2.2
      (by decide)).2 (by decide)).1 (Or.inl (by decide))⟩

/-- C29: `evaluateAndFormat` never returns the text `Error`.  A number returned by
`evaluate` is finite; for every value `evaluate` returns, `isFinite` holds, so
`_formatResult` leaves its first branch aside and formats a number (the value
itself when it is a number); and an error of `evaluate` is the error of
`evaluateAndFormat`.  The built-in number methods are taken with two of their
properties: `toString` never gives the text `Error` and `toExponential` never
gives a text with the letter `E`. -/
theorem evaluateAndFormat_never_error_text (lib : Library) (m : NumberMethods)
    (hs : ∀ x, m.toStringOther x ≠ "Error".toList)
    (he : ∀ digits x, 'E' ∉ m.toExponential digits x)
    (angleMode expression : List Char) :
    evaluateAndFormat lib m angleMode expression ≠ .ok "Error".toList ∧
    (∀ n, evaluate lib angleMode expression = .ok (.number n) → n.isFinite = true) ∧
    (∀ message, evaluate lib angleMode expression = .error message →
      evaluateAndFormat lib m angleMode expression = .error message) ∧
    (∀ r, evaluate lib angleMode expression = .ok r →
      (lib.toNumber r).isFinite = true ∧
      evaluateAndFormat lib m angleMode expression = .ok (formatResult lib m r) ∧
      ∃ num, formatResult lib m r = formatFinite m maxDecimalPlaces num ∧
        ∀ n, r = .number n → num = n ∧ n.isFinite = true) := by
  have hc := evaluateAndFormat_cases lib m angleMode expression
  have hr : ∀ r, evaluate lib angleMode expression = .ok r →
      (lib.toNumber r).isFinite = true ∧
      evaluateAndFormat lib m angleMode expression = .ok (formatResult lib m r) ∧
      ∃ num, formatResult lib m r = formatFinite m maxDecimalPlaces num ∧
        ∀ n, r = .number n → num = n ∧ n.isFinite = true := by
    intro r h
    have hv := formatResult_of_valid lib m r (evaluate_ok_valid lib angleMode expression r h)
    exact ⟨hv.1, hc.2 r h, hv.2⟩
  refine ⟨?_, fun n h => evaluate_ok_number_finite lib angleMode expression n h, hc.1, hr⟩
  intro h
  cases hev : evaluate lib angleMode expression with
  | error message => rw [hc.1 message hev] at h; cases h
  | ok r =>
    obtain ⟨_, h2, num, h3, _⟩ := hr r hev
    rw [h2, h3] at h
    exact formatFinite_ne_error m hs he _ num (Except.ok.inj h)

/-- With an evaluator that returns `2` and the sample number methods,
`evaluateAndFormat('1+1')` is not the text `Error`. -/
theorem evaluateAndFormat_never_error_text_witness :
    (∀ x, sampleMethods.toStringOther x ≠ "Error".toList) ∧
    (∀ digits x, 'E' ∉ sampleMethods.toExponential digits x) ∧
    evaluateAndFormat (constLibrary (.number (.finite 2))) sampleMethods "DEG".toList
      "1+1".toList ≠ .ok "Error".toList :=
  have hs : ∀ x, sampleMethods.toStringOther x ≠ "Error".toList := by
    intro x
    simp only [sampleMethods]
    split <;> decide
  have he : ∀ digits x, 'E' ∉ sampleMethods.toExponential digits x := by
    intro digits x
    simp only [sampleMethods]
    split
    · decide
    · split <;> decide
  ⟨hs, he,
    (evaluateAndFormat_never_error_text (constLibrary (.number (.finite 2))) sampleMethods
      hs he "DEG".toList "1+1".toList).1⟩

/-! ## The degree-mode rewrite and the balance of parentheses -/

theorem matchTrig_some {g s arg post : List Char} (h : matchTrig g s = some (arg, post)) :
    s = g ++ '(' :: (arg ++ ')' :: post) ∧ arg ≠ [] ∧ ')' ∉ arg := by
  unfold matchTrig at h
  split at h
  · rename_i hp
    obtain ⟨after, hafter⟩ := List.isPrefixOf_iff_prefix.mp hp
    have hd : s.drop (g.length + 1) = after := by
      rw [← hafter, List.drop_left' (by simp)]
    simp only [hd] at h
    have hsplit := List.takeWhile_append_dropWhile (fun c => c != ')') after
    split at h
    · rename_i a r rest htake hdrop
      simp only [Option.some.injEq, Prod.mk.injEq] at h
      obtain ⟨h1, h2⟩ := h
      subst h2
      rw [hdrop, h1] at hsplit
      refine ⟨?_, ?_, ?_⟩
      · rw [← hafter, ← hsplit]
        simp
      · rw [← h1, htake]
        exact List.cons_ne_nil _ _
      · intro hmem
        rw [← h1] at hmem
        have := List.mem_takeWhile_imp hmem
        simp at this
    · cases h
  · cases h

theorem replaceTrig_cons_cases (g : List Char) (hg : g ≠ []) (c : Char) (t : List Char) :
    replaceTrig g (c :: t) = c :: replaceTrig g t ∨
    ∃ arg post, c :: t = g ++ '(' :: (arg ++ ')' :: post) ∧ arg ≠ [] ∧ ')' ∉ arg ∧
      replaceTrig g (c :: t) = degCall g arg ++ replaceTrig g post := by
  cases hm : matchTrig g (c :: t) with
  | none => exact Or.inl (replaceTrigGo_step hm)
  | some pair =>
    obtain ⟨arg, post⟩ := pair
    obtain ⟨hs, hne, harg⟩ := matchTrig_some hm
    refine Or.inr ⟨arg, post, hs, hne, harg, ?_⟩
    rw [hs]
    exact replaceTrig_call g arg post hg hne harg

theorem parenBalance_append (a b : List Char) :
    parenBalance (a ++ b) = parenBalance a + parenBalance b := by
  unfold parenBalance
  rw [List.count_append, List.count_append]
  push_cast
  ring

theorem parenBalance_degCall (g arg : List Char) :
    parenBalance (degCall g arg) = parenBalance (g ++ '(' :: (arg ++ [')'])) := by
  have e : parenBalance [')', ' ', '*', ' ', 'p', 'i', ' ', '/', ' ', '1', '8', '0', ')'] = -2 := by
    decide
  have e2 : parenBalance ['(', '('] = 2 := by decide
  have e3 : parenBalance ('(' :: (arg ++ [')'])) = parenBalance arg := by
    rw [parenBalance_cons, parenBalance_append]
    have : parenBalance [')'] = -1 := by decide
    rw [this]
    simp
  unfold degCall
  rw [parenBalance_append, parenBalance_append, parenBalance_append, parenBalance_append, e, e2, e3]
  ring

theorem parenBalance_replaceTrig (g : List Char) (hg : g ≠ []) (s : List Char) :
    parenBalance (replaceTrig g s) = parenBalance s := by
  generalize hn : s.length = n
  induction n using Nat.strong_induction_on generalizing s with
  | _ n ih =>
    cases s with
    | nil => rfl
    | cons c t =>
      rcases replaceTrig_cons_cases g hg c t with h | ⟨arg, post, hs, _, _, h⟩
      · rw [h, parenBalance_cons, parenBalance_cons, ih t.length (by rw [← hn]; simp) t rfl]
      · have hlen : post.length < n := by
          rw [← hn, hs]
          simp
          omega
        rw [h, hs, parenBalance_append, ih post.length hlen post rfl, parenBalance_degCall]
        have e : g ++ '(' :: (arg ++ ')' :: post) = (g ++ '(' :: (arg ++ [')'])) ++ post := by simp
        rw [e]
        simp only [parenBalance_append]

theorem validateParenthesesGo_open (b : Int) (r : List Char) :
    validateParenthesesGo b ('(' :: r) = validateParenthesesGo (b + 1) r := by
  rw [validateParenthesesGo]
  simp

theorem validateParenthesesGo_close (b : Int) (r : List Char) (hb : 1 ≤ b) :
    validateParenthesesGo b (')' :: r) = validateParenthesesGo (b - 1) r := by
  rw [validateParenthesesGo]
  have h1 : ((')' : Char) == '(') = false := by decide
  have h3 : ¬ b - 1 < 0 := by omega
  simp [h1, h3]

theorem validateParenthesesGo_other (b : Int) (c : Char) (r : List Char)
    (h1 : (c == '(') = false) (h2 : (c == ')') = false) :
    validateParenthesesGo b (c :: r) = validateParenthesesGo b r := by
  rw [validateParenthesesGo]
  simp [h1, h2]

theorem validateParenthesesGo_append_open (a r : List Char) (ha : ')' ∉ a) (b : Int) :
    validateParenthesesGo b (a ++ r) = validateParenthesesGo (b + parenBalance a) r ∧
      0 ≤ parenBalance a := by
  induction a generalizing b with
  | nil => simp [parenBalance_nil]
  | cons c a ih =>
    have hc : c ≠ ')' := fun h => ha (h ▸ List.mem_cons_self _ _)
    have ha2 : ')' ∉ a := fun h => ha (List.mem_cons_of_mem _ h)
    have h2 : (c == ')') = false := by simpa using hc
    rw [List.cons_append, parenBalance_cons]
    by_cases h1 : (c == '(') = true
    · have : c = '(' := by simpa using h1
      subst this
      rw [validateParenthesesGo_open, (ih ha2 (b + 1)).1]
      have := (ih ha2 b).2
      simp only [beq_self_eq_true, if_true]
      exact ⟨by rw [Int.add_assoc], by omega⟩
    · simp only [Bool.not_eq_true] at h1
      rw [validateParenthesesGo_other b c _ h1 h2, (ih ha2 b).1]
      have := (ih ha2 b).2
      simp only [h1, h2, Bool.false_eq_true, if_false]
      exact ⟨by rw [Int.zero_add], by omega⟩

theorem validateParenthesesGo_degTail (b : Int) (r : List Char) (hb : 2 ≤ b) :
    validateParenthesesGo b
        ([')', ' ', '*', ' ', 'p', 'i', ' ', '/', ' ', '1', '8', '0', ')'] ++ r) =
      validateParenthesesGo (b - 2) r := by
  simp only [List.cons_append, List.nil_append]
  rw [validateParenthesesGo_close b _ (by omega),
    validateParenthesesGo_other _ ' ' _ (by decide) (by decide),
    validateParenthesesGo_other _ '*' _ (by decide) (by decide),
    validateParenthesesGo_other _ ' ' _ (by decide) (by decide),
    validateParenthesesGo_other _ 'p' _ (by decide) (by decide),
    validateParenthesesGo_other _ 'i' _ (by decide) (by decide),
    validateParenthesesGo_other _ ' ' _ (by decide) (by decide),
    validateParenthesesGo_other _ '/' _ (by decide) (by decide),
    validateParenthesesGo_other _ ' ' _ (by decide) (by decide),
    validateParenthesesGo_other _ '1' _ (by decide) (by decide),
    validateParenthesesGo_other _ '8' _ (by decide) (by decide),
    validateParenthesesGo_other _ '0' _ (by decide) (by decide),
    validateParenthesesGo_close _ _ (by omega)]
  congr 1
  omega

theorem validateParenthesesGo_call (g arg post : List Char) (hg : ')' ∉ g) (harg : ')' ∉ arg)
    (b : Int) (hb : 0 ≤ b) :
    validateParenthesesGo b (g ++ '(' :: (arg ++ ')' :: post)) =
      validateParenthesesGo (b + parenBalance g + parenBalance arg) post ∧
    0 ≤ b + parenBalance g + parenBalance arg := by
  have h1 := validateParenthesesGo_append_open g ('(' :: (arg ++ ')' :: post)) hg b
  have h2 := validateParenthesesGo_append_open arg (')' :: post) harg (b + parenBalance g + 1)
  rw [h1.1, validateParenthesesGo_open, h2.1, validateParenthesesGo_close _ _ (by omega)]
  refine ⟨?_, by omega⟩
  congr 1
  omega

theorem validateParenthesesGo_degCall (g arg rest : List Char) (hg : ')' ∉ g)
    (harg : ')' ∉ arg) (b : Int) (hb : 0 ≤ b) :
    validateParenthesesGo b (degCall g arg ++ rest) =
      validateParenthesesGo (b + parenBalance g + parenBalance arg) rest := by
  have e : degCall g arg ++ rest =
      g ++ '(' :: '(' :: (arg ++
        ([')', ' ', '*', ' ', 'p', 'i', ' ', '/', ' ', '1', '8', '0', ')'] ++ rest)) := by
    simp [degCall]
  have h1 := validateParenthesesGo_append_open g
    ('(' :: '(' :: (arg ++
        ([')', ' ', '*', ' ', 'p', 'i', ' ', '/', ' ', '1', '8', '0', ')'] ++ rest))) hg b
  have h2 := validateParenthesesGo_append_open arg
    ([')', ' ', '*', ' ', 'p', 'i', ' ', '/', ' ', '1', '8', '0', ')'] ++ rest) harg
    (b + parenBalance g + 1 + 1)
  rw [e, h1.1, validateParenthesesGo_open, validateParenthesesGo_open, h2.1,
    validateParenthesesGo_degTail _ _ (by omega)]
  congr 1
  omega

theorem validateParenthesesGo_replaceTrig (g : List Char) (hg : g ≠ []) (hclose : ')' ∉ g)
    (s : List Char) (b : Int) (hb : 0 ≤ b) :
    validateParenthesesGo b (replaceTrig g s) = validateParenthesesGo b s := by
  generalize hn : s.length = n
  induction n using Nat.strong_induction_on generalizing s b with
  | _ n ih =>
    cases s with
    | nil => rfl
    | cons c t =>
      rcases replaceTrig_cons_cases g hg c t with h | ⟨arg, post, hs, _, harg, h⟩
      · have iht := fun b2 hb2 => ih t.length (by rw [← hn]; simp) t b2 hb2 rfl
        rw [h, validateParenthesesGo, validateParenthesesGo]
        split
        · exact iht _ (by omega)
        · split
          · split
            · rfl
            · exact iht _ (by omega)
          · exact iht _ hb
      · have hlen : post.length < n := by
          rw [← hn, hs]
          simp
          omega
        have hc := validateParenthesesGo_call g arg post hclose harg b hb
        rw [h, hs, validateParenthesesGo_degCall g arg _ hclose harg b hb, hc.1]
        exact ih post.length hlen post _ hc.2 rfl

theorem validateParenthesesGo_replacePi (s : List Char) (b : Int) :
    validateParenthesesGo b (replacePi s) = validateParenthesesGo b s := by
  induction s generalizing b with
  | nil => rfl
  | cons c t ih =>
    rw [replacePi_cons]
    by_cases hc : c = 'π'
    · subst hc
      simp only [beq_self_eq_true, if_true, List.cons_append, List.nil_append]
      rw [validateParenthesesGo_other _ 'p' _ (by decide) (by decide),
        validateParenthesesGo_other _ 'i' _ (by decide) (by decide),
        validateParenthesesGo_other _ 'π' _ (by decide) (by decide)]
      exact ih b
    · have : (c == 'π') = false := by simpa using hc
      simp only [this, Bool.false_eq_true, if_false, List.cons_append, List.nil_append]
      rw [validateParenthesesGo, validateParenthesesGo]
      simp only [ih]

theorem validateParenthesesGo_convertTrig (s : List Char) (b : Int) (hb : 0 ≤ b) :
    validateParenthesesGo b (convertTrigFunctionsToDeg s) = validateParenthesesGo b s := by
  unfold convertTrigFunctionsToDeg
  rw [validateParenthesesGo_replaceTrig _ (by decide) (by decide) _ b hb,
    validateParenthesesGo_replaceTrig _ (by decide) (by decide) _ b hb,
    validateParenthesesGo_replaceTrig _ (by decide) (by decide) _ b hb]

theorem parenBalance_convertTrig (s : List Char) :
    parenBalance (convertTrigFunctionsToDeg s) = parenBalance s := by
  unfold convertTrigFunctionsToDeg
  rw [parenBalance_replaceTrig _ (by decide), parenBalance_replaceTrig _ (by decide),
    parenBalance_replaceTrig _ (by decide)]

theorem exists_closing_prefix_iff (s : List Char) :
    (∃ p, p <+: s ∧ p.count '(' < p.count ')') ↔
      validateParenthesesGo 0 s = .error .unbalancedParentheses := by
  obtain ⟨h1, h2⟩ := validateParenthesesGo_spec s 0 (le_refl 0)
  have hconv : (∃ p, p <+: s ∧ (0 : Int) + parenBalance p < 0) ↔
      ∃ p, p <+: s ∧ p.count '(' < p.count ')' := by
    constructor
    · rintro ⟨p, hp, hlt⟩
      refine ⟨p, hp, ?_⟩
      unfold parenBalance at hlt
      omega
    · rintro ⟨p, hp, hlt⟩
      refine ⟨p, hp, ?_⟩
      unfold parenBalance
      omega
  constructor
  · intro h
    exact h1 (hconv.mpr h)
  · intro h
    by_contra hno
    rw [h2 (fun hex => hno (hconv.mp hex))] at h
    cases h

theorem validateParenthesesGo_preprocess (angleMode s : List Char) :
    validateParenthesesGo 0 (preprocessExpression angleMode s) = validateParenthesesGo 0 s := by
  unfold preprocessExpression
  simp only
  split
  · rw [validateParenthesesGo_convertTrig _ 0 (le_refl 0), validateParenthesesGo_replacePi]
  · rw [validateParenthesesGo_replacePi]

theorem validateParentheses_preprocess (angleMode s : List Char) :
    validateParentheses (preprocessExpression angleMode s) = validateParentheses s := by
  unfold validateParentheses
  rw [validateParenthesesGo_preprocess]

/-- C27: the degree-mode rewrite keeps the balance of parentheses.  For every text
`s`, `_convertTrigFunctionsToDeg(s)` has the same number of `(` minus the number
of `)` as `s`; when no start of `s` has more `)` than `(`, no start of the
rewritten text has; and a text accepted by the parenthesis check is still
accepted after `_preprocessExpression`, whatever the angle mode. -/
theorem convertTrigFunctionsToDeg_keeps_balance (s : List Char) :
    parenBalance (convertTrigFunctionsToDeg s) = parenBalance s ∧
    ((¬ ∃ p, p <+: s ∧ p.count '(' < p.count ')') →
      ¬ ∃ p, p <+: convertTrigFunctionsToDeg s ∧ p.count '(' < p.count ')') ∧
    (validateParentheses s = .ok () →
      ∀ angleMode, validateParentheses (preprocessExpression angleMode s) = .ok ()) := by
  refine ⟨parenBalance_convertTrig s, ?_, ?_⟩
  · rw [exists_closing_prefix_iff, exists_closing_prefix_iff,
      validateParenthesesGo_convertTrig s 0 (le_refl 0)]
    exact id
  · intro h angleMode
    rw [validateParentheses_preprocess, h]

/-- The text `sin((1+2)+3)`, whose argument the pattern cuts at the first `)`, is
balanced, and so is its rewritten form `sin(((1+2) * pi / 180)+3)`. -/
theorem convertTrigFunctionsToDeg_keeps_balance_witness :
    validateParentheses "sin((1+2)+3)".toList = .ok () ∧
    preprocessExpression "DEG".toList "sin((1+2)+3)".toList =
      "sin(((1+2) * pi / 180)+3)".toList ∧
    validateParentheses (preprocessExpression "DEG".toList "sin((1+2)+3)".toList) = .ok () :=
  ⟨by decide, by decide,
    (convertTrigFunctionsToDeg_keeps_balance "sin((1+2)+3)".toList).2.2 (by decide)
      "DEG".toList⟩

/-! ## Display formatting of expressions -/

theorem removeWhitespace_append (a b : List Char) :
    removeWhitespace (a ++ b) = removeWhitespace a ++ removeWhitespace b := by
  unfold removeWhitespace
  exact List.filter_append _ _

theorem removeWhitespace_cons (c : Char) (s : List Char) :
    removeWhitespace (c :: s) =
      if isWhitespace c then removeWhitespace s else c :: removeWhitespace s := by
  unfold removeWhitespace
  by_cases h : isWhitespace c = true
  · simp [List.filter_cons, h]
  · simp [List.filter_cons, h]

theorem removeWhitespace_replaceChar (target glyph : Char) (s : List Char)
    (ht : isWhitespace target = false) (hg : isWhitespace glyph = false) :
    removeWhitespace (replaceChar target [' ', glyph, ' '] s) =
      (removeWhitespace s).map (fun c => if c == target then glyph else c) := by
  have hsp : isWhitespace ' ' = true := by decide
  induction s with
  | nil => rfl
  | cons c rest ih =>
    have e : replaceChar target [' ', glyph, ' '] (c :: rest) =
        (if c == target then [' ', glyph, ' '] else [c]) ++
          replaceChar target [' ', glyph, ' '] rest := by
      simp [replaceChar]
    rw [e, removeWhitespace_append, ih, removeWhitespace_cons]
    by_cases hc : c = target
    · subst hc
      have hnil : removeWhitespace [] = [] := rfl
      simp [removeWhitespace_cons, hsp, hg, ht, hnil]
    · have hb : (c == target) = false := by simpa using hc
      have hnil : removeWhitespace [] = [] := rfl
      by_cases hw : isWhitespace c = true
      · simp [hb, removeWhitespace_cons, hw, hnil]
      · simp [hb, removeWhitespace_cons, hw, hnil, hc]

theorem removeWhitespace_replaceMinusGo (previous : Option Char) (s : List Char) :
    removeWhitespace (replaceMinusGo previous s) = removeWhitespace s := by
  induction s generalizing previous with
  | nil => rfl
  | cons c rest ih =>
    rw [replaceMinusGo, removeWhitespace_append, ih, removeWhitespace_cons]
    split
    · rename_i h
      have hc : c = '-' := by
        simp only [Bool.and_eq_true, beq_iff_eq] at h
        exact h.1.1
      subst hc
      have h1 : removeWhitespace [' ', '-', ' '] = ['-'] := by decide
      have h2 : isWhitespace '-' = false := by decide
      rw [h1, h2]
      rfl
    · by_cases hw : isWhitespace c = true
      · simp [removeWhitespace_cons, hw, removeWhitespace]
      · simp [removeWhitespace_cons, hw, removeWhitespace]

theorem removeWhitespace_collapseWhitespaceGo (inRun : Bool) (s : List Char) :
    removeWhitespace (collapseWhitespaceGo inRun s) = removeWhitespace s := by
  have hsp : isWhitespace ' ' = true := by decide
  induction s generalizing inRun with
  | nil => rfl
  | cons c rest ih =>
    rw [collapseWhitespaceGo, removeWhitespace_cons c]
    by_cases hw : isWhitespace c = true
    · simp only [hw, if_true]
      split
      · exact ih true
      · rw [removeWhitespace_cons, hsp, if_pos rfl]
        exact ih true
    · simp only [hw, if_false, Bool.false_eq_true]
      rw [removeWhitespace_cons]
      simp only [hw, if_false, Bool.false_eq_true]
      rw [ih false]

theorem removeWhitespace_dropWhile (s : List Char) :
    removeWhitespace (s.dropWhile isWhitespace) = removeWhitespace s := by
  induction s with
  | nil => rfl
  | cons c rest ih =>
    rw [List.dropWhile_cons, removeWhitespace_cons c]
    by_cases hw : isWhitespace c = true
    · simp only [hw, if_true]
      exact ih
    · simp only [hw, if_false, Bool.false_eq_true]
      rw [removeWhitespace_cons]
      simp only [hw, if_false, Bool.false_eq_true]

theorem removeWhitespace_reverse (s : List Char) :
    removeWhitespace s.reverse = (removeWhitespace s).reverse := by
  unfold removeWhitespace
  exact List.filter_reverse _ _

theorem removeWhitespace_trim (s : List Char) :
    removeWhitespace (trim s) = removeWhitespace s := by
  unfold trim
  rw [removeWhitespace_reverse, removeWhitespace_dropWhile, removeWhitespace_reverse,
    List.reverse_reverse, removeWhitespace_dropWhile]

theorem removeWhitespace_formatExpression (x : List Char) :
    removeWhitespace (formatExpression x) = (removeWhitespace x).map displayOperator := by
  unfold formatExpression
  simp only
  rw [removeWhitespace_trim, removeWhitespace_collapseWhitespaceGo,
    removeWhitespace_replaceMinusGo,
    removeWhitespace_replaceChar '+' '+' _ (by decide) (by decide),
    removeWhitespace_replaceChar '/' '÷' _ (by decide) (by decide),
    removeWhitespace_replaceChar '*' '×' _ (by decide) (by decide),
    List.map_map, List.map_map]
  apply List.map_congr_left
  intro c _
  simp only [Function.comp, displayOperator]
  by_cases h1 : c = '*'
  · subst h1; decide
  · by_cases h2 : c = '/'
    · subst h2; decide
    · have e1 : (c == '*') = false := by simpa using h1
      have e2 : (c == '/') = false := by simpa using h2
      simp only [e1, e2, Bool.false_eq_true, if_false]
      by_cases h3 : c = '+'
      · subst h3; decide
      · have e3 : (c == '+') = false := by simpa using h3
        simp [e3]

theorem isValidChar_displayOperator (c : Char) :
    isValidChar (displayOperator c) = isValidChar c := by
  unfold displayOperator
  by_cases h1 : c = '*'
  · subst h1; decide
  · by_cases h2 : c = '/'
    · subst h2; decide
    · have e1 : (c == '*') = false := by simpa using h1
      have e2 : (c == '/') = false := by simpa using h2
      simp [e1, e2]

theorem validateCharacters_displayOperator (p : List Char) :
    validateCharacters (p.map displayOperator) = validateCharacters p := by
  unfold validateCharacters
  have h1 : (p.map displayOperator ≠ []) ↔ p ≠ [] := by simp
  have h2 : (p.map displayOperator).all isValidChar = p.all isValidChar := by
    rw [List.all_map]
    congr 1
    funext c
    exact isValidChar_displayOperator c
  rw [h2]
  by_cases hp : p = []
  · subst hp; rfl
  · have : p.map displayOperator ≠ [] := h1.mpr hp
    simp [hp, this]

theorem convertOperators_displayOperator (p : List Char) :
    convertOperators (p.map displayOperator) = convertOperators p := by
  rw [convertOperators_eq_map, convertOperators_eq_map, List.map_map]
  apply List.map_congr_left
  intro c _
  simp only [Function.comp, displayOperator, convertOperator]
  by_cases h1 : c = '*'
  · subst h1; decide
  · by_cases h2 : c = '/'
    · subst h2; decide
    · have e1 : (c == '*') = false := by simpa using h1
      have e2 : (c == '/') = false := by simpa using h2
      simp [e1, e2]

theorem parseCore_displayOperator (p : List Char) :
    parseCore (p.map displayOperator) = parseCore p := by
  unfold parseCore
  rw [validateCharacters_displayOperator, convertOperators_displayOperator]

theorem parse_formatExpression_eq (x : List Char) :
    parse (formatExpression x) = parse x := by
  by_cases h : removeWhitespace x = []
  · rw [parse_of_removeWhitespace_nil h, parse_of_removeWhitespace_nil]
    rw [removeWhitespace_formatExpression, h]
    rfl
  · have h2 : removeWhitespace (formatExpression x) ≠ [] := by
      rw [removeWhitespace_formatExpression]
      simpa using h
    rw [parse_of_removeWhitespace_ne_nil h, parse_of_removeWhitespace_ne_nil h2,
      removeWhitespace_formatExpression, parseCore_displayOperator]

/-- C28: display formatting is undone by parsing: for every text `x`,
`parse(formatExpression(x))` is `parse(x)`, the same text when `parse(x)`
succeeds and the same error when it fails.  `formatExpression` only puts in
whitespace and writes `×` for `*` and `÷` for `/`; `parse` drops all whitespace
and writes the two glyphs back. -/
theorem parse_formatExpression (x : List Char) :
    parse (formatExpression x) = parse x ∧
    (∀ y, parse x = .ok y → parse (formatExpression x) = .ok y) ∧
    (∀ err, parse x = .error err → parse (formatExpression x) = .error err) :=
  ⟨parse_formatExpression_eq x,
    fun y h => by rw [parse_formatExpression_eq, h],
    fun err h => by rw [parse_formatExpression_eq, h]⟩

/-! ## Complex results -/

theorem validateResult_complex (lib : Library) (re im : JsNumber) :
    validateResult lib (.complex re im) =
      if (lib.objectToNumber (.complex re im)).isFinite = true then
        .error "Complex numbers are not supported".toList
      else if (lib.objectToNumber (.complex re im)).isNaN = true then
        .error "Invalid mathematical operation".toList
      else .error "Division by zero or result too large".toList := by
  unfold validateResult Library.toNumber
  cases h : (lib.objectToNumber (.complex re im)).isFinite
  · simp
  · simp

theorem evaluateBody_complex (lib : Library) (angleMode expression : List Char)
    (re im : JsNumber)
    (h : lib.mathEvaluate (preprocessExpression angleMode expression) = .ok (.complex re im)) :
    evaluateBody lib angleMode expression =
      if (lib.objectToNumber (.complex re im)).isFinite = true then
        .error "Complex numbers are not supported".toList
      else if (lib.objectToNumber (.complex re im)).isNaN = true then
        .error "Invalid mathematical operation".toList
      else .error "Division by zero or result too large".toList := by
  unfold evaluateBody
  simp only [h, convertBigNumber]
  rw [validateResult_complex]
  by_cases h1 : (lib.objectToNumber (.complex re im)).isFinite = true
  · simp only [h1, if_true]
  · by_cases h2 : (lib.objectToNumber (.complex re im)).isNaN = true
    · simp only [h1, h2, if_true, if_false, Bool.false_eq_true]
    · simp only [h1, h2, if_false, Bool.false_eq_true]

theorem evaluate_complex_cases (lib : Library) (angleMode expression : List Char)
    (re im : JsNumber) (hne : ¬ IsBlank expression)
    (h : lib.mathEvaluate (preprocessExpression angleMode expression) = .ok (.complex re im)) :
    evaluate lib angleMode expression =
      if (lib.objectToNumber (.complex re im)).isFinite = true then
        .error "Calculation error: Complex numbers are not supported".toList
      else if (lib.objectToNumber (.complex re im)).isNaN = true then
        .error "Calculation error: Invalid mathematical operation".toList
      else .error "Calculation error: Division by zero or result too large".toList := by
  have e1 : handleEvaluationError "Complex numbers are not supported".toList =
      "Calculation error: Complex numbers are not supported".toList := by decide
  have e2 : handleEvaluationError "Invalid mathematical operation".toList =
      "Calculation error: Invalid mathematical operation".toList := by decide
  have e3 : handleEvaluationError "Division by zero or result too large".toList =
      "Calculation error: Division by zero or result too large".toList := by decide
  rw [evaluate_of_not_blank lib angleMode expression hne,
    evaluateBody_complex lib angleMode expression re im h]
  by_cases h1 : (lib.objectToNumber (.complex re im)).isFinite = true
  · simp only [h1, if_true, e1]
  · by_cases h2 : (lib.objectToNumber (.complex re im)).isNaN = true
    · simp only [h1, h2, if_true, if_false, Bool.false_eq_true, e2]
    · simp only [h1, h2, if_false, Bool.false_eq_true, e3]

/-- C14: for a complex result (such as the value of `sqrt(-1)`) the error
`evaluate` throws never carries the message `Complex numbers are not supported`,
whatever number the library coerces the value to in `isFinite`.  When the
coercion gives `NaN` the check of `isFinite` fails first and the message is
`Calculation error: Invalid mathematical operation`; when it gives an infinity
the message is `Calculation error: Division by zero or result too large`; when
it gives a finite number the check for complex values is reached, and its error
goes through `_handleEvaluationError`, which makes the message
`Calculation error: Complex numbers are not supported`. -/
theorem evaluate_complex_wrapped (lib : Library) (angleMode expression : List Char)
    (re im : JsNumber) (hne : ¬ IsBlank expression)
    (h : lib.mathEvaluate (preprocessExpression angleMode expression) = .ok (.complex re im)) :
    evaluate lib angleMode expression ≠ .error "Complex numbers are not supported".toList ∧
    ((lib.objectToNumber (.complex re im)).isNaN = true →
      evaluate lib angleMode expression =
        .error "Calculation error: Invalid mathematical operation".toList) ∧
    ((lib.objectToNumber (.complex re im)).isFinite = false →
      (lib.objectToNumber (.complex re im)).isNaN = false →
      evaluate lib angleMode expression =
        .error "Calculation error: Division by zero or result too large".toList) ∧
    ((lib.objectToNumber (.complex re im)).isFinite = true →
      evaluate lib angleMode expression =
        .error "Calculation error: Complex numbers are not supported".toList) := by
  have hc := evaluate_complex_cases lib angleMode expression re im hne h
  refine ⟨?_, ?_, ?_, ?_⟩
  · rw [hc]
    split
    · exact fun e => absurd (Except.error.inj e) (by decide)
    · split
      · exact fun e => absurd (Except.error.inj e) (by decide)
      · exact fun e => absurd (Except.error.inj e) (by decide)
  · intro hnan
    have hfin : ¬ (lib.objectToNumber (.complex re im)).isFinite = true := by
      cases hx : lib.objectToNumber (.complex re im) <;> simp_all [JsNumber.isNaN, JsNumber.isFinite]
    rw [hc, if_neg hfin, if_pos hnan]
  · intro hfin hnan
    rw [hc, if_neg (by simp [hfin]), if_neg (by simp [hnan])]
  · intro hfin
    rw [hc, if_pos hfin]

/-- With an evaluator that returns the complex value `i` for `sqrt(-1)`:
a library that coerces the value to `NaN` gives `Calculation error: Invalid
mathematical operation`, and one that coerces it to `0` gives `Calculation
error: Complex numbers are not supported`. -/
theorem evaluate_complex_wrapped_witness :
    evaluate (coercingLibrary (.complex (.finite 0) (.finite 1)) .nan) "DEG".toList
        "sqrt(-1)".toList =
      .error "Calculation error: Invalid mathematical operation".toList ∧
    evaluate (coercingLibrary (.complex (.finite 0) (.finite 1)) (.finite 0)) "DEG".toList
        "sqrt(-1)".toList =
      .error "Calculation error: Complex numbers are not supported".toList :=
  ⟨(evaluate_complex_wrapped (coercingLibrary (.complex (.finite 0) (.finite 1)) .nan)
      "DEG".toList "sqrt(-1)".toList (.finite 0) (.finite 1)
      (fun h => absurd (h 's' (by decide)) (by decide)) rfl).2.1 rfl,
    (evaluate_complex_wrapped
      (coercingLibrary (.complex (.finite 0) (.finite 1)) (.finite 0))
      "DEG".toList "sqrt(-1)".toList (.finite 0) (.finite 1)
      (fun h => absurd (h 's' (by decide)) (by decide)) rfl).2.2.2 rfl⟩

/-! ## Round trips of formatting -/

theorem formatNumber_of_fixed (m : NumberMethods) (x : JsNumber) (k : Nat)
    (hfin : x.isFinite = true) (hint : x.isInteger = false)
    (hsmall : x.absBelowSmall = false) (hlarge : x.absAboveLarge = false) :
    formatNumber m x k = numberToString m (m.parseFloat (m.toFixed k x)) := by
  unfold formatNumber formatFinite
  simp [hfin, hint, hsmall, hlarge]

theorem formatNumber_round_trip_of_integer (m : NumberMethods) (x : JsNumber) (k : Nat)
    (hint : x.isInteger = true) (hread : m.parseFloat (numberToString m x) = x) :
    formatNumber m (m.parseFloat (formatNumber m x k)) k = formatNumber m x k := by
  rw [formatNumber_of_isInteger m x k hint, hread, formatNumber_of_isInteger m x k hint]

theorem formatNumber_round_trip_of_fixed (m : NumberMethods) (x : JsNumber) (k : Nat)
    (hfin : x.isFinite = true) (hint : x.isInteger = false)
    (hsmall : x.absBelowSmall = false) (hlarge : x.absAboveLarge = false)
    (hread : m.parseFloat (numberToString m (m.parseFloat (m.toFixed k x))) =
      m.parseFloat (m.toFixed k x))
    (hshown : (m.parseFloat (m.toFixed k x)).isInteger = true ∨
      ((m.parseFloat (m.toFixed k x)).isFinite = true ∧
        (m.parseFloat (m.toFixed k x)).absBelowSmall = false ∧
        (m.parseFloat (m.toFixed k x)).absAboveLarge = false ∧
        m.parseFloat (m.toFixed k (m.parseFloat (m.toFixed k x))) =
          m.parseFloat (m.toFixed k x))) :
    formatNumber m (m.parseFloat (formatNumber m x k)) k = formatNumber m x k := by
  rw [formatNumber_of_fixed m x k hfin hint hsmall hlarge, hread]
  rcases hshown with h | ⟨h1, h2, h3, h4⟩
  · exact formatNumber_of_isInteger m _ k h
  · by_cases h : (m.parseFloat (m.toFixed k x)).isInteger = true
    · exact formatNumber_of_isInteger m _ k h
    · rw [formatNumber_of_fixed m _ k h1 (by simpa using h) h2 h3, h4]

/-- C19 (amended): formatting round-trips on every finite value that is not
written in scientific notation, that is, on every integer and on every value
with `0.000001 ≤ |x| ≤ 1e10`: formatting the parsed text of `formatNumber(x)`
gives `formatNumber(x)` again, and the same holds for `_formatResult`.  The
built-in methods enter with facts that hold of them at the values involved:
`parseFloat` reads the text of `toString` back as the number it was written
from, and the number shown for a value in fixed notation, `parseFloat` of
`toFixed`, is an integer or lies in the same range and is shown as itself. -/
theorem formatNumber_round_trip_plain (lib : Library) (m : NumberMethods) (x : JsNumber)
    (k : Nat) (hfin : x.isFinite = true)
    (hplain : x.isInteger = true ∨ (x.absBelowSmall = false ∧ x.absAboveLarge = false))
    (hinteger : x.isInteger = true → m.parseFloat (numberToString m x) = x)
    (hfixed : x.isInteger = false →
      m.parseFloat (numberToString m (m.parseFloat (m.toFixed k x))) =
        m.parseFloat (m.toFixed k x) ∧
      ((m.parseFloat (m.toFixed k x)).isInteger = true ∨
        ((m.parseFloat (m.toFixed k x)).isFinite = true ∧
          (m.parseFloat (m.toFixed k x)).absBelowSmall = false ∧
          (m.parseFloat (m.toFixed k x)).absAboveLarge = false ∧
          m.parseFloat (m.toFixed k (m.parseFloat (m.toFixed k x))) =
            m.parseFloat (m.toFixed k x)))) :
    formatNumber m (m.parseFloat (formatNumber m x k)) k = formatNumber m x k ∧
    (k = maxDecimalPlaces →
      formatResult lib m (.number (m.parseFloat (formatResult lib m (.number x)))) =
        formatResult lib m (.number x)) := by
  have main : formatNumber m (m.parseFloat (formatNumber m x k)) k = formatNumber m x k := by
    by_cases hint : x.isInteger = true
    · exact formatNumber_round_trip_of_integer m x k hint (hinteger hint)
    · have hint2 : x.isInteger = false := by simpa using hint
      rcases hplain with h | ⟨hs, hl⟩
      · exact absurd h hint
      · exact formatNumber_round_trip_of_fixed m x k hfin hint2 hs hl (hfixed hint2).1
          (hfixed hint2).2
  refine ⟨main, ?_⟩
  intro hk
  subst hk
  rw [formatResult_number, formatResult_number]
  exact main

theorem half_facts :
    (JsNumber.finite (1 / 2)).isInteger = false ∧
    (JsNumber.finite (1 / 2)).absBelowSmall = false ∧
    (JsNumber.finite (1 / 2)).absAboveLarge = false := by
  refine ⟨?_, ?_, ?_⟩
  · exact not_isInteger_of_between (1 / 2) 0 (by norm_num) (by norm_num)
  · simp only [JsNumber.absBelowSmall, smallThreshold, decide_eq_false_iff_not, not_lt]
    rw [abs_of_pos (by norm_num)]
    norm_num
  · simp only [JsNumber.absAboveLarge, decide_eq_false_iff_not, not_lt]
    rw [abs_of_pos (by norm_num)]
    norm_num

theorem halfMethods_facts :
    halfMethods.parseFloat (halfMethods.toFixed 10 (.finite (1 / 2))) = .finite (1 / 2) ∧
    numberToString halfMethods (.finite (1 / 2)) = "0.5".toList ∧
    halfMethods.parseFloat "0.5".toList = .finite (1 / 2) := by
  refine ⟨?_, ?_, ?_⟩
  · simp [halfMethods]
  · have hden : ¬ ((1 / 2 : ℚ).den = 1 ∧ (1 / 2 : ℚ).num.natAbs < 2 ^ 53) := by
      intro h
      have h2 := half_facts.1
      simp only [JsNumber.isInteger, decide_eq_false_iff_not] at h2
      exact h2 h.1
    show (if (1 / 2 : ℚ).den = 1 ∧ (1 / 2 : ℚ).num.natAbs < 2 ^ 53 then _ else _) = _
    rw [if_neg hden]
    simp [halfMethods]
  · simp [halfMethods]

/-- Witness of the amended C19 at `0.5`, a value written in fixed notation:
`formatNumber(0.5)` is `'0.5'` and formatting the parsed text gives `'0.5'`
again. -/
theorem formatNumber_round_trip_plain_witness :
    formatNumber halfMethods (.finite (1 / 2)) 10 = "0.5".toList ∧
    formatNumber halfMethods
        (halfMethods.parseFloat (formatNumber halfMethods (.finite (1 / 2)) 10)) 10 =
      formatNumber halfMethods (.finite (1 / 2)) 10 :=
  have hf := halfMethods_facts
  have hh := half_facts
  ⟨by rw [formatNumber_of_fixed halfMethods (.finite (1 / 2)) 10 rfl hh.1 hh.2.1 hh.2.2, hf.1,
      hf.2.1],
    (formatNumber_round_trip_plain (constLibrary (.number .nan)) halfMethods (.finite (1 / 2))
      10 rfl (Or.inr ⟨hh.2.1, hh.2.2⟩) (fun h => absurd h (by rw [hh.1]; decide))
      (fun _ => ⟨by rw [hf.1, hf.2.1, hf.2.2],
        Or.inr ⟨by rw [hf.1]; rfl, by rw [hf.1]; exact hh.2.1, by rw [hf.1]; exact hh.2.2,
          by rw [hf.1, hf.1]⟩⟩)).1⟩

/-! ## Calls behind other text -/

theorem no_straddle (g f s r : List Char) (hg : g.length = 3) (hf : f.length = 3)
    (hfo : '(' ∉ f) (hs : s ≠ []) (hns : ¬ (g ++ ['(']) <+: s) :
    ¬ (g ++ ['(']) <+: s ++ (f ++ '(' :: r) := by
  intro hp
  rcases List.prefix_or_prefix_of_prefix hp (List.prefix_append s _) with h | h
  · exact hns h
  · obtain ⟨u, hu⟩ := h
    rw [← hu] at hp
    have hup : u <+: f ++ '(' :: r := (List.prefix_append_right_inj s).mp hp
    have hlen : s.length + u.length = 4 := by
      have := congrArg List.length hu
      simp only [List.length_append, List.length_cons, List.length_nil] at this
      omega
    have hspos : 0 < s.length := List.length_pos.mpr hs
    have hune : u ≠ [] := by
      rintro rfl
      rw [List.append_nil] at hu
      exact hns (hu ▸ List.prefix_refl _)
    have hmem : '(' ∈ u := by
      have hrev := congrArg List.reverse hu
      rw [List.reverse_append, List.reverse_append] at hrev
      cases hur : u.reverse with
      | nil => exact absurd (List.reverse_eq_nil_iff.mp hur) hune
      | cons c rest =>
        rw [hur] at hrev
        have hc : c = '(' := by
          have := congrArg List.head? hrev
          simpa using this
        have : c ∈ u.reverse := hur ▸ List.mem_cons_self _ _
        exact hc ▸ List.mem_reverse.mp this
    have huf : u <+: f :=
      List.prefix_of_prefix_length_le hup (List.prefix_append f _) (by omega)
    exact hfo (huf.subset hmem)

theorem replaceTrig_copy_no_start (g w r : List Char)
    (h : ∀ s, s ≠ [] → s <:+ w → ¬ (g ++ ['(']) <+: s ++ r) :
    replaceTrig g (w ++ r) = w ++ replaceTrig g r := by
  unfold replaceTrig
  induction w with
  | nil => rfl
  | cons c w ih =>
    have hnone : matchTrig g (c :: (w ++ r)) = none :=
      matchTrig_none_of_no_start (h (c :: w) (List.cons_ne_nil _ _) (List.suffix_refl _))
    rw [List.cons_append, replaceTrigGo_step hnone,
      ih (fun s hs hsuf => h s hs (hsuf.trans (List.suffix_cons c w)))]
    rfl

theorem replaceTrig_nil (g : List Char) : replaceTrig g [] = [] := rfl

theorem ends_closed_tail {c : Char} {t y : List Char} (h : c :: t = y ++ [')']) :
    t = [] ∨ ∃ y2, t = y2 ++ [')'] := by
  cases y with
  | nil =>
    left
    simp only [List.nil_append, List.cons.injEq] at h
    exact h.2
  | cons d y2 =>
    right
    simp only [List.cons_append, List.cons.injEq] at h
    exact ⟨y2, h.2⟩

theorem ends_closed_post {m post y : List Char} (h : m ++ ')' :: post = y ++ [')']) :
    post = [] ∨ ∃ y2, post = y2 ++ [')'] := by
  rcases List.eq_nil_or_concat post with hp | ⟨init, last, hp⟩
  · exact Or.inl hp
  · right
    rw [List.concat_eq_append] at hp
    rw [hp] at h
    have e : m ++ ')' :: (init ++ [last]) = (m ++ ')' :: init) ++ [last] := by simp
    rw [e] at h
    have := List.append_inj' h rfl
    have hl : last = ')' := by
      have h2 := this.2
      simpa using h2
    exact ⟨init, by rw [hp, hl]⟩

theorem match_within_closed {g arg rest y r : List Char} (hg : ')' ∉ g) (harg : ')' ∉ arg)
    (h : (y ++ [')']) ++ r = g ++ '(' :: (arg ++ ')' :: rest) ) :
    ∃ post, y ++ [')'] = g ++ '(' :: (arg ++ ')' :: post) ∧ rest = post ++ r := by
  have hm : ')' ∉ g ++ '(' :: arg := by
    intro hmem
    rcases List.mem_append.mp hmem with h1 | h1
    · exact hg h1
    · rcases List.mem_cons.mp h1 with h2 | h2
      · exact absurd h2 (by decide)
      · exact harg h2
  have e : g ++ '(' :: (arg ++ ')' :: rest) = ((g ++ '(' :: arg) ++ [')']) ++ rest := by simp
  rw [e] at h
  have hp1 : (y ++ [')']) <+: ((g ++ '(' :: arg) ++ [')']) ++ rest := ⟨r, h⟩
  have hp2 : ((g ++ '(' :: arg) ++ [')']) <+: ((g ++ '(' :: arg) ++ [')']) ++ rest :=
    List.prefix_append _ _
  rcases List.prefix_or_prefix_of_prefix hp1 hp2 with hq | hq
  · rcases List.prefix_concat_iff.mp hq with h1 | h1
    · refine ⟨[], by rw [h1]; simp, ?_⟩
      rw [h1] at h
      have := List.append_cancel_left h
      rw [List.nil_append]
      exact this.symm
    · exact absurd (h1.subset (by simp)) hm
  · obtain ⟨post, hpost⟩ := hq
    refine ⟨post, by rw [← hpost]; simp, ?_⟩
    rw [← hpost, List.append_assoc] at h
    exact (List.append_cancel_left h).symm

theorem replaceTrig_append_closed (g : List Char) (hgne : g ≠ []) (hg : ')' ∉ g)
    (p r : List Char) (hp : p = [] ∨ ∃ y, p = y ++ [')']) :
    replaceTrig g (p ++ r) = replaceTrig g p ++ replaceTrig g r := by
  generalize hn : p.length = n
  induction n using Nat.strong_induction_on generalizing p with
  | _ n ih =>
    cases p with
    | nil => rfl
    | cons c t =>
      rcases hp with hp | ⟨y, hy⟩
      · cases hp
      · cases hm : matchTrig g (c :: (t ++ r)) with
        | none =>
          have hm2 : matchTrig g (c :: t) = none := by
            cases hm3 : matchTrig g (c :: t) with
            | none => rfl
            | some pair =>
              obtain ⟨arg, post⟩ := pair
              obtain ⟨hs, hne, harg⟩ := matchTrig_some hm3
              have := matchTrig_call g arg (post ++ r) hne harg
              have e : c :: (t ++ r) = g ++ '(' :: (arg ++ ')' :: (post ++ r)) := by
                rw [← List.cons_append, hs]
                simp
              rw [e, this] at hm
              cases hm
          have iht := ih t.length (by rw [← hn]; simp) t (ends_closed_tail hy) rfl
          show replaceTrig g (c :: (t ++ r)) = _
          unfold replaceTrig at iht ⊢
          rw [replaceTrigGo_step hm, replaceTrigGo_step hm2, iht]
          rfl
        | some pair =>
          obtain ⟨arg, rest⟩ := pair
          obtain ⟨hs, hne, harg⟩ := matchTrig_some hm
          have htext : (y ++ [')']) ++ r = g ++ '(' :: (arg ++ ')' :: rest) := by
            rw [← hy, ← hs]
            rfl
          obtain ⟨post, hpost, hrest⟩ := match_within_closed hg harg htext
          have hlen : post.length < n := by
            rw [← hn, hy, hpost]
            simp
            omega
          have hpc : post = [] ∨ ∃ y2, post = y2 ++ [')'] := by
            have e : g ++ '(' :: (arg ++ ')' :: post) = (g ++ '(' :: arg) ++ ')' :: post := by
              simp
            exact ends_closed_post (e ▸ hpost.symm)
          rw [hy, hpost]
          have e2 : g ++ '(' :: (arg ++ ')' :: post) ++ r =
              g ++ '(' :: (arg ++ ')' :: (post ++ r)) := by simp
          rw [e2, replaceTrig_call g arg (post ++ r) hgne hne harg,
            replaceTrig_call g arg post hgne hne harg, ih post.length hlen post hpc rfl,
            List.append_assoc]

theorem replaceTrig_ends_closed (g : List Char) (hgne : g ≠ []) (y : List Char) :
    ∃ z, replaceTrig g (y ++ [')']) = z ++ [')'] := by
  generalize hn : y.length = n
  induction n using Nat.strong_induction_on generalizing y with
  | _ n ih =>
    cases hp : y ++ [')'] with
    | nil => simp at hp
    | cons c t =>
      rcases replaceTrig_cons_cases g hgne c t with h | ⟨arg, post, hs, _, _, h⟩
      · rw [h]
        rcases ends_closed_tail hp.symm with ht | ⟨y2, ht⟩
        · refine ⟨[], ?_⟩
          rw [ht] at hp ⊢
          have hc : c = ')' := by
            cases y with
            | nil =>
              have h2 := hp.symm
              simpa using h2
            | cons d y3 =>
              have := congrArg List.length hp
              simp at this
          rw [hc]
          rfl
        · have hlen : y2.length < n := by
            have := congrArg List.length hp
            rw [ht] at this
            simp only [List.length_append, List.length_cons, List.length_nil] at this
            omega
          obtain ⟨z, hz⟩ := ih y2.length hlen y2 rfl
          exact ⟨c :: z, by rw [ht, hz]; rfl⟩
      · rw [h]
        have hp2 : (g ++ '(' :: arg) ++ ')' :: post = y ++ [')'] := by
          rw [hp, hs]
          simp
        rcases ends_closed_post hp2 with hpost | ⟨y2, hpost⟩
        · refine ⟨g ++ ['(', '('] ++ arg ++
            [')', ' ', '*', ' ', 'p', 'i', ' ', '/', ' ', '1', '8', '0'], ?_⟩
          rw [hpost, replaceTrig_nil, List.append_nil]
          simp [degCall]
        · have hlen : y2.length < n := by
            have := congrArg List.length hp2
            rw [hpost] at this
            simp only [List.length_append, List.length_cons, List.length_nil] at this
            omega
          obtain ⟨z, hz⟩ := ih y2.length hlen y2 rfl
          exact ⟨degCall g arg ++ z, by rw [hpost, hz, List.append_assoc]⟩

theorem ends_closed_replaceTrig (g : List Char) (hgne : g ≠ []) (p : List Char)
    (hp : p = [] ∨ ∃ y, p = y ++ [')']) :
    replaceTrig g p = [] ∨ ∃ z, replaceTrig g p = z ++ [')'] := by
  rcases hp with rfl | ⟨y, rfl⟩
  · exact Or.inl rfl
  · exact Or.inr (replaceTrig_ends_closed g hgne y)

theorem replaceTrig_behind (g f p1 p2 r : List Char) (hgne : g ≠ []) (hg : ')' ∉ g)
    (hglen : g.length = 3) (hflen : f.length = 3) (hfo : '(' ∉ f)
    (hp1 : p1 = [] ∨ ∃ y, p1 = y ++ [')'])
    (hp2 : ∀ s, s ≠ [] → s <:+ p2 → ¬ (g ++ ['(']) <+: s) :
    replaceTrig g (p1 ++ (p2 ++ (f ++ '(' :: r))) =
      replaceTrig g p1 ++ (p2 ++ replaceTrig g (f ++ '(' :: r)) := by
  rw [replaceTrig_append_closed g hgne hg p1 _ hp1,
    replaceTrig_copy_no_start g p2 _
      (fun s hs hsuf => no_straddle g f s r hglen hflen hfo hs (hp2 s hs hsuf))]

theorem replaceTrig_plain (g p1 p2 : List Char) (hgne : g ≠ []) (hg : ')' ∉ g)
    (hp1 : p1 = [] ∨ ∃ y, p1 = y ++ [')'])
    (hp2 : ∀ s, s ≠ [] → s <:+ p2 → ¬ (g ++ ['(']) <+: s) :
    replaceTrig g (p1 ++ p2) = replaceTrig g p1 ++ p2 := by
  rw [replaceTrig_append_closed g hgne hg p1 _ hp1]
  have := replaceTrig_copy_no_start g p2 []
    (fun s hs hsuf => by rw [List.append_nil]; exact hp2 s hs hsuf)
  rw [List.append_nil, replaceTrig_nil, List.append_nil] at this
  rw [this]

theorem replaceTrig_self_behind (f p1 p2 arg post : List Char) (hfne : f ≠ [])
    (hf : ')' ∉ f) (hflen : f.length = 3) (hfo : '(' ∉ f)
    (hp1 : p1 = [] ∨ ∃ y, p1 = y ++ [')'])
    (hp2 : ∀ s, s ≠ [] → s <:+ p2 → ¬ (f ++ ['(']) <+: s)
    (hne : arg ≠ []) (harg : ')' ∉ arg) :
    replaceTrig f (p1 ++ (p2 ++ (f ++ '(' :: (arg ++ ')' :: post)))) =
      replaceTrig f p1 ++ (p2 ++ (degCall f arg ++ replaceTrig f post)) := by
  rw [replaceTrig_behind f f p1 p2 _ hfne hf hflen hflen hfo hp1 hp2,
    replaceTrig_call f arg post hfne hne harg]

theorem replaceTrig_other_behind (g f p1 p2 arg post : List Char) (hgne : g ≠ [])
    (hg : ')' ∉ g) (hglen : g.length = 3) (hflen : f.length = 3) (hfo : '(' ∉ f)
    (hp1 : p1 = [] ∨ ∃ y, p1 = y ++ [')'])
    (hp2 : ∀ s, s ≠ [] → s <:+ p2 → ¬ (g ++ ['(']) <+: s)
    (harg : '(' ∉ arg) (hc1 : clashes g (f ++ ['(']) = true)
    (hc2 : clashes g [')'] = true) :
    replaceTrig g (p1 ++ (p2 ++ (f ++ '(' :: (arg ++ ')' :: post)))) =
      replaceTrig g p1 ++ (p2 ++ (f ++ '(' :: (arg ++ ')' :: replaceTrig g post))) := by
  rw [replaceTrig_behind g f p1 p2 _ hgne hg hglen hflen hfo hp1 hp2]
  have := replaceTrig_other_call g f [] arg post (by simp) hfo (by omega) hg harg hc1 hc2
  rw [List.nil_append, List.nil_append] at this
  rw [this]

theorem replaceTrig_other_deg_behind (g f p1 p2 arg post : List Char) (hgne : g ≠ [])
    (hg : ')' ∉ g) (hglen : g.length = 3) (hflen : f.length = 3) (hfo : '(' ∉ f)
    (hp1 : p1 = [] ∨ ∃ y, p1 = y ++ [')'])
    (hp2 : ∀ s, s ≠ [] → s <:+ p2 → ¬ (g ++ ['(']) <+: s)
    (harg : '(' ∉ arg) (hc1 : clashes g (f ++ ['(', '(']) = true)
    (hc2 : clashes g ") * pi / 180)".toList = true) :
    replaceTrig g (p1 ++ (p2 ++ (degCall f arg ++ post))) =
      replaceTrig g p1 ++ (p2 ++ (degCall f arg ++ replaceTrig g post)) := by
  have e : degCall f arg ++ post =
      f ++ '(' :: ('(' :: (arg ++ (") * pi / 180)".toList ++ post))) := by
    simp [degCall]
  rw [e, replaceTrig_behind g f p1 p2 _ hgne hg hglen hflen hfo hp1 hp2, ← e]
  have := replaceTrig_other_degCall g f [] arg post (by simp) hfo (by omega) hg harg hc1 hc2
  rw [List.nil_append, List.nil_append] at this
  rw [this]

theorem convertTrig_plain (p1 p2 : List Char) (hp1 : p1 = [] ∨ ∃ y, p1 = y ++ [')'])
    (hp2 : ∀ g, g = ['s', 'i', 'n'] ∨ g = ['c', 'o', 's'] ∨ g = ['t', 'a', 'n'] →
      ∀ s, s ≠ [] → s <:+ p2 → ¬ (g ++ ['(']) <+: s) :
    convertTrigFunctionsToDeg (p1 ++ p2) = convertTrigFunctionsToDeg p1 ++ p2 := by
  have h2 := ends_closed_replaceTrig ['s', 'i', 'n'] (by decide) p1 hp1
  have h3 := ends_closed_replaceTrig ['c', 'o', 's'] (by decide) _ h2
  unfold convertTrigFunctionsToDeg
  rw [replaceTrig_plain _ p1 p2 (by decide) (by decide) hp1 (hp2 _ (Or.inl rfl)),
    replaceTrig_plain _ _ p2 (by decide) (by decide) h2 (hp2 _ (Or.inr (Or.inl rfl))),
    replaceTrig_plain _ _ p2 (by decide) (by decide) h3 (hp2 _ (Or.inr (Or.inr rfl)))]

theorem convertTrig_call_behind (f p1 p2 arg post : List Char)
    (hf : f = ['s', 'i', 'n'] ∨ f = ['c', 'o', 's'] ∨ f = ['t', 'a', 'n'])
    (hp1 : p1 = [] ∨ ∃ y, p1 = y ++ [')'])
    (hp2 : ∀ g, g = ['s', 'i', 'n'] ∨ g = ['c', 'o', 's'] ∨ g = ['t', 'a', 'n'] →
      ∀ s, s ≠ [] → s <:+ p2 → ¬ (g ++ ['(']) <+: s)
    (hne : arg ≠ []) (hopen : '(' ∉ arg) (hclose : ')' ∉ arg) :
    convertTrigFunctionsToDeg (p1 ++ (p2 ++ (f ++ '(' :: (arg ++ ')' :: post)))) =
      convertTrigFunctionsToDeg p1 ++ (p2 ++ (degCall f arg ++ convertTrigFunctionsToDeg post)) := by
  have h2 := ends_closed_replaceTrig ['s', 'i', 'n'] (by decide) p1 hp1
  have h3 := ends_closed_replaceTrig ['c', 'o', 's'] (by decide) _ h2
  have s1 := hp2 _ (Or.inl rfl)
  have s2 := hp2 _ (Or.inr (Or.inl rfl))
  have s3 := hp2 _ (Or.inr (Or.inr rfl))
  unfold convertTrigFunctionsToDeg
  rcases hf with rfl | rfl | rfl
  · rw [replaceTrig_self_behind _ p1 p2 arg post (by decide) (by decide) (by decide)
        (by decide) hp1 s1 hne hclose,
      replaceTrig_other_deg_behind _ _ _ p2 arg _ (by decide) (by decide) (by decide)
        (by decide) (by decide) h2 s2 hopen (by decide) (by decide),
      replaceTrig_other_deg_behind _ _ _ p2 arg _ (by decide) (by decide) (by decide)
        (by decide) (by decide) h3 s3 hopen (by decide) (by decide)]
  · rw [replaceTrig_other_behind _ _ p1 p2 arg post (by decide) (by decide) (by decide)
        (by decide) (by decide) hp1 s1 hopen (by decide) (by decide),
      replaceTrig_self_behind _ _ p2 arg _ (by decide) (by decide) (by decide)
        (by decide) h2 s2 hne hclose,
      replaceTrig_other_deg_behind _ _ _ p2 arg _ (by decide) (by decide) (by decide)
        (by decide) (by decide) h3 s3 hopen (by decide) (by decide)]
  · rw [replaceTrig_other_behind _ _ p1 p2 arg post (by decide) (by decide) (by decide)
        (by decide) (by decide) hp1 s1 hopen (by decide) (by decide),
      replaceTrig_other_behind _ _ _ p2 arg _ (by decide) (by decide) (by decide)
        (by decide) (by decide) h2 s2 hopen (by decide) (by decide),
      replaceTrig_self_behind _ _ p2 arg _ (by decide) (by decide) (by decide)
        (by decide) h3 s3 hne hclose]

theorem replacePi_head_step {x : Char} {w s : List Char} (hx : x ≠ 'p')
    (h : (x :: w) <+: replacePi s) : ∃ t, s = x :: t ∧ w <+: replacePi t := by
  cases s with
  | nil =>
    have : replacePi [] = [] := rfl
    rw [this] at h
    exact absurd (List.prefix_nil.mp h) (List.cons_ne_nil _ _)
  | cons c t =>
    rw [replacePi_cons] at h
    by_cases hc : (c == 'π') = true
    · simp only [hc, if_true, List.cons_append, List.nil_append] at h
      exact absurd (List.cons_prefix_cons.mp h).1 hx
    · simp only [hc, if_false, Bool.false_eq_true, List.cons_append, List.nil_append] at h
      obtain ⟨h1, h2⟩ := List.cons_prefix_cons.mp h
      exact ⟨t, by rw [h1], h2⟩

theorem starts_of_replacePi (g s : List Char)
    (hg : g = ['s', 'i', 'n'] ∨ g = ['c', 'o', 's'] ∨ g = ['t', 'a', 'n'])
    (h : (g ++ ['(']) <+: replacePi s) : (g ++ ['(']) <+: s := by
  have key : ∀ a b c : Char, a ≠ 'p' → b ≠ 'p' → c ≠ 'p' →
      [a, b, c, '('] <+: replacePi s → [a, b, c, '('] <+: s := by
    intro a b c ha hb hc hp
    obtain ⟨t1, e1, p1⟩ := replacePi_head_step ha hp
    obtain ⟨t2, e2, p2⟩ := replacePi_head_step hb p1
    obtain ⟨t3, e3, p3⟩ := replacePi_head_step hc p2
    obtain ⟨t4, e4, _⟩ := replacePi_head_step (by decide : '(' ≠ 'p') p3
    rw [e1, e2, e3, e4]
    exact ⟨t4, rfl⟩
  rcases hg with rfl | rfl | rfl
  · exact key _ _ _ (by decide) (by decide) (by decide) h
  · exact key _ _ _ (by decide) (by decide) (by decide) h
  · exact key _ _ _ (by decide) (by decide) (by decide) h

theorem occurs_of_replacePi (g : List Char)
    (hg : g = ['s', 'i', 'n'] ∨ g = ['c', 'o', 's'] ∨ g = ['t', 'a', 'n'])
    (q a v : List Char) (h : replacePi q = a ++ (g ++ '(' :: v)) :
    ∃ a2 v2, q = a2 ++ (g ++ '(' :: v2) := by
  induction q generalizing a with
  | nil =>
    have : replacePi [] = [] := rfl
    rw [this] at h
    have hlen := congrArg List.length h
    simp only [List.length_nil, List.length_append, List.length_cons] at hlen
    omega
  | cons c t ih =>
    cases a with
    | nil =>
      have hp : (g ++ ['(']) <+: replacePi (c :: t) := by
        rw [h]
        exact ⟨v, by simp⟩
      obtain ⟨v2, hv2⟩ := starts_of_replacePi g (c :: t) hg hp
      exact ⟨[], v2, by rw [← hv2]; simp⟩
    | cons d a1 =>
      rw [replacePi_cons] at h
      by_cases hc : (c == 'π') = true
      · simp only [hc, if_true, List.cons_append, List.nil_append, List.cons.injEq] at h
        obtain ⟨_, h2⟩ := h
        cases a1 with
        | nil =>
          exfalso
          rcases hg with rfl | rfl | rfl <;> simp at h2
        | cons e a2 =>
          simp only [List.cons_append, List.cons.injEq] at h2
          obtain ⟨a3, v3, h3⟩ := ih a2 h2.2
          exact ⟨c :: a3, v3, by rw [h3]; rfl⟩
      · simp only [hc, if_false, Bool.false_eq_true, List.cons_append, List.nil_append,
          List.cons.injEq] at h
        obtain ⟨a3, v3, h3⟩ := ih a1 h.2
        exact ⟨c :: a3, v3, by rw [h3]; rfl⟩

theorem split_last_close (pre : List Char) :
    ∃ q1 q2, pre = q1 ++ q2 ∧ (q1 = [] ∨ ∃ y, q1 = y ++ [')']) ∧ ')' ∉ q2 := by
  induction pre with
  | nil => exact ⟨[], [], rfl, Or.inl rfl, by simp⟩
  | cons c t ih =>
    obtain ⟨q1, q2, h1, h2, h3⟩ := ih
    rcases h2 with rfl | ⟨y, rfl⟩
    · by_cases hc : c = ')'
      · exact ⟨[')'], q2, by rw [h1, hc]; rfl, Or.inr ⟨[], rfl⟩, h3⟩
      · refine ⟨[], c :: q2, by rw [h1]; rfl, Or.inl rfl, ?_⟩
        intro hmem
        rcases List.mem_cons.mp hmem with h | h
        · exact hc h.symm
        · exact h3 h
    · exact ⟨c :: (y ++ [')']), q2, by rw [h1]; rfl, Or.inr ⟨c :: y, rfl⟩, h3⟩

theorem replacePi_ends_closed (q1 : List Char) (h : q1 = [] ∨ ∃ y, q1 = y ++ [')']) :
    replacePi q1 = [] ∨ ∃ y, replacePi q1 = y ++ [')'] := by
  rcases h with rfl | ⟨y, rfl⟩
  · exact Or.inl rfl
  · right
    refine ⟨replacePi y, ?_⟩
    rw [replacePi_append]
    rfl

theorem preprocess_split (pre : List Char)
    (hpre : ∀ g, g = ['s', 'i', 'n'] ∨ g = ['c', 'o', 's'] ∨ g = ['t', 'a', 'n'] →
      ∀ a b, pre = a ++ (g ++ '(' :: b) → ')' ∈ b) :
    ∃ p1 p2, replacePi pre = p1 ++ p2 ∧ (p1 = [] ∨ ∃ y, p1 = y ++ [')']) ∧
      ∀ g, g = ['s', 'i', 'n'] ∨ g = ['c', 'o', 's'] ∨ g = ['t', 'a', 'n'] →
        ∀ s, s ≠ [] → s <:+ p2 → ¬ (g ++ ['(']) <+: s := by
  obtain ⟨q1, q2, h1, h2, h3⟩ := split_last_close pre
  refine ⟨replacePi q1, replacePi q2, by rw [h1, replacePi_append],
    replacePi_ends_closed q1 h2, ?_⟩
  intro g hg s _ hsuf hp
  obtain ⟨a, ha⟩ := hsuf
  obtain ⟨v, hv⟩ := hp
  have hocc : replacePi q2 = a ++ (g ++ '(' :: v) := by
    rw [← ha, ← hv]
    simp
  obtain ⟨a2, v2, hq⟩ := occurs_of_replacePi g hg q2 a v hocc
  have hmem := hpre g hg (q1 ++ a2) v2 (by rw [h1, hq]; simp)
  exact h3 (by rw [hq]; simp [hmem])

theorem preprocess_deg_of_no_open (pre : List Char) (h : '(' ∉ pre) :
    preprocessExpression "DEG".toList pre = replacePi pre := by
  have hno : '(' ∉ replacePi pre := by
    intro hmem
    rcases mem_replacePi hmem with h1 | h1 | h1
    · exact absurd h1 (by decide)
    · exact absurd h1 (by decide)
    · exact h h1
  unfold preprocessExpression
  simp only [if_true]
  have := convertTrig_plain [] (replacePi pre) (Or.inl rfl)
    (fun g _ s _ hsuf hp => hno (hsuf.subset (hp.subset (by simp))))
  rw [List.nil_append] at this
  rw [this]
  rfl

/-- C11 (amended): in DEG mode, for every expression in which a call `f(arg)`
with `f` among `sin`, `cos`, `tan` has an argument that is non-empty and
contains no parenthesis, and in which every `sin(`, `cos(` or `tan(` before the
call is followed by a `)` before the call (the call does not lie inside the
argument that the pattern takes for an earlier call), preprocessing rewrites
that call to `f((arg) * pi / 180)` (with every `π` written `pi`) and treats the
text before the call and the text behind it as it would on their own.  A text
before the call without `(` is only copied, with every `π` written `pi`. -/
theorem preprocess_deg_call (f pre arg post : List Char)
    (hf : f = ['s', 'i', 'n'] ∨ f = ['c', 'o', 's'] ∨ f = ['t', 'a', 'n'])
    (hpre : ∀ g, g = ['s', 'i', 'n'] ∨ g = ['c', 'o', 's'] ∨ g = ['t', 'a', 'n'] →
      ∀ a b, pre = a ++ (g ++ '(' :: b) → ')' ∈ b)
    (hne : arg ≠ []) (hopen : '(' ∉ arg) (hclose : ')' ∉ arg) :
    preprocessExpression "DEG".toList (pre ++ (f ++ '(' :: (arg ++ ')' :: post))) =
      preprocessExpression "DEG".toList pre ++
        (degCall f (replacePi arg) ++ preprocessExpression "DEG".toList post) ∧
    ('(' ∉ pre → preprocessExpression "DEG".toList pre = replacePi pre) := by
  refine ⟨?_, preprocess_deg_of_no_open pre⟩
  have hfix : replacePi f = f := by
    rcases hf with rfl | rfl | rfl <;> decide
  have hno : ∀ (c : Char) (s : List Char), c ∉ s → c ≠ 'p' → c ≠ 'i' → c ∉ replacePi s :=
    fun c s hs h1 h2 hmem => by
      rcases mem_replacePi hmem with h | h | h
      · exact h1 h
      · exact h2 h
      · exact hs h
  obtain ⟨p1, p2, hsplit, hp1, hp2⟩ := preprocess_split pre hpre
  have e : replacePi (pre ++ (f ++ '(' :: (arg ++ ')' :: post))) =
      p1 ++ (p2 ++ (f ++ '(' :: (replacePi arg ++ ')' :: replacePi post))) := by
    rw [replacePi_append, replacePi_append, hfix, replacePi_cons, replacePi_append,
      replacePi_cons, hsplit, List.append_assoc]
    rfl
  unfold preprocessExpression
  simp only [if_true]
  rw [e, hsplit, convertTrig_call_behind f p1 p2 _ _ hf hp1 hp2 (replacePi_ne_nil hne)
      (hno _ _ hopen (by decide) (by decide)) (hno _ _ hclose (by decide) (by decide)),
    convertTrig_plain p1 p2 hp1 hp2, List.append_assoc]

/-- Witnesses of the amended C11 at expressions of the unit tests:
`(2+3)*sin(90)`, where the text before the call holds parentheses, `2*sin(30)+3`
and `sqrt(4)+sin(30)`. -/
theorem preprocess_deg_call_witness :
    preprocessExpression "DEG".toList "(2+3)*sin(90)".toList =
      "(2+3)*sin((90) * pi / 180)".toList ∧
    preprocessExpression "DEG".toList
        ("(2+3)*".toList ++ (['s', 'i', 'n'] ++ '(' :: ("90".toList ++ ')' :: []))) =
      preprocessExpression "DEG".toList "(2+3)*".toList ++
        (degCall ['s', 'i', 'n'] (replacePi "90".toList) ++
          preprocessExpression "DEG".toList []) ∧
    preprocessExpression "DEG".toList "sqrt(4)+sin(30)".toList =
      "sqrt(4)+sin((30) * pi / 180)".toList :=
  ⟨by decide,
    (preprocess_deg_call ['s', 'i', 'n'] "(2+3)*".toList "90".toList [] (Or.inl rfl)
      (by
        intro g hg a b h
        have hlen := congrArg List.length h
        rcases hg with rfl | rfl | rfl <;>
          simp only [String.toList, List.length_append, List.length_cons,
            List.length_nil] at hlen <;>
          (have ha : a.length ≤ 2 := by omega) <;>
          (rcases a with _ | ⟨a0, _ | ⟨a1, _ | ⟨a2, a3⟩⟩⟩ <;> simp at h ha))
      (by decide) (by decide) (by decide)).1,
    by decide⟩

end CalculatorEngine

namespace StateManager

/-! ## The state manager -/

/-- C20: a manager constructed while storage holds the saved object of the unit
test under `'calculator-state'` reports the default state, not the saved one:
`angleMode` `'DEG'`, `theme` `'dark'`, empty history.  Loading with the key
`'calculator-state'` would give the saved values. -/
theorem create_ignores_saved_state :
    (Manager.create sampleParse [("calculator-state".toList, savedSampleText)]).getState =
      .ok defaultState ∧
    (loadState sampleParse (some "calculator-state".toList)
        [("calculator-state".toList, savedSampleText)]).angleMode = .string "RAD".toList := by
  decide

/-! ## Validation and update of the state -/

theorem isInvalid_iff (value : Option Value) (first second : List Char) :
    isInvalid value first second = true ↔ CarriesOther value first second := by
  unfold isInvalid CarriesOther isDefined
  cases value with
  | none => simp
  | some v =>
    cases v with
    | undefined => simp
    | string text => simp
    | items entries => simp
    | array entries => simp
    | other tag => simp

theorem validateUpdates_ne_none_iff (updates : Partial) :
    validateUpdates updates ≠ none ↔
      CarriesOther updates.angleMode "DEG".toList "RAD".toList ∨
      CarriesOther updates.theme "light".toList "dark".toList ∨
      CarriesOther updates.mode "calculator".toList "converter".toList := by
  rw [← isInvalid_iff, ← isInvalid_iff, ← isInvalid_iff]
  unfold validateUpdates
  by_cases h1 : isInvalid updates.angleMode "DEG".toList "RAD".toList = true
  · rw [if_pos h1]
    exact ⟨fun _ => Or.inl h1, fun _ => by simp⟩
  · rw [if_neg h1]
    by_cases h2 : isInvalid updates.theme "light".toList "dark".toList = true
    · rw [if_pos h2]
      exact ⟨fun _ => Or.inr (Or.inl h2), fun _ => by simp⟩
    · rw [if_neg h2]
      by_cases h3 : isInvalid updates.mode "calculator".toList "converter".toList = true
      · rw [if_pos h3]
        exact ⟨fun _ => Or.inr (Or.inr h3), fun _ => by simp⟩
      · rw [if_neg h3]
        constructor
        · intro h
          exact absurd rfl h
        · rintro (h | h | h)
          · exact absurd h h1
          · exact absurd h h2
          · exact absurd h h3

theorem saveState_manager (js : Partial → List Char) (w : World) :
    (saveState js w).manager = w.manager := by
  unfold saveState
  split <;> rfl

theorem saveState_calls (js : Partial → List Char) (w : World) :
    (saveState js w).calls = w.calls := by
  unfold saveState
  split <;> rfl

theorem getState_ok_iff (manager : Manager) :
    (∃ copy, manager.getState = .ok copy) ↔ manager.state.history.iterate ≠ none := by
  unfold Manager.getState
  cases manager.state.history.iterate with
  | none => simp
  | some entries => simp

theorem getState_of_iterate {manager : Manager} {entries : List Element}
    (h : manager.state.history.iterate = some entries) :
    manager.getState = .ok { manager.state with history := Value.ofEntries entries } := by
  unfold Manager.getState
  rw [h]

theorem getState_of_not_iterable {manager : Manager}
    (h : manager.state.history.iterate = none) :
    manager.getState = .error notIterableMessage := by
  unfold Manager.getState
  rw [h]

theorem ofEntries_map_item (entries : List HistoryItem) :
    Value.ofEntries (entries.map Element.item) = .items entries := by
  unfold Value.ofEntries
  have h1 : (entries.map Element.item).all Element.isItem = true := by
    simp [List.all_eq_true, Element.isItem]
  have h2 : (entries.map Element.item).filterMap Element.asItem = entries := by
    rw [List.filterMap_map]
    have : (Element.asItem ∘ Element.item) = (some : HistoryItem → Option HistoryItem) := rfl
    rw [this, List.filterMap_some]
  rw [if_pos h1, h2]

theorem getState_of_items {manager : Manager} {entries : List HistoryItem}
    (h : manager.state.history = .items entries) : manager.getState = .ok manager.state := by
  have hi : manager.state.history.iterate = some (entries.map Element.item) := by
    rw [h]
    rfl
  rw [getState_of_iterate hi, ofEntries_map_item, ← h]

theorem notifySubscribers_of_not_iterable (w : World)
    (h : w.manager.state.history.iterate = none) :
    notifySubscribers w = { thrown := some notIterableMessage, world := w } := by
  unfold notifySubscribers
  rw [getState_of_not_iterable h]

theorem notifySubscribers_of_iterate (w : World) (entries : List Element)
    (h : w.manager.state.history.iterate = some entries) :
    notifySubscribers w =
      { thrown := none
        world := { w with
          calls := w.calls ++ w.manager.subscribers.map
            (fun callback =>
              (callback, { w.manager.state with history := Value.ofEntries entries })) } } := by
  unfold notifySubscribers
  rw [getState_of_iterate h]

theorem notifySubscribers_manager (w : World) :
    (notifySubscribers w).world.manager = w.manager := by
  unfold notifySubscribers
  split <;> rfl

theorem notifySubscribers_localStorage (w : World) :
    (notifySubscribers w).world.localStorage = w.localStorage := by
  unfold notifySubscribers
  split <;> rfl

theorem notifySubscribers_thrown_eq_none_iff (w : World) :
    (notifySubscribers w).thrown = none ↔ w.manager.state.history.iterate ≠ none := by
  cases h : w.manager.state.history.iterate with
  | none =>
    rw [notifySubscribers_of_not_iterable w h]
    simp
  | some entries =>
    rw [notifySubscribers_of_iterate w entries h]
    simp

theorem updateState_of_invalid (js : Partial → List Char) (updates : Partial) (w : World)
    (h : validateUpdates updates ≠ none) :
    updateState js updates w = { thrown := validateUpdates updates, world := w } := by
  unfold updateState
  cases hv : validateUpdates updates with
  | none => exact absurd hv h
  | some message => rfl

theorem updateState_of_valid (js : Partial → List Char) (updates : Partial) (w : World)
    (h : validateUpdates updates = none) :
    updateState js updates w =
      notifySubscribers (saveState js
        { w with manager := { w.manager with state := w.manager.state.spread updates } }) := by
  unfold updateState
  simp only [h]

theorem updateState_state (js : Partial → List Char) (updates : Partial) (w : World)
    (h : validateUpdates updates = none) :
    (updateState js updates w).world.manager.state = w.manager.state.spread updates := by
  rw [updateState_of_valid js updates w h, notifySubscribers_manager, saveState_manager]

theorem updateState_subscribers (js : Partial → List Char) (updates : Partial) (w : World) :
    (updateState js updates w).world.manager.subscribers = w.manager.subscribers := by
  cases hv : validateUpdates updates with
  | some message =>
    rw [updateState_of_invalid js updates w (by rw [hv]; exact Option.some_ne_none _)]
  | none =>
    rw [updateState_of_valid js updates w hv, notifySubscribers_manager, saveState_manager]

theorem updateState_thrown_eq_none_iff (js : Partial → List Char) (updates : Partial)
    (w : World) :
    (updateState js updates w).thrown = none ↔
      validateUpdates updates = none ∧
        (updates.history.getD w.manager.state.history).iterate ≠ none := by
  cases hv : validateUpdates updates with
  | some message =>
    rw [updateState_of_invalid js updates w (by rw [hv]; exact Option.some_ne_none _), hv]
    simp
  | none =>
    rw [updateState_of_valid js updates w hv, notifySubscribers_thrown_eq_none_iff,
      saveState_manager]
    simp only [true_and]
    rfl

theorem spread_fields (state : State) (updates : Partial) :
    (∀ v, updates.currentValue = some v → (state.spread updates).currentValue = v) ∧
    (updates.currentValue = none → (state.spread updates).currentValue = state.currentValue) ∧
    (∀ v, updates.previousEquation = some v → (state.spread updates).previousEquation = v) ∧
    (updates.previousEquation = none →
      (state.spread updates).previousEquation = state.previousEquation) ∧
    (∀ v, updates.angleMode = some v → (state.spread updates).angleMode = v) ∧
    (updates.angleMode = none → (state.spread updates).angleMode = state.angleMode) ∧
    (∀ v, updates.theme = some v → (state.spread updates).theme = v) ∧
    (updates.theme = none → (state.spread updates).theme = state.theme) ∧
    (∀ v, updates.mode = some v → (state.spread updates).mode = v) ∧
    (updates.mode = none → (state.spread updates).mode = state.mode) ∧
    (∀ v, updates.history = some v → (state.spread updates).history = v) ∧
    (updates.history = none → (state.spread updates).history = state.history) := by
  unfold State.spread
  refine ⟨?_, ?_, ?_, ?_, ?_, ?_, ?_, ?_, ?_, ?_, ?_, ?_⟩ <;> intro h <;> simp_all

/-- C21: `updateState(updates)` does not raise exactly on the three kinds of
invalid property.  `updateState({ angleMode: undefined })` carries an
`angleMode` that is neither `'DEG'` nor `'RAD'` and returns: the test
`!== undefined` lets the value through and the state takes it.
`updateState({ history: 5 })` has none of the three properties and raises: it
passes validation, the state and the storage take the value, and then the
spread in `getState()` throws from `_notifySubscribers`, so that after the raise
the state is changed and the new state is stored. -/
theorem updateState_raises_otherwise :
    (updateState sampleStringify (angleModeOnly .undefined) (freshWorld false)).thrown = none ∧
    (updateState sampleStringify (angleModeOnly .undefined)
        (freshWorld false)).world.manager.state.angleMode = .undefined ∧
    (updateState sampleStringify (historyOnly (.other 5)) (freshWorld false)).thrown =
      some notIterableMessage ∧
    (updateState sampleStringify (historyOnly (.other 5))
        (freshWorld false)).world.manager.state.history = .other 5 ∧
    (updateState sampleStringify (historyOnly (.other 5))
        (freshWorld false)).world.localStorage.items =
      [("calculator-state".toList, "DEG".toList)] ∧
    (freshWorld false).localStorage.items = [] := by
  decide

theorem updateState_of_not_iterable (js : Partial → List Char) (updates : Partial) (w : World)
    (hv : validateUpdates updates = none)
    (hi : (updates.history.getD w.manager.state.history).iterate = none) :
    updateState js updates w =
      { thrown := some notIterableMessage
        world := saveState js
          { w with manager := { w.manager with state := w.manager.state.spread updates } } } := by
  rw [updateState_of_valid js updates w hv]
  apply notifySubscribers_of_not_iterable
  rw [saveState_manager]
  exact hi

/-- C21 (amended): `updateState(updates)` raises exactly when `updates` has an
`angleMode` that is not `undefined` and is neither `'DEG'` nor `'RAD'`, a `theme`
that is not `undefined` and is neither `'light'` nor `'dark'`, a `mode` that is
not `undefined` and is neither `'calculator'` nor `'converter'`, or when the
`history` of the new state is not iterable.  When a property is invalid, the
state, the storage, the subscribers and the record of calls to callbacks are as
before.  When only the `history` is at fault, the state has been assigned and
saved and no callback is called.  When the call returns, every property present
in `updates` has the given value and every other property has its previous
value. -/
theorem updateState_raises_iff (js : Partial → List Char) (updates : Partial) (w : World) :
    ((updateState js updates w).thrown ≠ none ↔
      CarriesOther updates.angleMode "DEG".toList "RAD".toList ∨
      CarriesOther updates.theme "light".toList "dark".toList ∨
      CarriesOther updates.mode "calculator".toList "converter".toList ∨
      (updates.history.getD w.manager.state.history).iterate = none) ∧
    (CarriesOther updates.angleMode "DEG".toList "RAD".toList ∨
      CarriesOther updates.theme "light".toList "dark".toList ∨
      CarriesOther updates.mode "calculator".toList "converter".toList →
      (updateState js updates w).world = w) ∧
    (¬ (CarriesOther updates.angleMode "DEG".toList "RAD".toList ∨
        CarriesOther updates.theme "light".toList "dark".toList ∨
        CarriesOther updates.mode "calculator".toList "converter".toList) →
      (updates.history.getD w.manager.state.history).iterate = none →
      (updateState js updates w).thrown = some notIterableMessage ∧
      (updateState js updates w).world =
        saveState js
          { w with manager := { w.manager with state := w.manager.state.spread updates } } ∧
      (updateState js updates w).world.manager.state = w.manager.state.spread updates ∧
      (updateState js updates w).world.calls = w.calls) ∧
    ((updateState js updates w).thrown = none →
      (updateState js updates w).world.manager.state = w.manager.state.spread updates ∧
      (∀ v, updates.currentValue = some v →
        (updateState js updates w).world.manager.state.currentValue = v) ∧
      (updates.currentValue = none →
        (updateState js updates w).world.manager.state.currentValue =
          w.manager.state.currentValue) ∧
      (∀ v, updates.previousEquation = some v →
        (updateState js updates w).world.manager.state.previousEquation = v) ∧
      (updates.previousEquation = none →
        (updateState js updates w).world.manager.state.previousEquation =
          w.manager.state.previousEquation) ∧
      (∀ v, updates.angleMode = some v →
        (updateState js updates w).world.manager.state.angleMode = v) ∧
      (updates.angleMode = none →
        (updateState js updates w).world.manager.state.angleMode = w.manager.state.angleMode) ∧
      (∀ v, updates.theme = some v →
        (updateState js updates w).world.manager.state.theme = v) ∧
      (updates.theme = none →
        (updateState js updates w).world.manager.state.theme = w.manager.state.theme) ∧
      (∀ v, updates.mode = some v →
        (updateState js updates w).world.manager.state.mode = v) ∧
      (updates.mode = none →
        (updateState js updates w).world.manager.state.mode = w.manager.state.mode) ∧
      (∀ v, updates.history = some v →
        (updateState js updates w).world.manager.state.history = v) ∧
      (updates.history = none →
        (updateState js updates w).world.manager.state.history = w.manager.state.history)) := by
  have hinv := validateUpdates_ne_none_iff updates
  have hthrown := updateState_thrown_eq_none_iff js updates w
  refine ⟨?_, ?_, ?_, ?_⟩
  · constructor
    · intro h
      by_cases hv : validateUpdates updates = none
      · have hi : (updates.history.getD w.manager.state.history).iterate = none := by
          by_contra hi
          exact h (hthrown.mpr ⟨hv, hi⟩)
        exact Or.inr (Or.inr (Or.inr hi))
      · rcases hinv.mp hv with h1 | h1 | h1
        · exact Or.inl h1
        · exact Or.inr (Or.inl h1)
        · exact Or.inr (Or.inr (Or.inl h1))
    · intro h hnone
      obtain ⟨hv, hi⟩ := hthrown.mp hnone
      rcases h with h1 | h1 | h1 | h1
      · exact hinv.mpr (Or.inl h1) hv
      · exact hinv.mpr (Or.inr (Or.inl h1)) hv
      · exact hinv.mpr (Or.inr (Or.inr h1)) hv
      · exact hi h1
  · intro h
    rw [updateState_of_invalid js updates w (hinv.mpr h)]
  · intro h hi
    have hv : validateUpdates updates = none := by
      by_contra hv
      exact h (hinv.mp hv)
    rw [updateState_of_not_iterable js updates w hv hi]
    exact ⟨rfl, rfl, by rw [saveState_manager], by rw [saveState_calls]⟩
  · intro h
    obtain ⟨hv, _⟩ := hthrown.mp h
    rw [updateState_state js updates w hv]
    exact ⟨rfl, spread_fields w.manager.state updates⟩

/-- The call `updateState({ theme: 'invalid' })` raises and leaves the world
as it was; `updateState({ angleMode: 'RAD' })` returns and sets `angleMode`
only. -/
theorem updateState_raises_iff_witness :
    (updateState sampleStringify (themeOnly (.string "invalid".toList))
        (freshWorld false)).thrown ≠ none ∧
    (updateState sampleStringify (themeOnly (.string "invalid".toList))
        (freshWorld false)).world = freshWorld false ∧
    (updateState sampleStringify (angleModeOnly (.string "RAD".toList))
        (freshWorld false)).world.manager.state =
      { defaultState with angleMode := .string "RAD".toList } :=
  have h1 : CarriesOther (themeOnly (.string "invalid".toList)).theme "light".toList
      "dark".toList := ⟨_, rfl, by decide, by decide, by decide⟩
  ⟨by decide,
    (updateState_raises_iff sampleStringify (themeOnly (.string "invalid".toList))
      (freshWorld false)).2.1 (Or.inr (Or.inl h1)),
    ((updateState_raises_iff sampleStringify (angleModeOnly (.string "RAD".toList))
      (freshWorld false)).2.2.2 (by decide)).1.trans (by decide)⟩

/-! ## The history -/

/-- The object `addToHistory` passes to `updateState`. -/
theorem validateUpdates_historyOnly (value : Value) :
    validateUpdates
      { currentValue := none, previousEquation := none, angleMode := none, theme := none,
        mode := none, history := some value } = none := by
  rfl

theorem cappedHistory_spec {α : Type} (h : List α) (item : α)
    (hn : h.length ≤ maxHistorySize) :
    (if (h ++ [item]).length > maxHistorySize then sliceLast maxHistorySize (h ++ [item])
      else h ++ [item]) =
      h.drop (h.length + 1 - min (h.length + 1) maxHistorySize) ++ [item] := by
  have hm : maxHistorySize = 100 := rfl
  rw [hm] at hn ⊢
  by_cases hlt : h.length < 100
  · have h1 : ¬ (h ++ [item]).length > 100 := by simp; omega
    rw [if_neg h1]
    have h2 : h.length + 1 - min (h.length + 1) 100 = 0 := by omega
    rw [h2, List.drop_zero]
  · have heq : h.length = 100 := by omega
    have h1 : (h ++ [item]).length > 100 := by simp; omega
    rw [if_pos h1]
    unfold sliceLast
    have h2 : (h ++ [item]).length - 100 = 1 := by simp; omega
    have h3 : h.length + 1 - min (h.length + 1) 100 = 1 := by omega
    rw [h2, h3]
    cases h with
    | nil => simp at heq
    | cons a rest => rfl

theorem addToHistory_of_items (js : Partial → List Char) (equation result now : List Char)
    (w : World) (h : List HistoryItem) (hh : w.manager.state.history = .items h)
    (hn : h.length ≤ maxHistorySize) :
    (addToHistory js equation result now w).thrown = none ∧
    (addToHistory js equation result now w).world.manager.state =
      { w.manager.state with
        history := .items (h.drop (h.length + 1 - min (h.length + 1) maxHistorySize) ++
          [{ equation := equation, result := result, timestamp := some now }]) } ∧
    (addToHistory js equation result now w) =
      updateState js
        { currentValue := none, previousEquation := none, angleMode := none, theme := none,
          mode := none,
          history := some (.items
            (h.drop (h.length + 1 - min (h.length + 1) maxHistorySize) ++
              [{ equation := equation, result := result, timestamp := some now }])) } w := by
  have e : addToHistory js equation result now w =
      updateState js
        { currentValue := none, previousEquation := none, angleMode := none, theme := none,
          mode := none,
          history := some (.items
            (h.drop (h.length + 1 - min (h.length + 1) maxHistorySize) ++
              [{ equation := equation, result := result, timestamp := some now }])) } w := by
    have hi : w.manager.state.history.iterate = some (h.map Element.item) := by
      rw [hh]
      rfl
    have hlen : (h.map Element.item).length ≤ maxHistorySize := by
      rw [List.length_map]
      exact hn
    have hcap := cappedHistory_spec (h.map Element.item)
      (Element.item { equation := equation, result := result, timestamp := some now }) hlen
    have hmap : List.drop ((h.map Element.item).length + 1 -
          min ((h.map Element.item).length + 1) maxHistorySize) (h.map Element.item) ++
        [Element.item { equation := equation, result := result, timestamp := some now }] =
        (h.drop (h.length + 1 - min (h.length + 1) maxHistorySize) ++
          [({ equation := equation, result := result, timestamp := some now } :
            HistoryItem)]).map Element.item := by
      rw [List.length_map, List.map_append, List.map_drop]
      rfl
    unfold addToHistory
    simp only [hi]
    rw [hcap, hmap, ofEntries_map_item]
  refine ⟨?_, ?_, e⟩
  · rw [e, updateState_thrown_eq_none_iff]
    exact ⟨validateUpdates_historyOnly _, by simp [Value.iterate]⟩
  · rw [e, updateState_state js _ w (validateUpdates_historyOnly _)]
    rfl

theorem addToHistory_entries (h : List HistoryItem) (item : HistoryItem)
    (hn : h.length ≤ 100) :
    (h.drop (h.length + 1 - min (h.length + 1) 100) ++ [item]).length =
      min (h.length + 1) 100 ∧
    (h.drop (h.length + 1 - min (h.length + 1) 100) ++ [item]).getLast? = some item ∧
    (h.drop (h.length + 1 - min (h.length + 1) 100) ++ [item]).dropLast =
      h.drop (h.length + 1 - min (h.length + 1) 100) ∧
    (h.length < 100 → h.drop (h.length + 1 - min (h.length + 1) 100) = h) ∧
    (h.length = 100 → h.drop (h.length + 1 - min (h.length + 1) 100) = h.tail) := by
  refine ⟨?_, ?_, ?_, ?_, ?_⟩
  · rw [List.length_append, List.length_drop]
    simp
    omega
  · simp
  · simp
  · intro hlt
    have : h.length + 1 - min (h.length + 1) 100 = 0 := by omega
    rw [this, List.drop_zero]
  · intro heq
    have : h.length + 1 - min (h.length + 1) 100 = 1 := by omega
    rw [this, List.drop_one]

/-- C22: the history is capped at 100 entries and keeps the most recent ones.
For a state whose history has `n ≤ 100` entries, `addToHistory(equation,
result)` returns, and the new history has `min (n + 1) 100` entries; its last
entry carries the equation and the result (and the time of the call); the
entries before it are the previous entries in their order, all of them when
`n < 100` and all but the oldest when `n = 100`; the other properties of the
state are as before. -/
theorem addToHistory_capped (js : Partial → List Char) (equation result now : List Char)
    (w : World) (h : List HistoryItem) (hh : w.manager.state.history = .items h)
    (hn : h.length ≤ 100) :
    (addToHistory js equation result now w).thrown = none ∧
    ∃ newHistory,
      (addToHistory js equation result now w).world.manager.state =
        { w.manager.state with history := .items newHistory } ∧
      newHistory.length = min (h.length + 1) 100 ∧
      newHistory.getLast? =
        some { equation := equation, result := result, timestamp := some now } ∧
      newHistory.dropLast = h.drop (h.length + 1 - min (h.length + 1) 100) ∧
      (h.length < 100 → newHistory.dropLast = h) ∧
      (h.length = 100 → newHistory.dropLast = h.tail) := by
  obtain ⟨h1, h2, _⟩ := addToHistory_of_items js equation result now w h hh hn
  obtain ⟨e1, e2, e3, e4, e5⟩ := addToHistory_entries h
    { equation := equation, result := result, timestamp := some now } hn
  refine ⟨h1, _, h2, e1, e2, e3, ?_, ?_⟩
  · intro hlt
    exact e3.trans (e4 hlt)
  · intro heq
    exact e3.trans (e5 heq)

/-- On the world behind the constructor, whose history is empty,
`addToHistory('2+2', '4')` leaves a history with that one entry. -/
theorem addToHistory_capped_witness :
    (freshWorld false).manager.state.history = .items [] ∧
    (addToHistory sampleStringify "2+2".toList "4".toList "t".toList
        (freshWorld false)).thrown = none :=
  ⟨by decide,
    (addToHistory_capped sampleStringify "2+2".toList "4".toList "t".toList (freshWorld false)
      [] (by decide) (by decide)).1⟩

/-- On a state whose `history` is the string `'ab'`, `addToHistory('2+2', '4')`
returns: the spread goes through the characters, and the new history is the
array of `'a'`, `'b'` and the new entry. -/
theorem addToHistory_string_history :
    (addToHistory sampleStringify "2+2".toList "4".toList "t".toList
        (updateState sampleStringify (historyOnly (.string "ab".toList))
          (freshWorld false)).world).thrown = none ∧
    (addToHistory sampleStringify "2+2".toList "4".toList "t".toList
        (updateState sampleStringify (historyOnly (.string "ab".toList))
          (freshWorld false)).world).world.manager.state.history =
      .array [.text ['a'], .text ['b'],
        .item { equation := "2+2".toList, result := "4".toList,
                timestamp := some "t".toList }] := by
  decide

/-! ## Persistence -/

theorem getItem_setItem (storage : Storage) (key value : List Char) :
    (storage.setItem key value).getItem key = some value := by
  unfold Storage.setItem Storage.getItem
  rw [List.find?_cons_of_pos]
  · rfl
  · simp

theorem getItem_removeItem (storage : Storage) (key : List Char) :
    (storage.removeItem key).getItem key = none := by
  unfold Storage.removeItem Storage.getItem
  rw [Option.map_eq_none', List.find?_eq_none]
  intro entry hmem
  have := (List.mem_filter.mp hmem).2
  simpa using this

theorem updateState_storage (js : Partial → List Char) (updates : Partial) (w : World)
    (h : (updateState js updates w).thrown = none) :
    (w.localStorage.rejectsWrites = false →
      (updateState js updates w).world.localStorage.items.getItem
          (storageKeyText w.manager.storageKey) =
        some (js (toSave (updateState js updates w).world.manager.state))) ∧
    (w.localStorage.rejectsWrites = true →
      (updateState js updates w).world.localStorage = w.localStorage) := by
  have hv := ((updateState_thrown_eq_none_iff js updates w).mp h).1
  rw [updateState_state js updates w hv, updateState_of_valid js updates w hv,
    notifySubscribers_localStorage]
  unfold saveState
  constructor
  · intro hr
    simp only [hr, Bool.false_eq_true, if_false]
    exact getItem_setItem _ _ _
  · intro hr
    simp only [hr, if_true]

theorem addToHistory_eq_updateState (js : Partial → List Char)
    (equation result now : List Char) (w : World)
    (h : (addToHistory js equation result now w).thrown = none) :
    ∃ updates, addToHistory js equation result now w = updateState js updates w := by
  unfold addToHistory at h ⊢
  cases hi : w.manager.state.history.iterate with
  | some history => exact ⟨_, rfl⟩
  | none =>
    simp only [hi] at h
    cases h

theorem toSave_fields (state : State) :
    (toSave state).currentValue = none ∧ (toSave state).previousEquation = none ∧
    (toSave state).angleMode = some state.angleMode ∧ (toSave state).theme = some state.theme ∧
    (toSave state).mode = some state.mode ∧ (toSave state).history = some state.history :=
  ⟨rfl, rfl, rfl, rfl, rfl, rfl⟩

/-- C23: when `localStorage.setItem` throws, `updateState({ angleMode: 'RAD' })`
still returns and the state takes the value, but nothing is stored under
`'calculator-state'`: `_saveState` catches the error. -/
theorem updateState_not_saved_when_write_fails :
    (updateState sampleStringify (angleModeOnly (.string "RAD".toList))
        (freshWorld true)).thrown = none ∧
    (updateState sampleStringify (angleModeOnly (.string "RAD".toList))
        (freshWorld true)).world.manager.state.angleMode = .string "RAD".toList ∧
    (updateState sampleStringify (angleModeOnly (.string "RAD".toList))
        (freshWorld true)).world.localStorage.items.getItem "calculator-state".toList = none ∧
    sampleStringify (toSave (updateState sampleStringify (angleModeOnly (.string "RAD".toList))
        (freshWorld true)).world.manager.state) = "RAD".toList := by
  decide

/-- C23 (amended): for a manager whose `storageKey` is `'calculator-state'`, after
every `updateState` or `addToHistory` that returns, if `localStorage.setItem`
does not throw, the value stored under `'calculator-state'` is the
serialization of the object with exactly the properties `angleMode`, `theme`,
`mode` and `history` of the new state, without `currentValue` and
`previousEquation`; if `setItem` throws, the call returns all the same and
storage is as before. -/
theorem stored_value_after_update (js : Partial → List Char) (w : World)
    (hk : w.manager.storageKey = some "calculator-state".toList) :
    (∀ updates, (updateState js updates w).thrown = none →
      (w.localStorage.rejectsWrites = false →
        (updateState js updates w).world.localStorage.items.getItem
            "calculator-state".toList =
          some (js (toSave (updateState js updates w).world.manager.state))) ∧
      (w.localStorage.rejectsWrites = true →
        (updateState js updates w).world.localStorage = w.localStorage)) ∧
    (∀ equation result now, (addToHistory js equation result now w).thrown = none →
      (w.localStorage.rejectsWrites = false →
        (addToHistory js equation result now w).world.localStorage.items.getItem
            "calculator-state".toList =
          some (js (toSave (addToHistory js equation result now w).world.manager.state))) ∧
      (w.localStorage.rejectsWrites = true →
        (addToHistory js equation result now w).world.localStorage = w.localStorage)) ∧
    (∀ state, (toSave state).currentValue = none ∧ (toSave state).previousEquation = none ∧
      (toSave state).angleMode = some state.angleMode ∧
      (toSave state).theme = some state.theme ∧
      (toSave state).mode = some state.mode ∧
      (toSave state).history = some state.history) := by
  have hkey : storageKeyText w.manager.storageKey = "calculator-state".toList := by
    rw [hk]
    rfl
  refine ⟨?_, ?_, toSave_fields⟩
  · intro updates h
    have := updateState_storage js updates w h
    rw [hkey] at this
    exact this
  · intro equation result now h
    obtain ⟨updates, e⟩ := addToHistory_eq_updateState js equation result now w h
    rw [e] at h ⊢
    have := updateState_storage js updates w h
    rw [hkey] at this
    exact this

/-- On the world behind the constructor with a storage that takes writes,
`updateState({ angleMode: 'RAD' })` stores the serialization of the new
state. -/
theorem stored_value_after_update_witness :
    (freshWorld false).manager.storageKey = some "calculator-state".toList ∧
    (updateState sampleStringify (angleModeOnly (.string "RAD".toList))
        (freshWorld false)).world.localStorage.items.getItem "calculator-state".toList =
      some (sampleStringify (toSave (updateState sampleStringify
        (angleModeOnly (.string "RAD".toList)) (freshWorld false)).world.manager.state)) :=
  ⟨by decide,
    ((stored_value_after_update sampleStringify (freshWorld false) (by decide)).1
      (angleModeOnly (.string "RAD".toList)) (by decide)).1 (by decide)⟩

/-! ## Reset -/

theorem resetCalculation_eq (js : Partial → List Char) (w : World) :
    resetCalculation js w =
      notifySubscribers (saveState js
        { w with manager := { w.manager with
            state := { w.manager.state with
              currentValue := .string [], previousEquation := .string [] } } }) := by
  unfold resetCalculation
  exact updateState_of_valid js
    { currentValue := some (.string []), previousEquation := some (.string []),
      angleMode := none, theme := none, mode := none, history := none } w rfl

theorem resetCalculation_state (js : Partial → List Char) (w : World) :
    (resetCalculation js w).world.manager.state =
      { w.manager.state with currentValue := .string [], previousEquation := .string [] } := by
  rw [resetCalculation_eq, notifySubscribers_manager, saveState_manager]

theorem resetCalculation_thrown_eq_none_iff (js : Partial → List Char) (w : World) :
    (resetCalculation js w).thrown = none ↔ w.manager.state.history.iterate ≠ none := by
  rw [resetCalculation_eq, notifySubscribers_thrown_eq_none_iff, saveState_manager]

theorem reset_eq (w : World) :
    reset w =
      { thrown := none
        world :=
          { manager := { w.manager with state := defaultState }
            localStorage :=
              { w.localStorage with
                items := w.localStorage.items.removeItem (storageKeyText w.manager.storageKey) }
            calls := w.calls ++ w.manager.subscribers.map
              (fun callback => (callback, defaultState)) } } := by
  unfold reset
  exact notifySubscribers_of_iterate _ [] rfl

theorem reset_storage (w : World) :
    (reset w).world.localStorage.items.getItem (storageKeyText w.manager.storageKey) =
      none := by
  rw [reset_eq]
  exact getItem_removeItem _ _

/-- C24: `resetCalculation` sets `currentValue` and `previousEquation` to `''`
while `angleMode`, `theme`, `mode` and `history` stay as they are, for every
state (it returns exactly when the `history` of the state is iterable; when it
is not, the two properties are set all the same before the spread in
`getState()` throws).  `reset` returns, gives every property its default value
(`''`, `''`, `'DEG'`, `'dark'`, `'calculator'`, `[]`) and removes the entry
stored under the key of the manager, which is `'calculator-state'` behind the
constructor. -/
theorem reset_and_resetCalculation (js : Partial → List Char) (w : World) :
    (resetCalculation js w).world.manager.state.currentValue = .string [] ∧
    (resetCalculation js w).world.manager.state.previousEquation = .string [] ∧
    (resetCalculation js w).world.manager.state.angleMode = w.manager.state.angleMode ∧
    (resetCalculation js w).world.manager.state.theme = w.manager.state.theme ∧
    (resetCalculation js w).world.manager.state.mode = w.manager.state.mode ∧
    (resetCalculation js w).world.manager.state.history = w.manager.state.history ∧
    ((resetCalculation js w).thrown = none ↔ w.manager.state.history.iterate ≠ none) ∧
    (∀ entries, w.manager.state.history = .items entries →
      (resetCalculation js w).thrown = none) ∧
    (reset w).thrown = none ∧
    (reset w).world.manager.state.currentValue = .string [] ∧
    (reset w).world.manager.state.previousEquation = .string [] ∧
    (reset w).world.manager.state.angleMode = .string "DEG".toList ∧
    (reset w).world.manager.state.theme = .string "dark".toList ∧
    (reset w).world.manager.state.mode = .string "calculator".toList ∧
    (reset w).world.manager.state.history = .items [] ∧
    (reset w).world.localStorage.items.getItem (storageKeyText w.manager.storageKey) = none ∧
    (w.manager.storageKey = some "calculator-state".toList →
      (reset w).world.localStorage.items.getItem "calculator-state".toList = none) ∧
    ∀ jsonParse localStorage,
      (World.create jsonParse localStorage).manager.storageKey =
        some "calculator-state".toList := by
  have hs := resetCalculation_state js w
  have hr := reset_eq w
  refine ⟨?_, ?_, ?_, ?_, ?_, ?_, resetCalculation_thrown_eq_none_iff js w, ?_, ?_, ?_, ?_,
    ?_, ?_, ?_, ?_, reset_storage w, ?_, fun _ _ => rfl⟩
  · rw [hs]
  · rw [hs]
  · rw [hs]
  · rw [hs]
  · rw [hs]
  · rw [hs]
  · intro entries he
    rw [resetCalculation_thrown_eq_none_iff, he]
    simp [Value.iterate]
  · rw [hr]
  · rw [hr]; rfl
  · rw [hr]; rfl
  · rw [hr]; rfl
  · rw [hr]; rfl
  · rw [hr]; rfl
  · rw [hr]; rfl
  · intro hk
    have := reset_storage w
    rw [hk] at this
    exact this

/-- On a state whose `history` is the number `5`, `resetCalculation` raises from
the spread in `getState()`, with `currentValue` and `previousEquation` set to
`''` and `history` as it was; `reset` returns on the same state. -/
theorem resetCalculation_on_number_history :
    (resetCalculation sampleStringify
        (updateState sampleStringify (historyOnly (.other 5)) (freshWorld false)).world).thrown =
      some notIterableMessage ∧
    (resetCalculation sampleStringify
        (updateState sampleStringify (historyOnly (.other 5))
          (freshWorld false)).world).world.manager.state =
      { defaultState with history := .other 5 } ∧
    (reset (updateState sampleStringify (historyOnly (.other 5))
        (freshWorld false)).world).thrown = none := by
  decide

/-! ## Subscribers -/

theorem updateState_calls (js : Partial → List Char) (updates : Partial) (w : World)
    (h : (updateState js updates w).thrown = none) :
    (updateState js updates w).world.manager.subscribers = w.manager.subscribers ∧
    ∃ copy, (updateState js updates w).world.manager.getState = .ok copy ∧
      (updateState js updates w).world.calls =
        w.calls ++ w.manager.subscribers.map (fun callback => (callback, copy)) := by
  obtain ⟨hv, hi⟩ := (updateState_thrown_eq_none_iff js updates w).mp h
  refine ⟨updateState_subscribers js updates w, ?_⟩
  cases hit : (updates.history.getD w.manager.state.history).iterate with
  | none => exact absurd hit hi
  | some entries =>
    have hsave : (saveState js { w with manager := { w.manager with
        state := w.manager.state.spread updates } }).manager.state.history.iterate =
        some entries := by
      rw [saveState_manager]
      exact hit
    refine ⟨{ w.manager.state.spread updates with history := Value.ofEntries entries }, ?_, ?_⟩
    · rw [updateState_of_valid js updates w hv, notifySubscribers_manager, saveState_manager]
      exact getState_of_iterate hit
    · rw [updateState_of_valid js updates w hv, notifySubscribers_of_iterate _ entries hsave]
      simp only [saveState_calls, saveState_manager]

theorem updateState_calls_of_raise (js : Partial → List Char) (updates : Partial) (w : World)
    (h : (updateState js updates w).thrown ≠ none) :
    (updateState js updates w).world.calls = w.calls := by
  cases hv : validateUpdates updates with
  | some message =>
    rw [updateState_of_invalid js updates w (by rw [hv]; exact Option.some_ne_none _)]
  | none =>
    have hi : (updates.history.getD w.manager.state.history).iterate = none := by
      by_contra hi
      exact h ((updateState_thrown_eq_none_iff js updates w).mpr ⟨hv, hi⟩)
    rw [updateState_of_not_iterable js updates w hv hi, saveState_calls]

theorem getState_history_items {manager : Manager} {copy : State} {entries : List HistoryItem}
    (hg : manager.getState = .ok copy) (hh : manager.state.history = .items entries) :
    copy = manager.state := by
  rw [getState_of_items hh] at hg
  exact (Except.ok.inj hg).symm

theorem callsTo_append_map (callback : Nat) (w : World) (calls : List (Nat × State))
    (subscribers : List Nat) (state : State) (hw : calls = w.calls ++
      subscribers.map (fun sub => (sub, state))) (hn : callback ∉ subscribers) :
    calls.filter (fun call => call.1 == callback) = callsTo callback w := by
  unfold callsTo
  rw [hw, List.filter_append]
  have : (subscribers.map (fun sub => (sub, state))).filter
      (fun call => call.1 == callback) = [] := by
    rw [List.filter_eq_nil_iff]
    intro call hmem
    obtain ⟨sub, hsub, rfl⟩ := List.mem_map.mp hmem
    have : sub ≠ callback := fun h => hn (h ▸ hsub)
    simpa using this
  rw [this, List.append_nil]

theorem updateState_keeps (js : Partial → List Char) (updates : Partial) (w : World)
    (callback : Nat) (hn : callback ∉ w.manager.subscribers) :
    callback ∉ (updateState js updates w).world.manager.subscribers ∧
    callsTo callback (updateState js updates w).world = callsTo callback w := by
  rw [updateState_subscribers]
  refine ⟨hn, ?_⟩
  by_cases h : (updateState js updates w).thrown = none
  · obtain ⟨_, copy, _, h2⟩ := updateState_calls js updates w h
    exact callsTo_append_map callback w _ _ _ h2 hn
  · unfold callsTo
    rw [updateState_calls_of_raise js updates w h]

theorem addToHistory_keeps (js : Partial → List Char) (equation result now : List Char)
    (w : World) (callback : Nat) (hn : callback ∉ w.manager.subscribers) :
    callback ∉ (addToHistory js equation result now w).world.manager.subscribers ∧
    callsTo callback (addToHistory js equation result now w).world = callsTo callback w := by
  unfold addToHistory
  split
  · exact updateState_keeps js _ w callback hn
  · exact ⟨hn, rfl⟩

theorem reset_keeps (w : World) (callback : Nat) (hn : callback ∉ w.manager.subscribers) :
    callback ∉ (reset w).world.manager.subscribers ∧
    callsTo callback (reset w).world = callsTo callback w := by
  rw [reset_eq]
  exact ⟨hn, callsTo_append_map callback w _ w.manager.subscribers defaultState rfl hn⟩

theorem run_keeps (js : Partial → List Char) (w : World) (call : Call) (callback : Nat)
    (hcall : call ≠ .subscribe callback) (hn : callback ∉ w.manager.subscribers) :
    callback ∉ (call.run js w).manager.subscribers ∧
    callsTo callback (call.run js w) = callsTo callback w := by
  cases call with
  | updateState updates => exact updateState_keeps js updates w callback hn
  | addToHistory equation result now =>
    exact addToHistory_keeps js equation result now w callback hn
  | clearHistory => exact updateState_keeps js _ w callback hn
  | reset => exact reset_keeps w callback hn
  | resetCalculation => exact updateState_keeps js _ w callback hn
  | subscribe other =>
    have hne : callback ≠ other := fun h => hcall (by rw [h])
    refine ⟨?_, rfl⟩
    show callback ∉ w.manager.subscribers ++ [other]
    simp [hn, hne]
  | unsubscribe other =>
    refine ⟨?_, rfl⟩
    show callback ∉ w.manager.subscribers.filter (fun sub => sub != other)
    intro hmem
    exact hn (List.mem_filter.mp hmem).1

theorem runCalls_keeps (js : Partial → List Char) (calls : List Call) (w : World)
    (callback : Nat) (hcalls : Call.subscribe callback ∉ calls)
    (hn : callback ∉ w.manager.subscribers) :
    callback ∉ (runCalls js w calls).manager.subscribers ∧
    callsTo callback (runCalls js w calls) = callsTo callback w := by
  induction calls generalizing w with
  | nil => exact ⟨hn, rfl⟩
  | cons call rest ih =>
    have hcall : call ≠ .subscribe callback := fun h => hcalls (h ▸ List.mem_cons_self _ _)
    have hrest : Call.subscribe callback ∉ rest := fun h => hcalls (List.mem_cons_of_mem _ h)
    obtain ⟨h1, h2⟩ := run_keeps js w call callback hcall hn
    obtain ⟨h3, h4⟩ := ih (call.run js w) hrest h1
    exact ⟨h3, h4.trans h2⟩

theorem not_mem_unsubscribe (callback : Nat) (w : World) :
    callback ∉ (unsubscribe callback w).manager.subscribers := by
  show callback ∉ w.manager.subscribers.filter (fun sub => sub != callback)
  intro hmem
  have := (List.mem_filter.mp hmem).2
  simp at this

theorem unsubscribe_of_not_mem (callback : Nat) (w : World)
    (hn : callback ∉ w.manager.subscribers) : unsubscribe callback w = w := by
  unfold unsubscribe
  have : w.manager.subscribers.filter (fun sub => sub != callback) = w.manager.subscribers := by
    rw [List.filter_eq_self]
    intro sub hsub
    have : sub ≠ callback := fun h => hn (h ▸ hsub)
    simpa using this
  rw [this]

theorem count_unsubscribe (callback other : Nat) (w : World) (hne : other ≠ callback) :
    (unsubscribe callback w).manager.subscribers.count other =
      w.manager.subscribers.count other := by
  show (w.manager.subscribers.filter (fun sub => sub != callback)).count other = _
  rw [List.count_filter]
  simpa using hne

theorem length_filter_map_calls (subscribers : List Nat) (state : State) (other : Nat) :
    ((subscribers.map (fun sub => (sub, state))).filter
      (fun call => call.1 == other)).length = subscribers.count other := by
  induction subscribers with
  | nil => rfl
  | cons sub rest ih =>
    rw [List.map_cons, List.filter_cons, List.count_cons]
    by_cases h : sub = other
    · subst h
      simp [ih]
    · have hb : (sub == other) = false := by simpa using h
      simp [hb, ih]

theorem updateState_invocations (js : Partial → List Char) (updates : Partial) (w : World)
    (h : (updateState js updates w).thrown = none) (other : Nat) :
    (callsTo other (updateState js updates w).world).length =
      (callsTo other w).length + w.manager.subscribers.count other := by
  obtain ⟨_, copy, _, h2⟩ := updateState_calls js updates w h
  unfold callsTo
  rw [h2, List.filter_append, List.length_append, length_filter_map_calls]

/-- C25: once the function returned by `subscribe(cb)` has been called, no later
call of `updateState`, `addToHistory`, `clearHistory`, `reset` or
`resetCalculation` invokes `cb`, as long as `cb` is not subscribed again.
Calling the function again changes nothing, directly or after other calls, and
it never raises.  It changes the array of subscribers only, and there only the
entries of `cb`: every other callback keeps its entries.  An `updateState` that
returns invokes every entry of the array once, in order, with the copy of the
new state that `getState()` gives (the new state itself when its history is an
array of history entries), so a callback subscribed once is invoked exactly
once. -/
theorem unsubscribe_stops_callback (js : Partial → List Char) (w : World) (cb : Nat) :
    (∀ calls, Call.subscribe cb ∉ calls →
      callsTo cb (runCalls js (unsubscribe cb w) calls) = callsTo cb w ∧
      unsubscribe cb (runCalls js (unsubscribe cb w) calls) =
        runCalls js (unsubscribe cb w) calls) ∧
    unsubscribe cb (unsubscribe cb w) = unsubscribe cb w ∧
    (unsubscribe cb w).manager.state = w.manager.state ∧
    (unsubscribe cb w).localStorage = w.localStorage ∧
    (unsubscribe cb w).calls = w.calls ∧
    (unsubscribe cb w).manager.subscribers =
      w.manager.subscribers.filter (fun sub => sub != cb) ∧
    (∀ other, other ≠ cb →
      (unsubscribe cb w).manager.subscribers.count other =
        w.manager.subscribers.count other) ∧
    (∀ updates, (updateState js updates (unsubscribe cb w)).thrown = none →
      (updateState js updates (unsubscribe cb w)).world.manager.subscribers =
        (unsubscribe cb w).manager.subscribers ∧
      (∃ copy, (updateState js updates (unsubscribe cb w)).world.manager.getState = .ok copy ∧
        (updateState js updates (unsubscribe cb w)).world.calls =
          w.calls ++ (unsubscribe cb w).manager.subscribers.map (fun sub => (sub, copy))) ∧
      (∀ entries,
        (updateState js updates (unsubscribe cb w)).world.manager.state.history =
          .items entries →
        (updateState js updates (unsubscribe cb w)).world.calls =
          w.calls ++ (unsubscribe cb w).manager.subscribers.map
            (fun sub =>
              (sub, (updateState js updates (unsubscribe cb w)).world.manager.state))) ∧
      ∀ other, other ≠ cb → w.manager.subscribers.count other = 1 →
        (callsTo other (updateState js updates (unsubscribe cb w)).world).length =
          (callsTo other w).length + 1) := by
  refine ⟨?_, ?_, rfl, rfl, rfl, rfl, ?_, ?_⟩
  · intro calls hcalls
    obtain ⟨h1, h2⟩ := runCalls_keeps js calls (unsubscribe cb w) cb hcalls
      (not_mem_unsubscribe cb w)
    exact ⟨h2, unsubscribe_of_not_mem cb _ h1⟩
  · exact unsubscribe_of_not_mem cb _ (not_mem_unsubscribe cb w)
  · intro other hne
    exact count_unsubscribe cb other w hne
  · intro updates h
    obtain ⟨h1, copy, hg, h2⟩ := updateState_calls js updates (unsubscribe cb w) h
    refine ⟨h1, ⟨copy, hg, h2⟩, ?_, ?_⟩
    · intro entries hh
      rw [h2, getState_history_items hg hh]
      rfl
    · intro other hne hcount
      rw [updateState_invocations js updates (unsubscribe cb w) h other,
        count_unsubscribe cb other w hne, hcount]
      rfl

/-- With the callbacks `1` and `2` subscribed on the world behind the
constructor and `1` unsubscribed twice, `updateState` with
`currentValue` `'123'` invokes `2` once and `1` not at all. -/
theorem unsubscribe_stops_callback_witness :
    (runCalls sampleStringify
      (unsubscribe 1 (subscribe 2 (subscribe 1 (freshWorld false))))
      [.unsubscribe 1,
        .updateState { currentValue := some (.string "123".toList), previousEquation := none,
                       angleMode := none, theme := none, mode := none,
                       history := none }]).calls =
      [(2, { defaultState with currentValue := .string "123".toList })] ∧
    callsTo 1 (runCalls sampleStringify
      (unsubscribe 1 (subscribe 2 (subscribe 1 (freshWorld false))))
      [.unsubscribe 1,
        .updateState { currentValue := some (.string "123".toList), previousEquation := none,
                       angleMode := none, theme := none, mode := none,
                       history := none }]) =
      callsTo 1 (subscribe 2 (subscribe 1 (freshWorld false))) :=
  ⟨by decide,
    ((unsubscribe_stops_callback sampleStringify (subscribe 2 (subscribe 1 (freshWorld false)))
      1).1 _ (by decide)).1⟩

end StateManager

namespace CalculatorApp

open ExpressionParser

/-! ## The values of the buttons and the parser -/

/-- C30: the keypad button `%` (type `operator`) and the function chip `^` hand
`handleInput` a character that the character validation of the parser does not
accept: the expressions `5%` and `2^3`, built from buttons only, are rejected
with `Invalid character in expression`.  The values handed on by the keypad are
those of type `number` or `operator`, and every other value of the two
components consists of accepted characters. -/
theorem button_values_rejected :
    keypadInputs = keypadNumberOrOperator ∧
    "%".toList ∈ keypadNumberOrOperator ∧
    "^".toList ∈ FunctionChips.functions.map (fun c => c.value) ∧
    handleInput (handleInput [] "5".toList) "%".toList = "5%".toList ∧
    parse "5%".toList = .error .invalidCharacter ∧
    handleInput (handleInput (handleInput [] "2".toList) "^".toList) "3".toList =
      "2^3".toList ∧
    parse "2^3".toList = .error .invalidCharacter ∧
    ∀ v ∈ inputValues,
      (v.all isValidChar = true ↔ v ≠ "%".toList ∧ v ≠ "^".toList) := by
  decide

end CalculatorApp
